import Mathlib

/-!
Verification of the goaoc graph library: a shallow embedding of the
adjacency-map graph store (`graphData`, `DirectedGraph`, `UndirectedGraph`)
and of the two path-finding algorithms (`BFS`/`BFSTo`, `Dijkstra`/`DijkstraTo`)
that operate on it, together with proofs of the specified properties.

Modelling conventions:
- Go maps (`map[Node[K]]V`) are modelled as association lists with unique
  keys; `alookup`, `ainsert` (last-write-wins overwrite), `aerase` mirror map
  read, write and `delete`.  Go map iteration order is unspecified; the list
  order is one admissible order.
- `float64` edge weights are modelled as exact rationals `ℚ`; the value
  `math.Inf(1)` used by the algorithms is modelled as `⊤` in `WithTop ℚ`.
  A read of a missing key yields the Go zero value (`0`, `false`, the zero
  Node), exactly as in Go.
- The unbounded Go loops are modelled with explicit fuel chosen as an upper
  bound of the exact number of iterations the Go loop performs (see the
  comments at `Dijkstra`, `BFS` and `walkBack`); all theorems are proved at
  those fuel values.
- Aliasing of the mutable map structure (needed only for the `Copy`
  independence claim) is modelled by an explicit store of inner maps
  addressed by natural-number references (`Store`, `HGraph`).
-/

namespace GoGraph

/-- `Node[K comparable]` from graph.go: a wrapper around a comparable key. -/
structure Node (K : Type) where
  ID : K
deriving DecidableEq, Repr

instance {K : Type} [Inhabited K] : Inhabited (Node K) := ⟨⟨default⟩⟩

variable {K : Type} [DecidableEq K]

/-- Read a Go map modelled as an association list. -/
def alookup {α : Type} : List (Node K × α) → Node K → Option α
  | [], _ => none
  | (k, a) :: rest, n => if k = n then some a else alookup rest n

/-- Write a Go map entry (overwrite if the key exists, insert otherwise). -/
def ainsert {α : Type} : List (Node K × α) → Node K → α → List (Node K × α)
  | [], n, a => [(n, a)]
  | (k, b) :: rest, n, a => if k = n then (k, a) :: rest else (k, b) :: ainsert rest n a

/-- Go `delete` on a map modelled as an association list. -/
def aerase {α : Type} (m : List (Node K × α)) (n : Node K) : List (Node K × α) :=
  m.filter (fun p => decide (p.1 ≠ n))

/-- The key list of a Go map modelled as an association list. -/
def akeys {α : Type} (m : List (Node K × α)) : List (Node K) :=
  m.map Prod.fst

/-- The inner adjacency map of one node: neighbor ↦ edge weight. -/
abbrev AdjMap (K : Type) := List (Node K × ℚ)

/-- `graphData[K]` from graph.go: `Adjacencies map[Node[K]]map[Node[K]]float64`. -/
structure graphData (K : Type) where
  Adjacencies : List (Node K × AdjMap K)
deriving DecidableEq

/-- `newGraphData` from graph.go: the empty store. -/
def newGraphData (K : Type) : graphData K := ⟨[]⟩

/-- `NewNode` from graph.go. -/
def graphData.NewNode (_ : graphData K) (obj : K) : Node K := ⟨obj⟩

/-- `AddNode` from graph.go: insert `n` with empty adjacency if absent. -/
def graphData.AddNode (g : graphData K) (n : Node K) : graphData K :=
  if (alookup g.Adjacencies n).isSome then g else ⟨ainsert g.Adjacencies n []⟩

/-- `AddNodesFrom` from graph.go. -/
def graphData.AddNodesFrom (g : graphData K) (ns : List (Node K)) : graphData K :=
  ns.foldl graphData.AddNode g

/-- `HasNode` from graph.go. -/
def graphData.HasNode (g : graphData K) (u : Node K) : Bool :=
  (alookup g.Adjacencies u).isSome

/-- `HasEdge` from graph.go. -/
def graphData.HasEdge (g : graphData K) (u v : Node K) : Bool :=
  match alookup g.Adjacencies u with
  | none => false
  | some m => (alookup m v).isSome

/-- `RemoveNode` from graph.go: delete `n` from every adjacency map, then
delete its own record. -/
def graphData.RemoveNode (g : graphData K) (n : Node K) : graphData K :=
  ⟨aerase (g.Adjacencies.map (fun p => (p.1, aerase p.2 n))) n⟩

/-- `RemoveNodesFrom` from graph.go. -/
def graphData.RemoveNodesFrom (g : graphData K) (ns : List (Node K)) : graphData K :=
  ns.foldl graphData.RemoveNode g

/-- `Nodes` from graph.go: the keys of the adjacency map. -/
def graphData.Nodes (g : graphData K) : List (Node K) :=
  akeys g.Adjacencies

/-- `Clear` from graph.go. -/
def graphData.Clear (_ : graphData K) : graphData K := ⟨[]⟩

/-- `NumberOfNodes` from graph.go. -/
def graphData.NumberOfNodes (g : graphData K) : Nat :=
  g.Nodes.length

/-- `Successors` from graph.go: keys of `g.Adjacencies[n]` (empty for a
missing node, as the nil map has no keys). -/
def graphData.Successors (g : graphData K) (n : Node K) : List (Node K) :=
  match alookup g.Adjacencies n with
  | none => []
  | some m => akeys m

/-- `Predecessors` from graph.go: walk all nodes, walk each node's
adjacency entries, and append the node once for every entry pointing to `n`. -/
def graphData.Predecessors (g : graphData K) (n : Node K) : List (Node K) :=
  g.Adjacencies.flatMap (fun p => (p.2.filter (fun q => decide (q.1 = n))).map (fun _ => p.1))

/-- `InDegree` from graph.go. -/
def graphData.InDegree (g : graphData K) (n : Node K) : Nat :=
  (g.Predecessors n).length

/-- `OutDegree` from graph.go. -/
def graphData.OutDegree (g : graphData K) (n : Node K) : Nat :=
  (g.Successors n).length

/-- `Degree` from graph.go: the sum of in- and out-degree. -/
def graphData.Degree (g : graphData K) (n : Node K) : Nat :=
  g.InDegree n + g.OutDegree n

/-- `Neighbors` from graph.go: `append(g.Successors(n), g.Predecessors(n)...)`. -/
def graphData.Neighbors (g : graphData K) (n : Node K) : List (Node K) :=
  g.Successors n ++ g.Predecessors n

/-- The assignment `g.Adjacencies[u][v] = w`.  The Go code only executes it
after guaranteeing that `u` has a record (assigning through a nil map would
fault), so the `none` branch is unreachable in all modelled call sites. -/
def setEntry (g : graphData K) (u v : Node K) (w : ℚ) : graphData K :=
  match alookup g.Adjacencies u with
  | none => g
  | some m => ⟨ainsert g.Adjacencies u (ainsert m v w)⟩

/-- The statement `delete(g.Adjacencies[u], v)`; deleting from the nil map of
an absent `u` is a no-op in Go. -/
def delEntry (g : graphData K) (u v : Node K) : graphData K :=
  match alookup g.Adjacencies u with
  | none => g
  | some m => ⟨ainsert g.Adjacencies u (aerase m v)⟩

/-- `DirectedGraph` from directed.go: embeds `graphData`. -/
structure DirectedGraph (K : Type) where
  gd : graphData K
deriving DecidableEq

/-- `NewDirectedGraph` from directed.go. -/
def NewDirectedGraph (K : Type) : DirectedGraph K := ⟨newGraphData K⟩

/-- `DirectedGraph.AddEdge` from directed.go: add missing endpoints, then
store the single entry u→v. -/
def DirectedGraph.AddEdge (g : DirectedGraph K) (u v : Node K) (w : ℚ) : DirectedGraph K :=
  let g1 := if (alookup g.gd.Adjacencies u).isSome then g.gd else g.gd.AddNode u
  let g2 := if (alookup g1.Adjacencies v).isSome then g1 else g1.AddNode v
  ⟨setEntry g2 u v w⟩

/-- `DirectedGraph.RemoveEdge` from directed.go: remove only u→v. -/
def DirectedGraph.RemoveEdge (g : DirectedGraph K) (u v : Node K) : DirectedGraph K :=
  ⟨delEntry g.gd u v⟩

/-- Promoted `Degree` on `DirectedGraph` (method promotion of the embedded
`graphData.Degree`). -/
def DirectedGraph.Degree (g : DirectedGraph K) (n : Node K) : Nat :=
  g.gd.Degree n

/-- Promoted `InDegree` on `DirectedGraph`. -/
def DirectedGraph.InDegree (g : DirectedGraph K) (n : Node K) : Nat :=
  g.gd.InDegree n

/-- Promoted `OutDegree` on `DirectedGraph`. -/
def DirectedGraph.OutDegree (g : DirectedGraph K) (n : Node K) : Nat :=
  g.gd.OutDegree n

/-- Promoted `Neighbors` on `DirectedGraph`. -/
def DirectedGraph.Neighbors (g : DirectedGraph K) (n : Node K) : List (Node K) :=
  g.gd.Neighbors n

/-- `UndirectedGraph` from undirected.go: embeds `graphData`. -/
structure UndirectedGraph (K : Type) where
  gd : graphData K
deriving DecidableEq

/-- `NewUndirectedGraph` from undirected.go. -/
def NewUndirectedGraph (K : Type) : UndirectedGraph K := ⟨newGraphData K⟩

/-- `UndirectedGraph.AddEdge` from undirected.go: add missing endpoints, then
store the entry in both directions. -/
def UndirectedGraph.AddEdge (g : UndirectedGraph K) (u v : Node K) (w : ℚ) : UndirectedGraph K :=
  let g1 := if (alookup g.gd.Adjacencies u).isSome then g.gd else g.gd.AddNode u
  let g2 := if (alookup g1.Adjacencies v).isSome then g1 else g1.AddNode v
  ⟨setEntry (setEntry g2 u v w) v u w⟩

/-- `UndirectedGraph.RemoveEdge` from undirected.go: remove both directions. -/
def UndirectedGraph.RemoveEdge (g : UndirectedGraph K) (u v : Node K) : UndirectedGraph K :=
  ⟨delEntry (delEntry g.gd u v) v u⟩

/-- Promoted `AddNode` on `UndirectedGraph`. -/
def UndirectedGraph.AddNode (g : UndirectedGraph K) (n : Node K) : UndirectedGraph K :=
  ⟨g.gd.AddNode n⟩

/-- Promoted `RemoveNode` on `UndirectedGraph`. -/
def UndirectedGraph.RemoveNode (g : UndirectedGraph K) (n : Node K) : UndirectedGraph K :=
  ⟨g.gd.RemoveNode n⟩

/-- Promoted `HasEdge` on `UndirectedGraph`. -/
def UndirectedGraph.HasEdge (g : UndirectedGraph K) (u v : Node K) : Bool :=
  g.gd.HasEdge u v

/-- `UndirectedGraph.Neighbors` override from undirected.go. -/
def UndirectedGraph.Neighbors (g : UndirectedGraph K) (n : Node K) : List (Node K) :=
  g.gd.Successors n

/-- `UndirectedGraph.Predecessors` override from undirected.go. -/
def UndirectedGraph.Predecessors (g : UndirectedGraph K) (n : Node K) : List (Node K) :=
  g.gd.Successors n

/-- `UndirectedGraph.Degree` override from undirected.go: the number of
neighbors. -/
def UndirectedGraph.Degree (g : UndirectedGraph K) (n : Node K) : Nat :=
  (g.Neighbors n).length

/-- The weight entry stored for the ordered pair (u,v), if any. -/
def lookW (g : graphData K) (u v : Node K) : Option ℚ :=
  (alookup g.Adjacencies u).bind (fun m => alookup m v)

/-- Well-formedness of a `graphData` store.  Every graph reachable through
the Go API satisfies it: the outer map and each inner map of a Go map have
unique keys, and every adjacency target is itself a node (maintained by
`AddEdge`, which inserts missing endpoints, and by `RemoveNode`, which scrubs
all references). -/
def wf (g : graphData K) : Prop :=
  (akeys g.Adjacencies).Nodup ∧
  (∀ p ∈ g.Adjacencies, (akeys p.2).Nodup) ∧
  (∀ p ∈ g.Adjacencies, ∀ q ∈ p.2, q.1 ∈ akeys g.Adjacencies)

instance (g : graphData K) : Decidable (wf g) := by
  unfold wf; infer_instance

/-- One mutation of an `UndirectedGraph` (the operations named by the
symmetry claim). -/
inductive UOp (K : Type) where
  | addEdge (u v : Node K) (w : ℚ)
  | removeEdge (u v : Node K)
  | addNode (n : Node K)
  | removeNode (n : Node K)

/-- Apply one mutation to an `UndirectedGraph`. -/
def applyUOp (g : UndirectedGraph K) : UOp K → UndirectedGraph K
  | .addEdge u v w => g.AddEdge u v w
  | .removeEdge u v => g.RemoveEdge u v
  | .addNode n => g.AddNode n
  | .removeNode n => g.RemoveNode n

/-- Apply a sequence of mutations to an `UndirectedGraph`. -/
def applyUOps (g : UndirectedGraph K) (ops : List (UOp K)) : UndirectedGraph K :=
  ops.foldl applyUOp g

/-- Symmetry of the stored adjacency: the entry for (u,v) (present or not,
and its weight) coincides with the entry for (v,u). -/
def Sym (g : graphData K) : Prop :=
  ∀ u v : Node K, lookW g u v = lookW g v u

/-- There is a stored adjacency entry from `u` to `v`. -/
def edgeEx (g : graphData K) (u v : Node K) : Prop :=
  (lookW g u v).isSome

instance (g : graphData K) (u v : Node K) : Decidable (edgeEx g u v) := by
  unfold edgeEx; infer_instance

/-- The stored weight of the edge (u,v), `0` when absent (the Go zero
value); only read along existing edges. -/
def wgt (g : graphData K) (u v : Node K) : ℚ :=
  (lookW g u v).getD 0

/-- Consecutive elements of the list are joined by stored adjacency entries. -/
def IsChain (g : graphData K) : List (Node K) → Prop
  | [] => True
  | [_] => True
  | u :: v :: rest => edgeEx g u v ∧ IsChain g (v :: rest)

instance instDecIsChain (g : graphData K) : (p : List (Node K)) → Decidable (IsChain g p)
  | [] => isTrue trivial
  | [_] => isTrue trivial
  | _ :: v :: rest =>
      @instDecidableAnd _ _ _ (instDecIsChain g (v :: rest))

/-- `p` is a path from `s` to `t` in `g`: nonempty, starts at `s`, ends at
`t`, and follows adjacency entries at every step. -/
def IsPath (g : graphData K) (s t : Node K) (p : List (Node K)) : Prop :=
  p ≠ [] ∧ p.head? = some s ∧ p.getLast? = some t ∧ IsChain g p

instance (g : graphData K) (s t : Node K) (p : List (Node K)) : Decidable (IsPath g s t p) := by
  unfold IsPath; infer_instance

/-- `t` is reachable from `s` in `g`. -/
def Reachable (g : graphData K) (s t : Node K) : Prop :=
  ∃ p, IsPath g s t p

/-- Total edge weight of a path (sum of the stored weights of its steps). -/
def costOf (g : graphData K) : List (Node K) → ℚ
  | [] => 0
  | [_] => 0
  | u :: v :: rest => wgt g u v + costOf g (v :: rest)

/-- All stored edge weights are non-negative (the documented Dijkstra
precondition). -/
def NonNeg (g : graphData K) : Prop :=
  ∀ p ∈ g.Adjacencies, ∀ q ∈ p.2, (0:ℚ) ≤ q.2

instance (g : graphData K) : Decidable (NonNeg g) := by
  unfold NonNeg; infer_instance

/-- `q` is the least total edge weight over all paths from `s` to `t`. -/
def IsLeastCost (g : graphData K) (s t : Node K) (q : ℚ) : Prop :=
  (∃ p, IsPath g s t p ∧ costOf g p = q) ∧ ∀ p, IsPath g s t p → q ≤ costOf g p

/-! ### The store model for `Copy`

`Copy` from graph.go is about heap structure: it rebuilds every node by key
and every adjacency map, sharing no mutable state with the source.  To state
this, the mutable inner maps live in an explicit `Store` (heap) addressed by
natural-number references; a graph value holds references instead of inline
maps.  `CopyH` mirrors `Copy`: it walks the source entries, re-creates each
node value from its key (`getOrCreate` returns `Node{ID: id}`, the identical
value), and allocates a fresh inner map per node, copied entry by entry
(hence value-equal).  A weight mutation `setWH` is the write
`g.Adjacencies[u][v] = w` through the stored reference. -/

/-- The heap of inner adjacency maps; a reference is an index. -/
abbrev Store (K : Type) := List (AdjMap K)

/-- A graph whose adjacency maps live in a `Store`. -/
structure HGraph (K : Type) where
  adj : List (Node K × Nat)

/-- Read the weight of (u,v) through the store. -/
def readWH (σ : Store K) (G : HGraph K) (u v : Node K) : Option ℚ :=
  match alookup G.adj u with
  | none => none
  | some r =>
    match σ[r]? with
    | none => none
    | some m => alookup m v

/-- `readWH` with the adjacency reference list passed directly (the same
read, used to state the copy lemmas without structure projections). -/
def readAdj (σ : Store K) (L : List (Node K × Nat)) (u v : Node K) : Option ℚ :=
  (alookup L u).bind (fun r => σ[r]?.bind (fun m => alookup m v))

/-- The mutation `g.Adjacencies[u][v] = w`, writing through the stored
reference of `u`'s inner map. -/
def setWH (σ : Store K) (G : HGraph K) (u v : Node K) (w : ℚ) : Store K :=
  match alookup G.adj u with
  | none => σ
  | some r => σ.set r (ainsert (σ[r]?.getD []) v w)

/-- `Copy` from graph.go, on the store model: every node is rebuilt from its
key and every inner map is copied into a freshly allocated slot (references
`σ.length`, `σ.length+1`, …). -/
def CopyH (σ : Store K) (G : HGraph K) : Store K × HGraph K :=
  (σ ++ G.adj.map (fun p => σ[p.2]?.getD []),
   ⟨G.adj.enum.map (fun ip => (ip.2.1, σ.length + ip.1))⟩)

/-- All references of the graph point into the store. -/
def refsValid (σ : Store K) (G : HGraph K) : Prop :=
  ∀ p ∈ G.adj, p.2 < σ.length

instance (σ : Store K) (G : HGraph K) : Decidable (refsValid σ G) := by
  unfold refsValid; infer_instance

/-! ### PathFinder: BFS -/

/-- Distances map of the algorithms (`map[Node[K]]float64`; `math.Inf(1)`
is `⊤`). -/
abbrev Distances (K : Type) := List (Node K × WithTop ℚ)

/-- Predecessor map of the algorithms (`Paths` in the Go source). -/
abbrev Paths (K : Type) := List (Node K × Node K)

/-- Read a distance; a missing key yields the Go zero value `0.0`. -/
def dval (dist : Distances K) (n : Node K) : WithTop ℚ :=
  (alookup dist n).getD 0

/-- The adjacency entry list of `n` (`g.Adjacencies[n]`, empty for the nil
map of an absent key). -/
def adjOf (g : graphData K) (n : Node K) : AdjMap K :=
  (alookup g.Adjacencies n).getD []

/-- The loop state of `BFS`. -/
structure BfsSt (K : Type) where
  queue : List (Node K)
  visited : List (Node K × Bool)
  dist : Distances K
  prev : Paths K

/-- The inner neighbor loop of `BFS`: for every adjacency entry of
`current`, if the neighbor is unvisited, mark it, record predecessor and
distance, and enqueue it. -/
def bfsVisit (current : Node K) : AdjMap K → BfsSt K → BfsSt K
  | [], st => st
  | (nb, _) :: rest, st =>
    if (alookup st.visited nb).isSome then
      bfsVisit current rest st
    else
      bfsVisit current rest
        { queue := st.queue ++ [nb]
          visited := ainsert st.visited nb true
          dist := ainsert st.dist nb (dval st.dist current + 1)
          prev := ainsert st.prev nb current }

/-- The `BFS` work loop: dequeue the front node and process its neighbors,
until the queue empties.  `fuel` bounds the number of iterations; the Go
loop pops one element per iteration and enqueues each node at most once, so
`1 + NumberOfNodes` iterations always suffice on well-formed graphs (proved
in `bfs_master`). -/
def bfsLoop (g : graphData K) : Nat → BfsSt K → BfsSt K
  | 0, st => st
  | fuel + 1, st =>
    match st.queue with
    | [] => st
    | current :: rest =>
      bfsLoop g fuel (bfsVisit current (adjOf g current) { st with queue := rest })

/-- The final state of `BFS` (the Go loop runs it to an empty queue). -/
def bfsFinal (g : graphData K) (start : Node K) : BfsSt K :=
  bfsLoop g (1 + g.NumberOfNodes)
    { queue := [start]
      visited := [(start, true)]
      dist := [(start, 0)]
      prev := [(start, start)] }

/-- `BFS` from the PathFinder source: hop distances and predecessor links
from `start`. -/
def graphData.BFS (g : graphData K) (start : Node K) : Distances K × Paths K :=
  ((bfsFinal g start).dist, (bfsFinal g start).prev)

/-- The path reconstruction loop shared by `BFSTo` and `DijkstraTo`: walk
back from `target` through `previous` until `start`, appending each step.
A read of a missing predecessor yields the Go zero value `Node{ID: zero}`.
`fuel` bounds the iterations; the walk visits pairwise distinct keys of
`previous`, so `1 + previous.length` iterations always suffice under the
invariants of the two algorithms (proved in the `walkBack` lemmas). -/
def walkBack [Inhabited K] (previous : Paths K) (start : Node K) :
    Nat → Node K → List (Node K) → List (Node K)
  | 0, _, path => path
  | fuel + 1, current, path =>
    if current = start then path
    else
      let step := (alookup previous current).getD default
      walkBack previous start fuel step (path ++ [step])

/-- `BFSTo` from the PathFinder source. -/
def graphData.BFSTo [Inhabited K] (g : graphData K) (start target : Node K) :
    List (Node K) × Nat × WithTop ℚ :=
  if start = target then ([start], 1, 0)
  else
    let dp := g.BFS start
    match alookup dp.2 target with
    | none => ([], 0, ⊤)
    | some _ =>
      let path := (walkBack dp.2 start (1 + dp.2.length) target [target]).reverse
      (path, path.length, dval dp.1 target)

/-! ### PathFinder: Dijkstra -/

/-- The loop state of `Dijkstra`. -/
structure DijSt (K : Type) where
  queue : List (Node K)
  dist : Distances K
  prev : Paths K

/-- The linear scan for the queue index with minimum tentative distance
(`min_index`, `min_distance` in the Go source; the running minimum starts at
`math.Inf(1)` and is updated on strict decrease). -/
def minScanAux (dist : Distances K) :
    List (Node K) → Nat → Nat → WithTop ℚ → Nat × WithTop ℚ
  | [], _, mi, md => (mi, md)
  | q :: rest, i, mi, md =>
    if dval dist q < md then minScanAux dist rest (i + 1) i (dval dist q)
    else minScanAux dist rest (i + 1) mi md

/-- The full minimum scan over the queue. -/
def minScan (dist : Distances K) (queue : List (Node K)) : Nat × WithTop ℚ :=
  minScanAux dist queue 0 0 ⊤

/-- The relaxation loop over the adjacency entries of `current`: when
`distance(current)+weight < distance(neighbor)`, update the neighbor's
distance and predecessor. -/
def relaxAll (current : Node K) : AdjMap K → Distances K × Paths K → Distances K × Paths K
  | [], dp => dp
  | (nb, w) :: rest, (dist, prev) =>
    let alternative := dval dist current + (w : WithTop ℚ)
    if alternative < dval dist nb then
      relaxAll current rest (ainsert dist nb alternative, ainsert prev nb current)
    else
      relaxAll current rest (dist, prev)

/-- One iteration of the `Dijkstra` work loop: extract the queue node of
minimum tentative distance and relax its outgoing entries. -/
def dijkstraStep [Inhabited K] (g : graphData K) (st : DijSt K) : DijSt K :=
  let mi := (minScan st.dist st.queue).1
  let current := st.queue.getD mi default
  let dp := relaxAll current (adjOf g current) (st.dist, st.prev)
  ⟨st.queue.eraseIdx mi, dp.1, dp.2⟩

/-- The `Dijkstra` work loop.  Each iteration removes exactly one node from
the work list and never inserts, so the Go loop performs exactly
`queue.length` iterations; the fuel is chosen as that number. -/
def dijkstraLoop [Inhabited K] (g : graphData K) : Nat → DijSt K → DijSt K
  | 0, st => st
  | fuel + 1, st =>
    if st.queue.isEmpty then st
    else dijkstraLoop g fuel (dijkstraStep g st)

/-- The final state of `Dijkstra`: all nodes start at distance `∞` and enter
the work list, `distance(start)=0`, `predecessor(start)=start`. -/
def dijFinal [Inhabited K] (g : graphData K) (start : Node K) : DijSt K :=
  let keys := g.Nodes
  let dist0 := keys.foldl (fun m n => ainsert m n ⊤) []
  dijkstraLoop g keys.length
    ⟨keys, ainsert dist0 start 0, [(start, start)]⟩

/-- `Dijkstra` from the PathFinder source: weighted distances and
predecessor links from `start`. -/
def graphData.Dijkstra [Inhabited K] (g : graphData K) (start : Node K) :
    Distances K × Paths K :=
  ((dijFinal g start).dist, (dijFinal g start).prev)

/-- `DijkstraTo` from the PathFinder source. -/
def graphData.DijkstraTo [Inhabited K] (g : graphData K) (start target : Node K) :
    List (Node K) × Nat × WithTop ℚ :=
  let dp := g.Dijkstra start
  match alookup dp.2 target with
  | none => ([], 0, ⊤)
  | some _ =>
    let path := (walkBack dp.2 start (1 + dp.2.length) target [target]).reverse
    (path, path.length, dval dp.1 target)

/-! ### Concrete fixtures (used by witnesses and the counterexample) -/

/-- A concrete node over `ℕ` keys. -/
def exNode (n : ℕ) : Node ℕ := ⟨n⟩

/-- The five-node line graph u–v–w–x–y of the spec's test properties, with
all weights `1`. -/
def exLine : UndirectedGraph ℕ :=
  ((((NewUndirectedGraph ℕ).AddEdge (exNode 1) (exNode 2) 1).AddEdge
    (exNode 2) (exNode 3) 1).AddEdge
    (exNode 3) (exNode 4) 1).AddEdge
    (exNode 4) (exNode 5) 1

/-- The line graph plus an isolated node `z`. -/
def exLineZ : UndirectedGraph ℕ := exLine.AddNode (exNode 6)

/-- A directed graph with a single negative self-loop. -/
def exNegLoop : DirectedGraph ℕ :=
  (NewDirectedGraph ℕ).AddEdge (exNode 0) (exNode 0) (-1)

/-- A concrete two-entry store-model graph. -/
def exHG : HGraph ℕ := ⟨[(exNode 1, 0), (exNode 2, 1)]⟩

/-- Its store: node 1 has an edge to node 2 of weight 5, and conversely. -/
def exStore : Store ℕ := [[(exNode 2, 5)], [(exNode 1, 5)]]

/-! ### Specification predicates for the two algorithms -/

/-- The stored distance of `v` is finite (not the `math.Inf(1)` sentinel and
present in the map). -/
def finD (dist : Distances K) (v : Node K) : Prop :=
  ∃ q : ℚ, alookup dist v = some ((q : ℚ) : WithTop ℚ)

instance (dist : Distances K) (v : Node K) : Decidable (finD dist v) :=
  decidable_of_iff ((alookup dist v).getD ⊤ ≠ ⊤) (by
    unfold finD
    cases hd : alookup dist v with
    | none => simp
    | some x =>
      simp only [Option.getD_some, Option.some.injEq]
      constructor
      · intro hx
        obtain ⟨q, hq⟩ := WithTop.ne_top_iff_exists.mp hx
        exact ⟨q, hq.symm⟩
      · rintro ⟨q, rfl⟩
        exact WithTop.coe_ne_top)

/-- The forward path determined by following predecessor links back from a
node: `[start, …, v]`, each non-start node pointing at the one before it. -/
inductive ForwardChain (prev : Paths K) (start : Node K) : Node K → List (Node K) → Prop where
  | base : ForwardChain prev start start [start]
  | step {u v : Node K} {p : List (Node K)} : ForwardChain prev start u p →
      alookup prev v = some u → v ≠ start → ForwardChain prev start v (p ++ [v])

/-- The loop invariant of `BFS` (established at initialization and preserved
by every iteration). -/
structure BfsInv (g : graphData K) (start : Node K) (st : BfsSt K) : Prop where
  vprev : ∀ v, (alookup st.visited v).isSome ↔ (alookup st.prev v).isSome
  vdist : ∀ v, (alookup st.visited v).isSome ↔ (alookup st.dist v).isSome
  vstart : (alookup st.visited start).isSome
  dstart : alookup st.dist start = some ((0 : ℚ) : WithTop ℚ)
  pstart : alookup st.prev start = some start
  qsub : ∀ x ∈ st.queue, (alookup st.visited x).isSome
  qnodup : st.queue.Nodup
  qsorted : List.Pairwise (fun a b => dval st.dist a ≤ dval st.dist b) st.queue
  vbound : ∀ v, (alookup st.visited v).isSome →
    ∀ x ∈ st.queue, dval st.dist v ≤ dval st.dist x + 1
  processed : ∀ u, (alookup st.visited u).isSome → u ∉ st.queue →
    ∀ q ∈ adjOf g u, (alookup st.visited q.1).isSome ∧
      dval st.dist q.1 ≤ dval st.dist u + 1
  vnat : ∀ v, (alookup st.visited v).isSome →
    ∃ n : ℕ, alookup st.dist v = some (((n : ℚ)) : WithTop ℚ)
  vreach : ∀ v, (alookup st.visited v).isSome → Reachable g start v
  prevstep : ∀ v u, alookup st.prev v = some u → v ≠ start →
    (alookup st.visited u).isSome ∧ edgeEx g u v ∧
      dval st.dist v = dval st.dist u + 1
  vnodes : ∀ v, (alookup st.visited v).isSome → v = start ∨ v ∈ g.Nodes

/-- The number of graph nodes not yet marked in a `visited` map. -/
def unvisitedCount (g : graphData K) (visited : List (Node K × Bool)) : Nat :=
  (g.Nodes.filter (fun v => !(alookup visited v).isSome)).length

/-- The termination measure of the `BFS` loop: each iteration pops one
queue entry and enqueues only nodes it freshly marks visited, so the sum
drops by exactly one. -/
def bfsMeasure (g : graphData K) (st : BfsSt K) : Nat :=
  st.queue.length + unvisitedCount g st.visited

/-- The part of the `Dijkstra` loop invariant that holds for arbitrary
(also negative) edge weights; `done` is the list of extracted nodes in
extraction order. -/
structure ReachInv (g : graphData K) (start : Node K) (done : List (Node K))
    (st : DijSt K) : Prop where
  nodesplit : ∀ v, v ∈ g.Nodes ↔ (v ∈ st.queue ∨ v ∈ done)
  qnodup : st.queue.Nodup
  dnodup : done.Nodup
  disj : ∀ v ∈ done, v ∉ st.queue
  distkeys : ∀ v, (alookup st.dist v).isSome ↔ (v ∈ g.Nodes ∨ v = start)
  prevfin : ∀ v, (alookup st.prev v).isSome ↔ finD st.dist v
  finreach : ∀ v, finD st.dist v → Reachable g start v
  finstart : finD st.dist start
  finprop : ∀ u ∈ done, finD st.dist u → ∀ q ∈ adjOf g u, finD st.dist q.1
  frozen : ∀ u ∈ done, ¬ finD st.dist u → ∀ x ∈ st.queue, ¬ finD st.dist x
  finnode : ∀ v, finD st.dist v → v = start ∨ v ∈ g.Nodes

/-- The full `Dijkstra` loop invariant under the documented non-negative
weight precondition. -/
structure OptInv (g : graphData K) (start : Node K) (done : List (Node K))
    (st : DijSt K) extends ReachInv g start done st : Prop where
  dstart : alookup st.dist start = some ((0 : ℚ) : WithTop ℚ)
  pstart : alookup st.prev start = some start
  settled : ∀ u ∈ done, ∀ q : ℚ, alookup st.dist u = some ((q : ℚ) : WithTop ℚ) →
    IsLeastCost g start u q
  attained : ∀ v, ∀ q : ℚ, alookup st.dist v = some ((q : ℚ) : WithTop ℚ) →
    ∃ p, IsPath g start v p ∧ costOf g p = q
  frontier : ∀ u ∈ done, ∀ q ∈ adjOf g u,
    dval st.dist q.1 ≤ dval st.dist u + ((q.2 : ℚ) : WithTop ℚ)
  prevrank : ∀ v u, alookup st.prev v = some u → v ≠ start →
    edgeEx g u v ∧ u ∈ done ∧ finD st.dist u ∧
      (v ∈ done → done.indexOf u < done.indexOf v)

/-! ## Association-list lemmas -/

variable {α : Type}

theorem alookup_ainsert_self (m : List (Node K × α)) (n : Node K) (a : α) :
    alookup (ainsert m n a) n = some a := by
  induction m with
  | nil => simp [ainsert, alookup]
  | cons p rest ih =>
    obtain ⟨k, b⟩ := p
    by_cases h : k = n
    · subst h; simp [ainsert, alookup]
    · simp [ainsert, alookup, h, ih]

theorem alookup_ainsert_ne (m : List (Node K × α)) {n k : Node K} {a : α} (h : k ≠ n) :
    alookup (ainsert m n a) k = alookup m k := by
  induction m with
  | nil => simp [ainsert, alookup, Ne.symm h]
  | cons p rest ih =>
    obtain ⟨k', b⟩ := p
    by_cases h1 : k' = n
    · subst h1
      simp [ainsert, alookup, Ne.symm h]
    · by_cases h2 : k' = k
      · subst h2; simp [ainsert, alookup, h1]
      · simp [ainsert, alookup, h1, h2, ih]

theorem alookup_aerase_self (m : List (Node K × α)) (n : Node K) :
    alookup (aerase m n) n = none := by
  induction m with
  | nil => simp [aerase, alookup]
  | cons p rest ih =>
    obtain ⟨k, b⟩ := p
    by_cases h : k = n
    · subst h; simpa [aerase, alookup] using ih
    · simpa [aerase, alookup, h] using ih

theorem alookup_aerase_ne (m : List (Node K × α)) {n k : Node K} (h : k ≠ n) :
    alookup (aerase m n) k = alookup m k := by
  induction m with
  | nil => simp [aerase, alookup]
  | cons p rest ih =>
    obtain ⟨k', b⟩ := p
    by_cases h1 : k' = n
    · subst h1
      have : k' ≠ k := fun hh => h hh.symm
      simpa [aerase, alookup, this] using ih
    · by_cases h2 : k' = k
      · subst h2; simp [aerase, alookup, h1]
      · simpa [aerase, alookup, h1, h2] using ih

theorem mem_akeys_iff {m : List (Node K × α)} {n : Node K} :
    n ∈ akeys m ↔ ∃ a, (n, a) ∈ m := by
  simp only [akeys, List.mem_map]
  constructor
  · rintro ⟨⟨k, a⟩, hm, rfl⟩; exact ⟨a, hm⟩
  · rintro ⟨a, hm⟩; exact ⟨(n, a), hm, rfl⟩

theorem alookup_isSome_iff {m : List (Node K × α)} {n : Node K} :
    (alookup m n).isSome ↔ n ∈ akeys m := by
  induction m with
  | nil => simp [alookup, akeys]
  | cons p rest ih =>
    obtain ⟨k, b⟩ := p
    by_cases h : k = n
    · subst h; simp [alookup, akeys]
    · have h2 : n ≠ k := fun hh => h hh.symm
      simp only [alookup, if_neg h, akeys, List.map_cons, List.mem_cons, h2, false_or]
      simpa [akeys] using ih

theorem alookup_eq_none_iff {m : List (Node K × α)} {n : Node K} :
    alookup m n = none ↔ n ∉ akeys m := by
  rw [← alookup_isSome_iff, Option.isSome_iff_exists]
  cases alookup m n <;> simp

theorem mem_of_alookup_eq_some {m : List (Node K × α)} {n : Node K} {a : α}
    (h : alookup m n = some a) : (n, a) ∈ m := by
  induction m with
  | nil => simp [alookup] at h
  | cons p rest ih =>
    obtain ⟨k, b⟩ := p
    by_cases h1 : k = n
    · subst h1
      have hba : b = a := by simpa [alookup] using h
      subst hba
      exact List.mem_cons_self _ _
    · simp only [alookup, if_neg h1] at h
      exact List.mem_cons_of_mem _ (ih h)

theorem alookup_of_mem_nodup {m : List (Node K × α)} {n : Node K} {a : α}
    (hd : (akeys m).Nodup) (h : (n, a) ∈ m) : alookup m n = some a := by
  induction m with
  | nil => simp at h
  | cons p rest ih =>
    obtain ⟨k, b⟩ := p
    simp only [akeys, List.map_cons, List.nodup_cons] at hd
    rcases List.mem_cons.mp h with h | h
    · cases h; simp [alookup]
    · have hk : k ≠ n := by
        rintro rfl
        exact hd.1 (mem_akeys_iff.mpr ⟨a, h⟩)
      simp only [alookup, if_neg hk]
      exact ih hd.2 h

theorem akeys_ainsert (m : List (Node K × α)) (n : Node K) (a : α) :
    akeys (ainsert m n a) = if n ∈ akeys m then akeys m else akeys m ++ [n] := by
  induction m with
  | nil => simp [ainsert, akeys]
  | cons p rest ih =>
    obtain ⟨k, b⟩ := p
    by_cases h : k = n
    · subst h; simp [ainsert, akeys]
    · have h2 : n ≠ k := fun hh => h hh.symm
      simp only [ainsert, if_neg h, akeys, List.map_cons, List.mem_cons, h2, false_or]
      have ihh := ih
      simp only [akeys] at ihh
      rw [ihh]
      by_cases hn : n ∈ List.map Prod.fst rest
      · simp [hn]
      · simp [hn]

theorem mem_akeys_ainsert {m : List (Node K × α)} {n x : Node K} {a : α} :
    x ∈ akeys (ainsert m n a) ↔ x ∈ akeys m ∨ x = n := by
  rw [akeys_ainsert]
  split <;> rename_i h
  · constructor
    · exact fun hx => Or.inl hx
    · rintro (hx | rfl)
      · exact hx
      · exact h
  · simp [List.mem_append]

theorem nodup_akeys_ainsert {m : List (Node K × α)} (n : Node K) (a : α)
    (hd : (akeys m).Nodup) : (akeys (ainsert m n a)).Nodup := by
  rw [akeys_ainsert]
  split
  · exact hd
  · rename_i h
    simpa [List.nodup_append, h] using hd

theorem aerase_eq_self_of_not_mem {m : List (Node K × α)} {n : Node K}
    (h : n ∉ akeys m) : aerase m n = m := by
  induction m with
  | nil => simp [aerase]
  | cons p rest ih =>
    obtain ⟨k, b⟩ := p
    simp only [akeys, List.map_cons, List.mem_cons, not_or] at h
    have hk : k ≠ n := fun hh => h.1 hh.symm
    have hr : n ∉ akeys rest := by simpa [akeys] using h.2
    simp only [aerase, List.filter_cons]
    rw [if_pos (by simpa using hk)]
    have hrest := ih hr
    simp only [aerase] at hrest
    rw [hrest]

theorem akeys_aerase_sublist (m : List (Node K × α)) (n : Node K) :
    (akeys (aerase m n)).Sublist (akeys m) := by
  exact List.Sublist.map Prod.fst (List.filter_sublist m)

theorem nodup_akeys_aerase {m : List (Node K × α)} (n : Node K)
    (hd : (akeys m).Nodup) : (akeys (aerase m n)).Nodup :=
  (akeys_aerase_sublist m n).nodup hd

theorem mem_akeys_aerase {m : List (Node K × α)} {n x : Node K} :
    x ∈ akeys (aerase m n) ↔ x ∈ akeys m ∧ x ≠ n := by
  simp only [akeys, aerase, List.mem_map, List.mem_filter, decide_eq_true_eq]
  constructor
  · rintro ⟨⟨k, a⟩, ⟨hm, hk⟩, rfl⟩; exact ⟨⟨(k, a), hm, rfl⟩, hk⟩
  · rintro ⟨⟨⟨k, a⟩, hm, rfl⟩, hk⟩; exact ⟨(k, a), ⟨hm, hk⟩, rfl⟩

theorem alookup_map_aerase (n : Node K) :
    ∀ (m : List (Node K × AdjMap K)) (u : Node K),
      alookup (m.map (fun p => (p.1, aerase p.2 n))) u =
        (alookup m u).map (fun mm => aerase mm n)
  | [], _ => rfl
  | (k, b) :: rest, u => by
    by_cases h : k = u
    · subst h; simp [alookup]
    · simp [alookup, h, alookup_map_aerase n rest u]

/-! ## Basic graph store lemmas -/

theorem HasEdge_eq_lookW (g : graphData K) (u v : Node K) :
    g.HasEdge u v = (lookW g u v).isSome := by
  unfold graphData.HasEdge lookW
  cases alookup g.Adjacencies u <;> simp

theorem HasNode_iff {g : graphData K} {n : Node K} :
    g.HasNode n = true ↔ n ∈ g.Nodes := by
  unfold graphData.HasNode graphData.Nodes
  exact alookup_isSome_iff

theorem lookW_RemoveNode (g : graphData K) (n u v : Node K) :
    lookW (g.RemoveNode n) u v = if u = n ∨ v = n then none else lookW g u v := by
  unfold graphData.RemoveNode lookW
  by_cases hu : u = n
  · subst hu; simp [alookup_aerase_self]
  · rw [alookup_aerase_ne _ hu, alookup_map_aerase]
    by_cases hv : v = n
    · subst hv
      cases alookup g.Adjacencies u <;> simp [hu, alookup_aerase_self]
    · cases alookup g.Adjacencies u <;> simp [hu, hv, alookup_aerase_ne _ hv]

theorem setEntry_of_none {g : graphData K} {a : Node K} (b : Node K) (w : ℚ)
    (h : alookup g.Adjacencies a = none) : setEntry g a b w = g := by
  unfold setEntry
  rw [h]

theorem lookW_setEntry (g : graphData K) {a : Node K} (b : Node K) (w : ℚ) (u v : Node K)
    (ha : (alookup g.Adjacencies a).isSome) :
    lookW (setEntry g a b w) u v = if u = a ∧ v = b then some w else lookW g u v := by
  obtain ⟨m, hm⟩ := Option.isSome_iff_exists.mp ha
  have hrw : setEntry g a b w = ⟨ainsert g.Adjacencies a (ainsert m b w)⟩ := by
    unfold setEntry; rw [hm]
  rw [hrw]
  unfold lookW
  by_cases hu : u = a
  · subst hu
    rw [show (⟨ainsert g.Adjacencies u (ainsert m b w)⟩ : graphData K).Adjacencies =
      ainsert g.Adjacencies u (ainsert m b w) from rfl]
    rw [alookup_ainsert_self, hm]
    by_cases hv : v = b
    · subst hv; simp [alookup_ainsert_self]
    · rw [Option.some_bind, Option.some_bind, alookup_ainsert_ne _ hv]
      simp [hv]
  · rw [show (⟨ainsert g.Adjacencies a (ainsert m b w)⟩ : graphData K).Adjacencies =
      ainsert g.Adjacencies a (ainsert m b w) from rfl]
    rw [alookup_ainsert_ne _ hu]
    simp [hu]

theorem lookW_delEntry (g : graphData K) (a b u v : Node K) :
    lookW (delEntry g a b) u v = if u = a ∧ v = b then none else lookW g u v := by
  cases hm : alookup g.Adjacencies a with
  | none =>
    have hrw : delEntry g a b = g := by unfold delEntry; rw [hm]
    rw [hrw]
    by_cases hu : u = a
    · subst hu
      unfold lookW
      rw [hm]
      by_cases hv : v = b <;> simp [hv]
    · simp [hu]
  | some m =>
    have hrw : delEntry g a b = ⟨ainsert g.Adjacencies a (aerase m b)⟩ := by
      unfold delEntry; rw [hm]
    rw [hrw]
    unfold lookW
    by_cases hu : u = a
    · subst hu
      rw [show (⟨ainsert g.Adjacencies u (aerase m b)⟩ : graphData K).Adjacencies =
        ainsert g.Adjacencies u (aerase m b) from rfl]
      rw [alookup_ainsert_self, hm]
      by_cases hv : v = b
      · subst hv; simp [alookup_aerase_self]
      · rw [Option.some_bind, Option.some_bind, alookup_aerase_ne _ hv]
        simp [hv]
    · rw [show (⟨ainsert g.Adjacencies a (aerase m b)⟩ : graphData K).Adjacencies =
        ainsert g.Adjacencies a (aerase m b) from rfl]
      rw [alookup_ainsert_ne _ hu]
      simp [hu]

theorem lookW_AddNode (g : graphData K) (n u v : Node K) :
    lookW (g.AddNode n) u v = lookW g u v := by
  unfold graphData.AddNode lookW
  split
  · rfl
  · rename_i h
    by_cases hu : u = n
    · subst hu
      rw [alookup_ainsert_self]
      cases hn : alookup g.Adjacencies u
      · simp [alookup]
      · simp [hn] at h
    · rw [alookup_ainsert_ne _ hu]

theorem akeys_setEntry (g : graphData K) (a b : Node K) (w : ℚ) :
    akeys (setEntry g a b w).Adjacencies = akeys g.Adjacencies := by
  unfold setEntry
  cases hm : alookup g.Adjacencies a with
  | none => rfl
  | some m =>
    have ha : a ∈ akeys g.Adjacencies :=
      alookup_isSome_iff.mp (by simp [hm])
    simp [akeys_ainsert, ha]

theorem isSome_setEntry (g : graphData K) (a b : Node K) (w : ℚ) (x : Node K) :
    (alookup (setEntry g a b w).Adjacencies x).isSome ↔
      (alookup g.Adjacencies x).isSome := by
  rw [alookup_isSome_iff, alookup_isSome_iff, akeys_setEntry]

/-! ## Predecessors: membership, multiplicity, nodup -/

/-- The body of the `Predecessors` double loop for a single outer entry. -/
def predContrib (n : Node K) (p : Node K × AdjMap K) : List (Node K) :=
  (p.2.filter (fun q => decide (q.1 = n))).map (fun _ => p.1)

theorem Predecessors_eq_flatMap (g : graphData K) (n : Node K) :
    g.Predecessors n = g.Adjacencies.flatMap (predContrib n) := rfl

theorem mem_predContrib {n x : Node K} {p : Node K × AdjMap K} :
    x ∈ predContrib n p ↔ x = p.1 ∧ n ∈ akeys p.2 := by
  unfold predContrib
  simp only [List.mem_map, List.mem_filter, decide_eq_true_eq, akeys]
  constructor
  · rintro ⟨q, ⟨hq, hq1⟩, rfl⟩
    exact ⟨rfl, ⟨q, hq, hq1⟩⟩
  · rintro ⟨rfl, ⟨q, hq, hq1⟩⟩
    exact ⟨q, ⟨hq, hq1⟩, rfl⟩

theorem mem_Predecessors_iff {g : graphData K} {n x : Node K} :
    x ∈ g.Predecessors n ↔ ∃ mm, (x, mm) ∈ g.Adjacencies ∧ n ∈ akeys mm := by
  rw [Predecessors_eq_flatMap]
  simp only [List.mem_flatMap, mem_predContrib]
  constructor
  · rintro ⟨⟨k, mm⟩, hp, rfl, hn⟩
    exact ⟨mm, hp, hn⟩
  · rintro ⟨mm, hp, hn⟩
    exact ⟨(x, mm), hp, rfl, hn⟩

theorem filter_fst_eq_length {m : AdjMap K} {n : Node K} (hd : (akeys m).Nodup) :
    (m.filter (fun q => decide (q.1 = n))).length = if n ∈ akeys m then 1 else 0 := by
  induction m with
  | nil => simp [akeys]
  | cons q rest ih =>
    obtain ⟨k, b⟩ := q
    simp only [akeys, List.map_cons, List.nodup_cons] at hd
    by_cases h : k = n
    · subst h
      have hnot : k ∉ akeys rest := by simpa [akeys] using hd.1
      simp only [List.filter_cons, decide_eq_true_eq]
      rw [if_pos (by simp)]
      have hlen := ih hd.2
      rw [if_neg hnot] at hlen
      have hmem : k ∈ akeys ((k, b) :: rest) := by simp [akeys]
      rw [List.length_cons, hlen, if_pos hmem]
    · simp only [List.filter_cons, decide_eq_true_eq]
      rw [if_neg (by simp [h])]
      rw [ih hd.2]
      have h2 : ¬ n = k := fun hh => h hh.symm
      by_cases hn : n ∈ akeys rest
      · have hmem : n ∈ akeys ((k, b) :: rest) := by
          simp only [akeys, List.map_cons, List.mem_cons]
          exact Or.inr (by simpa [akeys] using hn)
        rw [if_pos hn, if_pos hmem]
      · have hmem : n ∉ akeys ((k, b) :: rest) := by
          simp only [akeys, List.map_cons, List.mem_cons]
          rintro (hh | hh)
          · exact h2 hh
          · exact hn (by simpa [akeys] using hh)
        rw [if_neg hn, if_neg hmem]

theorem predContrib_eq_replicate (n : Node K) (p : Node K × AdjMap K) :
    predContrib n p =
      List.replicate (p.2.filter (fun q => decide (q.1 = n))).length p.1 := by
  unfold predContrib
  rw [show (p.2.filter (fun q => decide (q.1 = n))).length =
      ((p.2.filter (fun q => decide (q.1 = n))).map (fun _ => p.1)).length from
    (List.length_map _ _).symm]
  refine List.eq_replicate_length.mpr ?_
  intro b hb
  obtain ⟨q, hq, hb2⟩ := List.mem_map.mp hb
  exact hb2.symm

theorem edgeEx_iff_exists {g : graphData K} (hwf : wf g) {u v : Node K} :
    edgeEx g u v ↔ ∃ mm, (u, mm) ∈ g.Adjacencies ∧ v ∈ akeys mm := by
  unfold edgeEx lookW
  constructor
  · intro h
    cases hu : alookup g.Adjacencies u with
    | none => rw [hu] at h; simp at h
    | some mm =>
      rw [hu] at h
      simp only [Option.some_bind] at h
      exact ⟨mm, mem_of_alookup_eq_some hu, alookup_isSome_iff.mp h⟩
  · rintro ⟨mm, hm, hn⟩
    rw [alookup_of_mem_nodup hwf.1 hm]
    simpa [alookup_isSome_iff] using hn

theorem mem_flatMap_predContrib {n x : Node K} {L : List (Node K × AdjMap K)}
    (h : x ∈ L.flatMap (predContrib n)) : x ∈ akeys L := by
  simp only [List.mem_flatMap, mem_predContrib] at h
  obtain ⟨p, hp, rfl, _⟩ := h
  exact mem_akeys_iff.mpr ⟨p.2, by simpa using hp⟩

theorem nodup_Predecessors {g : graphData K} (hwf : wf g) (n : Node K) :
    (g.Predecessors n).Nodup := by
  obtain ⟨h1, h2, _⟩ := hwf
  rw [Predecessors_eq_flatMap]
  have key : ∀ (L : List (Node K × AdjMap K)), (akeys L).Nodup →
      (∀ p ∈ L, (akeys p.2).Nodup) → (L.flatMap (predContrib n)).Nodup := by
    intro L
    induction L with
    | nil => intro _ _; simp
    | cons p rest ih =>
      intro hk hin
      obtain ⟨k, mm⟩ := p
      simp only [akeys, List.map_cons, List.nodup_cons] at hk
      have hkr : k ∉ akeys rest := by simpa [akeys] using hk.1
      simp only [List.flatMap_cons]
      refine List.Nodup.append ?_ ?_ ?_
      · rw [predContrib_eq_replicate]
        refine List.nodup_replicate.mpr ?_
        rw [filter_fst_eq_length (hin (k, mm) (List.mem_cons_self _ _))]
        split <;> omega
      · exact ih hk.2 (fun p hp => hin p (List.mem_cons_of_mem _ hp))
      · intro a ha hb
        have hak : a = k := by
          rw [predContrib_eq_replicate] at ha
          exact List.eq_of_mem_replicate ha
        subst hak
        exact hkr (mem_flatMap_predContrib hb)
  exact key g.Adjacencies h1 h2

theorem count_Predecessors {g : graphData K} (hwf : wf g) (n x : Node K) :
    (g.Predecessors n).count x = if edgeEx g x n then 1 else 0 := by
  by_cases he : edgeEx g x n
  · rw [if_pos he]
    refine List.count_eq_one_of_mem (nodup_Predecessors hwf n) ?_
    rw [mem_Predecessors_iff]
    exact (edgeEx_iff_exists hwf).mp he
  · rw [if_neg he]
    refine List.count_eq_zero.mpr ?_
    rw [mem_Predecessors_iff]
    exact fun hc => he ((edgeEx_iff_exists hwf).mpr hc)

theorem mem_Successors_iff {g : graphData K} {u v : Node K} :
    v ∈ g.Successors u ↔ edgeEx g u v := by
  unfold graphData.Successors edgeEx lookW
  cases hu : alookup g.Adjacencies u with
  | none => simp
  | some mm => simp [alookup_isSome_iff]

theorem nodup_Successors {g : graphData K} (hwf : wf g) (u : Node K) :
    (g.Successors u).Nodup := by
  unfold graphData.Successors
  cases hu : alookup g.Adjacencies u with
  | none => simp
  | some mm => exact hwf.2.1 (u, mm) (mem_of_alookup_eq_some hu)

theorem akeys_map_aerase (L : List (Node K × AdjMap K)) (n : Node K) :
    akeys (L.map (fun p => (p.1, aerase p.2 n))) = akeys L := by
  simp [akeys, List.map_map, Function.comp_def]

/-! ## Claim theorems: the graph store -/

/-- C4: for every well-formed graph and node n, `Predecessors(n)` produces
exactly the nodes holding an adjacency entry pointing to n — membership in
the returned list coincides with having a stored entry (m,n), and each such
node is listed exactly once (the list has no duplicates). -/
theorem C4_predecessors_exact (g : graphData K) (hwf : wf g) (n : Node K) :
    (∀ m, m ∈ g.Predecessors n ↔ edgeEx g m n) ∧ (g.Predecessors n).Nodup :=
  ⟨fun _ => mem_Predecessors_iff.trans (edgeEx_iff_exists hwf).symm,
   nodup_Predecessors hwf n⟩

/-- C4 witness: the exact-predecessors property evaluated on the concrete
line graph at node 2. -/
theorem C4_witness :
    (∀ m, m ∈ exLine.gd.Predecessors (exNode 2) ↔ edgeEx exLine.gd m (exNode 2)) ∧
      (exLine.gd.Predecessors (exNode 2)).Nodup :=
  C4_predecessors_exact exLine.gd (by decide) (exNode 2)

/-- C8: after `RemoveNode(n)` on a well-formed graph, `HasNode(n)` is false,
no remaining node lists n among its successors or predecessors, and removing
an absent node leaves the graph unchanged (a no-op, never a failure — the
operation is total). -/
theorem C8_removeNode_complete (g : graphData K) (hwf : wf g) (n : Node K) :
    (g.RemoveNode n).HasNode n = false ∧
    (∀ m, n ∉ (g.RemoveNode n).Successors m) ∧
    (∀ m, n ∉ (g.RemoveNode n).Predecessors m) ∧
    (g.HasNode n = false → g.RemoveNode n = g) := by
  refine ⟨?_, ?_, ?_, ?_⟩
  · unfold graphData.HasNode graphData.RemoveNode
    rw [alookup_aerase_self]
    rfl
  · intro m
    unfold graphData.Successors graphData.RemoveNode
    by_cases hm : m = n
    · subst hm
      rw [alookup_aerase_self]
      simp
    · rw [alookup_aerase_ne _ hm, alookup_map_aerase]
      cases alookup g.Adjacencies m with
      | none => simp
      | some mm =>
        simp [mem_akeys_aerase]
  · intro m hmem
    rw [mem_Predecessors_iff] at hmem
    obtain ⟨mm, hmm, _⟩ := hmem
    have : n ∈ akeys (graphData.RemoveNode g n).Adjacencies :=
      mem_akeys_iff.mpr ⟨mm, hmm⟩
    unfold graphData.RemoveNode at this
    rw [mem_akeys_aerase] at this
    exact this.2 rfl
  · intro habs
    have hn : n ∉ akeys g.Adjacencies := by
      rw [← alookup_isSome_iff]
      unfold graphData.HasNode at habs
      simp [habs]
    unfold graphData.RemoveNode
    have hmap : g.Adjacencies.map (fun p => (p.1, aerase p.2 n)) = g.Adjacencies := by
      have hcongr : ∀ p ∈ g.Adjacencies, (p.1, aerase p.2 n) = id p := by
        intro p hp
        have : n ∉ akeys p.2 := by
          intro hc
          obtain ⟨w, hw⟩ := mem_akeys_iff.mp hc
          exact hn (hwf.2.2 p hp (n, w) hw)
        rw [aerase_eq_self_of_not_mem this]
        rfl
      rw [List.map_congr_left hcongr, List.map_id]
    rw [hmap, aerase_eq_self_of_not_mem hn]

/-- C8 witness: removal completeness evaluated on the concrete line graph
at node 3, and the no-op case at the absent node 9. -/
theorem C8_witness :
    ((exLine.gd.RemoveNode (exNode 3)).HasNode (exNode 3) = false ∧
      (∀ m, exNode 3 ∉ (exLine.gd.RemoveNode (exNode 3)).Successors m) ∧
      (∀ m, exNode 3 ∉ (exLine.gd.RemoveNode (exNode 3)).Predecessors m) ∧
      (exLine.gd.HasNode (exNode 3) = false → exLine.gd.RemoveNode (exNode 3) = exLine.gd)) ∧
    (exLine.gd.HasNode (exNode 9) = false → exLine.gd.RemoveNode (exNode 9) = exLine.gd) :=
  ⟨C8_removeNode_complete exLine.gd (by decide) (exNode 3),
   (C8_removeNode_complete exLine.gd (by decide) (exNode 9)).2.2.2⟩

/-- C10: on the base store (and hence on a `DirectedGraph`, which promotes
the base methods), `Neighbors(n)` is the concatenation of `Successors(n)`
and `Predecessors(n)` with no deduplication: a node that is both a successor
and a predecessor of u is listed exactly twice, and `Degree` — the length of
that combined listing — counts it twice as well. -/
theorem C10_neighbors_no_dedup (g : graphData K) (hwf : wf g) :
    (∀ n, g.Neighbors n = g.Successors n ++ g.Predecessors n) ∧
    (∀ (dg : DirectedGraph K) (n), dg.Neighbors n = dg.gd.Successors n ++ dg.gd.Predecessors n) ∧
    (∀ u v, edgeEx g u v → edgeEx g v u → (g.Neighbors u).count v = 2) ∧
    (∀ n, g.Degree n = (g.Neighbors n).length) := by
  refine ⟨fun _ => rfl, fun _ _ => rfl, ?_, ?_⟩
  · intro u v huv hvu
    unfold graphData.Neighbors
    rw [List.count_append]
    rw [List.count_eq_one_of_mem (nodup_Successors hwf u) (mem_Successors_iff.mpr huv)]
    rw [count_Predecessors hwf, if_pos hvu]
  · intro n
    unfold graphData.Degree graphData.Neighbors graphData.InDegree graphData.OutDegree
    rw [List.length_append]
    omega

/-- C10 witness: the double-counting property evaluated on the concrete
line graph, whose symmetric edge (1,2)/(2,1) makes node 2 both a successor
and a predecessor of node 1. -/
theorem C10_witness :
    (∀ n, exLine.gd.Neighbors n = exLine.gd.Successors n ++ exLine.gd.Predecessors n) ∧
    (∀ (dg : DirectedGraph ℕ) (n), dg.Neighbors n = dg.gd.Successors n ++ dg.gd.Predecessors n) ∧
    (∀ u v, edgeEx exLine.gd u v → edgeEx exLine.gd v u →
      (exLine.gd.Neighbors u).count v = 2) ∧
    (∀ n, exLine.gd.Degree n = (exLine.gd.Neighbors n).length) :=
  C10_neighbors_no_dedup exLine.gd (by decide)

/-! ## Claim theorems: undirected symmetry (C3) and self-loop degrees (C6) -/

theorem guard_AddNode (g : graphData K) (n : Node K) :
    (if (alookup g.Adjacencies n).isSome then g else g.AddNode n) = g.AddNode n := by
  unfold graphData.AddNode
  by_cases h : (alookup g.Adjacencies n).isSome <;> simp [h]

theorem isSome_AddNode_self (g : graphData K) (n : Node K) :
    (alookup (g.AddNode n).Adjacencies n).isSome := by
  unfold graphData.AddNode
  by_cases h : (alookup g.Adjacencies n).isSome
  · rw [if_pos h]; exact h
  · rw [if_neg h]
    rw [show (⟨ainsert g.Adjacencies n []⟩ : graphData K).Adjacencies =
      ainsert g.Adjacencies n [] from rfl]
    rw [alookup_ainsert_self]
    rfl

theorem isSome_AddNode_mono (g : graphData K) (n x : Node K)
    (h : (alookup g.Adjacencies x).isSome) :
    (alookup (g.AddNode n).Adjacencies x).isSome := by
  unfold graphData.AddNode
  by_cases hn : (alookup g.Adjacencies n).isSome
  · rw [if_pos hn]; exact h
  · rw [if_neg hn]
    rw [show (⟨ainsert g.Adjacencies n []⟩ : graphData K).Adjacencies =
      ainsert g.Adjacencies n [] from rfl]
    by_cases hx : x = n
    · subst hx
      rw [alookup_ainsert_self]; rfl
    · rw [alookup_ainsert_ne _ hx]; exact h

theorem Sym_AddNode {g : graphData K} (hs : Sym g) (n : Node K) : Sym (g.AddNode n) := by
  intro u v
  rw [lookW_AddNode, lookW_AddNode]
  exact hs u v

theorem Sym_RemoveNode {g : graphData K} (hs : Sym g) (n : Node K) : Sym (g.RemoveNode n) := by
  intro u v
  rw [lookW_RemoveNode, lookW_RemoveNode]
  by_cases h : u = n ∨ v = n
  · rw [if_pos h, if_pos (Or.symm h)]
  · rw [if_neg h, if_neg (fun hc => h (Or.symm hc)), hs u v]

theorem Sym_UAddEdge {g : UndirectedGraph K} (hs : Sym g.gd) (a b : Node K) (w : ℚ) :
    Sym (g.AddEdge a b w).gd := by
  have hbase : Sym ((g.gd.AddNode a).AddNode b) := Sym_AddNode (Sym_AddNode hs a) b
  have hrw : (g.AddEdge a b w).gd =
      setEntry (setEntry ((g.gd.AddNode a).AddNode b) a b w) b a w := by
    simp only [UndirectedGraph.AddEdge, guard_AddNode]
  rw [hrw]
  have ha1 : (alookup ((g.gd.AddNode a).AddNode b).Adjacencies a).isSome :=
    isSome_AddNode_mono _ _ _ (isSome_AddNode_self _ _)
  have hb2 : (alookup (setEntry ((g.gd.AddNode a).AddNode b) a b w).Adjacencies b).isSome :=
    (isSome_setEntry _ _ _ _ _).mpr (isSome_AddNode_self _ _)
  intro u v
  rw [lookW_setEntry _ _ _ _ _ hb2, lookW_setEntry _ _ _ _ _ hb2]
  rw [lookW_setEntry _ _ _ _ _ ha1, lookW_setEntry _ _ _ _ _ ha1]
  split_ifs <;> first | rfl | exact hbase u v | tauto

theorem Sym_URemoveEdge {g : UndirectedGraph K} (hs : Sym g.gd) (a b : Node K) :
    Sym (g.RemoveEdge a b).gd := by
  intro u v
  unfold UndirectedGraph.RemoveEdge
  rw [lookW_delEntry, lookW_delEntry, lookW_delEntry, lookW_delEntry]
  split_ifs <;> first | rfl | exact hs u v | tauto

theorem Sym_applyUOp {g : UndirectedGraph K} (hs : Sym g.gd) (op : UOp K) :
    Sym (applyUOp g op).gd := by
  cases op with
  | addEdge u v w => exact Sym_UAddEdge hs u v w
  | removeEdge u v => exact Sym_URemoveEdge hs u v
  | addNode n => exact Sym_AddNode hs n
  | removeNode n => exact Sym_RemoveNode hs n

theorem Sym_applyUOps {g : UndirectedGraph K} (hs : Sym g.gd) (ops : List (UOp K)) :
    Sym (applyUOps g ops).gd := by
  induction ops generalizing g with
  | nil => exact hs
  | cons op rest ih => exact ih (Sym_applyUOp hs op)

/-- C3: after any sequence of AddEdge/RemoveEdge/AddNode/RemoveNode
operations on an undirected graph whose stored adjacency is symmetric (as
every freshly constructed one is), `HasEdge(u,v)` equals `HasEdge(v,u)` for
all u,v, and when both directions are stored their weights are equal. -/
theorem C3_undirected_symmetry (g : UndirectedGraph K) (hs : Sym g.gd)
    (ops : List (UOp K)) :
    ∀ u v, ((applyUOps g ops).gd.HasEdge u v = (applyUOps g ops).gd.HasEdge v u) ∧
      (∀ w1 w2, lookW (applyUOps g ops).gd u v = some w1 →
        lookW (applyUOps g ops).gd v u = some w2 → w1 = w2) := by
  have hsym := Sym_applyUOps hs ops
  intro u v
  constructor
  · rw [HasEdge_eq_lookW, HasEdge_eq_lookW, hsym u v]
  · intro w1 w2 h1 h2
    rw [hsym u v, h2] at h1
    injection h1 with h1
    exact h1.symm

/-- C3 witness: symmetry after a concrete operation sequence starting from
the empty undirected graph (whose adjacency is trivially symmetric). -/
theorem C3_witness :
    ((applyUOps (NewUndirectedGraph ℕ)
        [UOp.addEdge (exNode 1) (exNode 2) 5, UOp.addEdge (exNode 2) (exNode 3) 7,
         UOp.removeEdge (exNode 1) (exNode 2), UOp.addNode (exNode 4),
         UOp.removeNode (exNode 3)]).gd.HasEdge (exNode 1) (exNode 2) =
      (applyUOps (NewUndirectedGraph ℕ)
        [UOp.addEdge (exNode 1) (exNode 2) 5, UOp.addEdge (exNode 2) (exNode 3) 7,
         UOp.removeEdge (exNode 1) (exNode 2), UOp.addNode (exNode 4),
         UOp.removeNode (exNode 3)]).gd.HasEdge (exNode 2) (exNode 1)) ∧
    ((applyUOps (NewUndirectedGraph ℕ)
        [UOp.addEdge (exNode 1) (exNode 2) 5,
         UOp.addEdge (exNode 1) (exNode 4) 9]).gd.HasEdge (exNode 1) (exNode 4) =
      (applyUOps (NewUndirectedGraph ℕ)
        [UOp.addEdge (exNode 1) (exNode 2) 5,
         UOp.addEdge (exNode 1) (exNode 4) 9]).gd.HasEdge (exNode 4) (exNode 1)) ∧
    (9 : ℚ) = 9 :=
  ⟨(C3_undirected_symmetry (NewUndirectedGraph ℕ) (fun _ _ => rfl)
      [UOp.addEdge (exNode 1) (exNode 2) 5, UOp.addEdge (exNode 2) (exNode 3) 7,
       UOp.removeEdge (exNode 1) (exNode 2), UOp.addNode (exNode 4),
       UOp.removeNode (exNode 3)] (exNode 1) (exNode 2)).1,
   (C3_undirected_symmetry (NewUndirectedGraph ℕ) (fun _ _ => rfl)
      [UOp.addEdge (exNode 1) (exNode 2) 5,
       UOp.addEdge (exNode 1) (exNode 4) 9] (exNode 1) (exNode 4)).1,
   (C3_undirected_symmetry (NewUndirectedGraph ℕ) (fun _ _ => rfl)
      [UOp.addEdge (exNode 1) (exNode 2) 5,
       UOp.addEdge (exNode 1) (exNode 4) 9] (exNode 1) (exNode 4)).2 9 9
     (by decide) (by decide)⟩

/-- C6: a self-loop `AddEdge(u,u,w)` on a fresh directed graph gives
`Degree(u) = InDegree(u) + OutDegree(u) = 2` (and `Degree = InDegree +
OutDegree` holds on every directed graph), while on a fresh undirected graph
node u holds exactly the single adjacency entry (u,w) and `Degree(u) = 1`. -/
theorem C6_self_loop_degree (u : Node K) (w : ℚ) :
    (((NewDirectedGraph K).AddEdge u u w).Degree u = 2 ∧
     ((NewDirectedGraph K).AddEdge u u w).InDegree u = 1 ∧
     ((NewDirectedGraph K).AddEdge u u w).OutDegree u = 1) ∧
    (∀ (dg : DirectedGraph K) (n), dg.Degree n = dg.InDegree n + dg.OutDegree n) ∧
    (alookup ((NewUndirectedGraph K).AddEdge u u w).gd.Adjacencies u = some [(u, w)] ∧
     ((NewUndirectedGraph K).AddEdge u u w).Degree u = 1) := by
  have hd : ((NewDirectedGraph K).AddEdge u u w).gd = ⟨[(u, [(u, w)])]⟩ := by
    unfold DirectedGraph.AddEdge NewDirectedGraph newGraphData graphData.AddNode
    simp [alookup, ainsert, setEntry]
  have hu : ((NewUndirectedGraph K).AddEdge u u w).gd = ⟨[(u, [(u, w)])]⟩ := by
    unfold UndirectedGraph.AddEdge NewUndirectedGraph newGraphData graphData.AddNode
    simp [alookup, ainsert, setEntry]
  refine ⟨?_, fun dg n => rfl, ?_⟩
  · unfold DirectedGraph.Degree DirectedGraph.InDegree DirectedGraph.OutDegree
    rw [hd]
    unfold graphData.Degree graphData.InDegree graphData.OutDegree
      graphData.Predecessors graphData.Successors
    simp [alookup, akeys]
  · constructor
    · rw [hu]
      simp [alookup]
    · unfold UndirectedGraph.Degree UndirectedGraph.Neighbors
      rw [hu]
      unfold graphData.Successors
      simp [alookup, akeys]

/-! ## Claim theorems: Copy independence (C9) -/

theorem readWH_eq_readAdj (σ : Store K) (G : HGraph K) (u v : Node K) :
    readWH σ G u v = readAdj σ G.adj u v := by
  unfold readWH readAdj
  cases alookup G.adj u with
  | none => rfl
  | some r =>
    rw [Option.some_bind]
    show (match σ[r]? with | none => none | some m => alookup m v) =
      σ[r]?.bind fun m => alookup m v
    cases σ[r]? with
    | none => rfl
    | some m => rfl

theorem copy_read_aux (σ : Store K) :
    ∀ (L : List (Node K × Nat)) (i : Nat) (M : List (AdjMap K)),
      (∀ j p, L[j]? = some p → M[i + j]? = some (σ[p.2]?.getD [])) →
      ∀ u v,
        readAdj (σ ++ M) ((L.enumFrom i).map (fun ip => (ip.2.1, σ.length + ip.1))) u v =
          readAdj σ L u v
  | [], _, _, _, _, _ => rfl
  | (k, r) :: rest, i, M, hM, u, v => by
    rw [List.enumFrom_cons]
    simp only [List.map_cons]
    by_cases hk : k = u
    · subst hk
      unfold readAdj
      have h1 : alookup ((k, σ.length + i) ::
          (rest.enumFrom (i + 1)).map (fun ip => (ip.2.1, σ.length + ip.1))) k =
          some (σ.length + i) := by
        simp [alookup]
      have h2 : alookup ((k, r) :: rest) k = some r := by simp [alookup]
      rw [h1, h2, Option.some_bind, Option.some_bind]
      have h3 : (σ ++ M)[σ.length + i]? = M[i]? := by
        rw [List.getElem?_append_right (Nat.le_add_right _ _)]
        congr 1
        omega
      have h4 : M[i]? = some (σ[r]?.getD []) := by
        simpa using hM 0 (k, r) (by simp)
      rw [h3, h4, Option.some_bind]
      cases hσ : σ[r]? with
      | none => simp [alookup]
      | some m => rw [Option.some_bind, Option.getD_some]
    · have hstep : ∀ j p, rest[j]? = some p →
          M[(i + 1) + j]? = some (σ[p.2]?.getD []) := by
        intro j p hj
        have := hM (j + 1) p (by simpa using hj)
        rw [show i + (j + 1) = i + 1 + j by omega] at this
        exact this
      have ih := copy_read_aux σ rest (i + 1) M hstep u v
      unfold readAdj at ih ⊢
      have h1 : alookup ((k, σ.length + i) ::
          (rest.enumFrom (i + 1)).map (fun ip => (ip.2.1, σ.length + ip.1))) u =
          alookup ((rest.enumFrom (i + 1)).map (fun ip => (ip.2.1, σ.length + ip.1))) u := by
        simp [alookup, hk]
      have h2 : alookup ((k, r) :: rest) u = alookup rest u := by simp [alookup, hk]
      rw [h1, h2]
      exact ih

theorem copy_adj_ref_ge (σ : Store K) (G : HGraph K) {p : Node K × Nat}
    (hp : p ∈ (CopyH σ G).2.adj) : σ.length ≤ p.2 := by
  unfold CopyH at hp
  simp only [List.mem_map] at hp
  obtain ⟨ip, _, rfl⟩ := hp
  exact Nat.le_add_right _ _

theorem readAdj_append (σ M : Store K) (L : List (Node K × Nat))
    (href : ∀ p ∈ L, p.2 < σ.length) (u v : Node K) :
    readAdj (σ ++ M) L u v = readAdj σ L u v := by
  unfold readAdj
  cases hu : alookup L u with
  | none => rfl
  | some r =>
    have hr : r < σ.length := href (u, r) (mem_of_alookup_eq_some hu)
    rw [Option.some_bind, Option.some_bind, List.getElem?_append_left hr]

theorem readAdj_set_ne (σ : Store K) (L : List (Node K × Nat)) (r : Nat) (m : AdjMap K)
    (hne : ∀ p ∈ L, p.2 ≠ r) (u v : Node K) :
    readAdj (σ.set r m) L u v = readAdj σ L u v := by
  unfold readAdj
  cases hu : alookup L u with
  | none => rfl
  | some rr =>
    have : rr ≠ r := hne (u, rr) (mem_of_alookup_eq_some hu)
    rw [Option.some_bind, Option.some_bind, List.getElem?_set_ne (Ne.symm this)]

theorem copy_keys (σ : Store K) (G : HGraph K) :
    (CopyH σ G).2.adj.map Prod.fst = G.adj.map Prod.fst := by
  unfold CopyH
  have key : ∀ (L : List (Node K × Nat)) (i : Nat),
      ((L.enumFrom i).map (fun ip => (ip.2.1, σ.length + ip.1))).map Prod.fst =
        L.map Prod.fst := by
    intro L
    induction L with
    | nil => intro i; rfl
    | cons p rest ih =>
      intro i
      rw [List.enumFrom_cons]
      simp only [List.map_cons, ih (i + 1)]
  exact key G.adj 0

/-- C9: `h := g.Copy()` rebuilds the node keys identically and every stored
weight identically, and afterwards a weight mutation through g's adjacency
maps never changes a weight read through h and vice versa: the copy shares
no mutable store slot with the source.  `refsValid` states that the source
graph's map references point into the store, which every store-allocated
graph satisfies. -/
theorem C9_copy_independent (σ : Store K) (G : HGraph K) (href : refsValid σ G) :
    ((CopyH σ G).2.adj.map Prod.fst = G.adj.map Prod.fst) ∧
    (∀ u v, readWH (CopyH σ G).1 (CopyH σ G).2 u v = readWH σ G u v) ∧
    (∀ u v, readWH (CopyH σ G).1 G u v = readWH σ G u v) ∧
    (∀ a b w u v, readWH (setWH (CopyH σ G).1 G a b w) (CopyH σ G).2 u v =
      readWH (CopyH σ G).1 (CopyH σ G).2 u v) ∧
    (∀ a b w u v, readWH (setWH (CopyH σ G).1 (CopyH σ G).2 a b w) G u v =
      readWH (CopyH σ G).1 G u v) := by
  have hM : ∀ j p, G.adj[j]? = some p →
      (G.adj.map (fun q => σ[q.2]?.getD []))[0 + j]? = some (σ[p.2]?.getD []) := by
    intro j p hj
    simp only [Nat.zero_add, List.getElem?_map, hj]
    rfl
  have hcopy1 : (CopyH σ G).1 = σ ++ G.adj.map (fun q => σ[q.2]?.getD []) := rfl
  have hcopy2 : (CopyH σ G).2.adj =
      (G.adj.enumFrom 0).map (fun ip => (ip.2.1, σ.length + ip.1)) := rfl
  have hreads : ∀ u v, readWH (CopyH σ G).1 (CopyH σ G).2 u v = readWH σ G u v := by
    intro u v
    rw [readWH_eq_readAdj, readWH_eq_readAdj, hcopy1, hcopy2]
    exact copy_read_aux σ G.adj 0 _ hM u v
  refine ⟨copy_keys σ G, hreads, ?_, ?_, ?_⟩
  · intro u v
    rw [readWH_eq_readAdj, readWH_eq_readAdj, hcopy1]
    exact readAdj_append σ _ G.adj (fun p hp => href p hp) u v
  · intro a b w u v
    unfold setWH
    cases ha : alookup G.adj a with
    | none => rfl
    | some r =>
      have hr : r < σ.length := href (a, r) (mem_of_alookup_eq_some ha)
      rw [readWH_eq_readAdj, readWH_eq_readAdj]
      exact readAdj_set_ne _ _ _ _ (fun p hp => by
        have := copy_adj_ref_ge σ G hp
        omega) u v
  · intro a b w u v
    unfold setWH
    cases ha : alookup (CopyH σ G).2.adj a with
    | none => rfl
    | some r =>
      have hr : σ.length ≤ r := copy_adj_ref_ge σ G (mem_of_alookup_eq_some ha)
      rw [readWH_eq_readAdj, readWH_eq_readAdj]
      exact readAdj_set_ne _ _ _ _ (fun p hp => by
        have := href p hp
        omega) u v

/-- C9 witness: copy independence evaluated on a concrete two-node store. -/
theorem C9_witness :
    ((CopyH exStore exHG).2.adj.map Prod.fst = exHG.adj.map Prod.fst) ∧
    (∀ u v, readWH (CopyH exStore exHG).1 (CopyH exStore exHG).2 u v =
      readWH exStore exHG u v) ∧
    (∀ u v, readWH (CopyH exStore exHG).1 exHG u v = readWH exStore exHG u v) ∧
    (∀ a b w u v, readWH (setWH (CopyH exStore exHG).1 exHG a b w)
      (CopyH exStore exHG).2 u v =
      readWH (CopyH exStore exHG).1 (CopyH exStore exHG).2 u v) ∧
    (∀ a b w u v, readWH (setWH (CopyH exStore exHG).1 (CopyH exStore exHG).2 a b w)
      exHG u v = readWH (CopyH exStore exHG).1 exHG u v) :=
  C9_copy_independent exStore exHG (by decide)

/-! ## Paths, costs, and adjacency entry lemmas -/

theorem alookup_adjOf (g : graphData K) (u v : Node K) :
    alookup (adjOf g u) v = lookW g u v := by
  unfold adjOf lookW
  cases alookup g.Adjacencies u with
  | none => rfl
  | some m => rfl

theorem lookW_mem_adjOf {g : graphData K} {u v : Node K} {w : ℚ}
    (h : lookW g u v = some w) : (v, w) ∈ adjOf g u :=
  mem_of_alookup_eq_some ((alookup_adjOf g u v).trans h)

theorem mem_adjOf_lookW {g : graphData K} (hwf : wf g) {u : Node K} {q : Node K × ℚ}
    (hq : q ∈ adjOf g u) : lookW g u q.1 = some q.2 := by
  unfold adjOf at hq
  cases hu : alookup g.Adjacencies u with
  | none => rw [hu] at hq; simp at hq
  | some m =>
    rw [hu] at hq
    simp only [Option.getD_some] at hq
    unfold lookW
    rw [hu, Option.some_bind]
    obtain ⟨a, b⟩ := q
    exact alookup_of_mem_nodup (hwf.2.1 (u, m) (mem_of_alookup_eq_some hu)) hq

theorem edgeEx_of_mem_adjOf {g : graphData K} (hwf : wf g) {u : Node K} {q : Node K × ℚ}
    (hq : q ∈ adjOf g u) : edgeEx g u q.1 := by
  unfold edgeEx
  rw [mem_adjOf_lookW hwf hq]
  rfl

theorem mem_nodes_of_mem_adjOf {g : graphData K} (hwf : wf g) {u : Node K}
    {q : Node K × ℚ} (hq : q ∈ adjOf g u) : q.1 ∈ g.Nodes := by
  unfold adjOf at hq
  cases hu : alookup g.Adjacencies u with
  | none => rw [hu] at hq; simp at hq
  | some m =>
    rw [hu] at hq
    simp only [Option.getD_some] at hq
    exact hwf.2.2 (u, m) (mem_of_alookup_eq_some hu) q hq

theorem edgeEx_mem_nodes {g : graphData K} {u v : Node K} (h : edgeEx g u v) :
    u ∈ g.Nodes := by
  unfold edgeEx lookW at h
  cases hu : alookup g.Adjacencies u with
  | none => rw [hu] at h; simp at h
  | some m => exact mem_akeys_iff.mpr ⟨m, mem_of_alookup_eq_some hu⟩

theorem wgt_eq {g : graphData K} {u v : Node K} {w : ℚ} (h : lookW g u v = some w) :
    wgt g u v = w := by
  unfold wgt
  rw [h]
  rfl

theorem wgt_nonneg {g : graphData K} (hnn : NonNeg g) {u v : Node K}
    (h : edgeEx g u v) : 0 ≤ wgt g u v := by
  unfold edgeEx at h
  obtain ⟨w, hw⟩ := Option.isSome_iff_exists.mp h
  rw [wgt_eq hw]
  unfold lookW at hw
  cases hu : alookup g.Adjacencies u with
  | none => rw [hu] at hw; simp at hw
  | some m =>
    rw [hu, Option.some_bind] at hw
    exact hnn (u, m) (mem_of_alookup_eq_some hu) (v, w) (mem_of_alookup_eq_some hw)

theorem costOf_nonneg_chain {g : graphData K} (hnn : NonNeg g) :
    ∀ p, IsChain g p → 0 ≤ costOf g p
  | [], _ => le_refl 0
  | [_], _ => le_refl 0
  | u :: v :: rest, hc => by
    obtain ⟨he, hrest⟩ := hc
    have h1 := wgt_nonneg hnn he
    have h2 := costOf_nonneg_chain hnn (v :: rest) hrest
    unfold costOf
    exact add_nonneg h1 h2

theorem IsChain_append_edge {g : graphData K} {v : Node K} :
    ∀ {p : List (Node K)} {u : Node K}, IsChain g p → p.getLast? = some u →
      edgeEx g u v → IsChain g (p ++ [v])
  | [], u, _, hl, _ => by simp at hl
  | [x], u, _, hl, he => by
    simp only [List.getLast?_singleton, Option.some.injEq] at hl
    subst hl
    exact ⟨he, trivial⟩
  | x :: y :: rest, u, hc, hl, he => by
    obtain ⟨hxy, hrest⟩ := hc
    have hl2 : (y :: rest).getLast? = some u := by
      rw [← hl]
      simp [List.getLast?_cons_cons]
    exact ⟨hxy, IsChain_append_edge hrest hl2 he⟩

theorem IsPath_append_edge {g : graphData K} {s u v : Node K} {p : List (Node K)}
    (hp : IsPath g s u p) (he : edgeEx g u v) : IsPath g s v (p ++ [v]) := by
  obtain ⟨hne, hh, hl, hc⟩ := hp
  refine ⟨by simp, ?_, ?_, IsChain_append_edge hc hl he⟩
  · cases p with
    | nil => exact absurd rfl hne
    | cons a rest => simpa using hh
  · simp [List.getLast?_concat]

theorem IsPath_single (g : graphData K) (s : Node K) : IsPath g s s [s] :=
  ⟨by simp, rfl, rfl, trivial⟩

theorem Reachable_refl (g : graphData K) (s : Node K) : Reachable g s s :=
  ⟨[s], IsPath_single g s⟩

theorem Reachable_step {g : graphData K} {s u v : Node K}
    (h : Reachable g s u) (he : edgeEx g u v) : Reachable g s v := by
  obtain ⟨p, hp⟩ := h
  exact ⟨p ++ [v], IsPath_append_edge hp he⟩

theorem costOf_append_edge {g : graphData K} {v : Node K} :
    ∀ {p : List (Node K)} {u : Node K}, p.getLast? = some u →
      costOf g (p ++ [v]) = costOf g p + wgt g u v
  | [], u, hl => by simp at hl
  | [x], u, hl => by
    simp only [List.getLast?_singleton, Option.some.injEq] at hl
    subst hl
    simp [costOf]
  | x :: y :: rest, u, hl => by
    have hl2 : (y :: rest).getLast? = some u := by
      rw [← hl]
      simp [List.getLast?_cons_cons]
    show wgt g x y + costOf g ((y :: rest) ++ [v]) = wgt g x y + costOf g (y :: rest) + wgt g u v
    rw [costOf_append_edge hl2, add_assoc]

theorem dval_eq_of_alookup {dist : Distances K} {v : Node K} {x : WithTop ℚ}
    (h : alookup dist v = some x) : dval dist v = x := by
  unfold dval
  rw [h]
  rfl

theorem dval_ainsert_self (dist : Distances K) (n : Node K) (a : WithTop ℚ) :
    dval (ainsert dist n a) n = a :=
  dval_eq_of_alookup (alookup_ainsert_self dist n a)

theorem dval_ainsert_ne (dist : Distances K) {n k : Node K} (a : WithTop ℚ)
    (h : k ≠ n) : dval (ainsert dist n a) k = dval dist k := by
  unfold dval
  rw [alookup_ainsert_ne _ h]

theorem finD_of_dval_ne_top {dist : Distances K} {v : Node K}
    (hk : (alookup dist v).isSome) (h : dval dist v ≠ ⊤) : finD dist v := by
  obtain ⟨x, hx⟩ := Option.isSome_iff_exists.mp hk
  rw [dval_eq_of_alookup hx] at h
  obtain ⟨q, hq⟩ := WithTop.ne_top_iff_exists.mp h
  exact ⟨q, by rw [hx, ← hq]⟩

theorem dval_ne_top_of_finD {dist : Distances K} {v : Node K} (h : finD dist v) :
    dval dist v ≠ ⊤ := by
  obtain ⟨q, hq⟩ := h
  rw [dval_eq_of_alookup hq]
  exact WithTop.coe_ne_top

theorem finD_isSome {dist : Distances K} {v : Node K} (h : finD dist v) :
    (alookup dist v).isSome := by
  obtain ⟨q, hq⟩ := h
  rw [hq]
  rfl

/-! ## The minimum scan of the Dijkstra work loop -/

theorem minScanAux_le (dist : Distances K) :
    ∀ (Q : List (Node K)) (i mi : Nat) (md : WithTop ℚ),
      (minScanAux dist Q i mi md).2 ≤ md ∧
        ∀ x ∈ Q, (minScanAux dist Q i mi md).2 ≤ dval dist x
  | [], _, _, _ => ⟨le_refl _, by simp⟩
  | q :: rest, i, mi, md => by
    unfold minScanAux
    by_cases h : dval dist q < md
    · rw [if_pos h]
      have ih := minScanAux_le dist rest (i + 1) i (dval dist q)
      refine ⟨le_trans ih.1 (le_of_lt h), ?_⟩
      intro x hx
      rcases List.mem_cons.mp hx with rfl | hx
      · exact ih.1
      · exact ih.2 x hx
    · rw [if_neg h]
      have ih := minScanAux_le dist rest (i + 1) mi md
      refine ⟨ih.1, ?_⟩
      intro x hx
      rcases List.mem_cons.mp hx with rfl | hx
      · exact le_trans ih.1 (not_lt.mp h)
      · exact ih.2 x hx

theorem minScanAux_picks [Inhabited K] (dist : Distances K) :
    ∀ (Q : List (Node K)) (i mi : Nat) (md : WithTop ℚ),
      ((minScanAux dist Q i mi md).1 = mi ∧ (minScanAux dist Q i mi md).2 = md) ∨
        ∃ j, j < Q.length ∧ (minScanAux dist Q i mi md).1 = i + j ∧
          (minScanAux dist Q i mi md).2 = dval dist (Q.getD j default)
  | [], _, _, _ => Or.inl ⟨rfl, rfl⟩
  | q :: rest, i, mi, md => by
    unfold minScanAux
    by_cases h : dval dist q < md
    · rw [if_pos h]
      rcases minScanAux_picks dist rest (i + 1) i (dval dist q) with ⟨h1, h2⟩ | ⟨j, hj, h1, h2⟩
      · right
        exact ⟨0, by simp, by rw [h1, Nat.add_zero], by rw [h2]; rfl⟩
      · right
        refine ⟨j + 1, by simpa using Nat.succ_lt_succ hj, ?_, ?_⟩
        · rw [h1]; omega
        · rw [h2]; rfl
    · rw [if_neg h]
      rcases minScanAux_picks dist rest (i + 1) mi md with ⟨h1, h2⟩ | ⟨j, hj, h1, h2⟩
      · exact Or.inl ⟨h1, h2⟩
      · right
        refine ⟨j + 1, by simpa using Nat.succ_lt_succ hj, ?_, ?_⟩
        · rw [h1]; omega
        · rw [h2]; rfl

theorem minScan_spec [Inhabited K] (dist : Distances K) (Q : List (Node K)) (hne : Q ≠ []) :
    (minScan dist Q).1 < Q.length ∧
    dval dist (Q.getD (minScan dist Q).1 default) = (minScan dist Q).2 ∧
    ∀ x ∈ Q, (minScan dist Q).2 ≤ dval dist x := by
  have hm : minScan dist Q = minScanAux dist Q 0 0 ⊤ := rfl
  have hle := minScanAux_le dist Q 0 0 ⊤
  have hlen : 0 < Q.length := List.length_pos.mpr hne
  rcases minScanAux_picks dist Q 0 0 ⊤ with ⟨h1, h2⟩ | ⟨j, hj, h1, h2⟩
  · have htop : ∀ x ∈ Q, dval dist x = ⊤ := by
      intro x hx
      have := hle.2 x hx
      rw [h2] at this
      exact top_le_iff.mp this
    rw [hm, h1, h2]
    refine ⟨hlen, ?_, fun x hx => le_of_eq (htop x hx).symm⟩
    cases Q with
    | nil => exact absurd rfl hne
    | cons q rest => exact htop q (List.mem_cons_self _ _)
  · rw [hm, h1, h2]
    refine ⟨by omega, ?_, ?_⟩
    · rw [Nat.zero_add]
    · intro x hx
      have := hle.2 x hx
      rw [h2] at this
      exact this

theorem dijkstraStep_queue_length [Inhabited K] (g : graphData K) (st : DijSt K)
    (hne : st.queue ≠ []) :
    (dijkstraStep g st).queue.length + 1 = st.queue.length := by
  have hlt := (minScan_spec st.dist st.queue hne).1
  show (st.queue.eraseIdx (minScan st.dist st.queue).1).length + 1 = st.queue.length
  rw [List.length_eraseIdx]
  rw [if_pos hlt]
  omega

theorem dijkstraLoop_master [Inhabited K] (g : graphData K) (P : DijSt K → Prop)
    (hstep : ∀ st, st.queue ≠ [] → P st → P (dijkstraStep g st)) :
    ∀ (fuel : Nat) (st : DijSt K), st.queue.length = fuel → P st →
      P (dijkstraLoop g fuel st) ∧ (dijkstraLoop g fuel st).queue = []
  | 0, st, hlen, hP => ⟨hP, List.length_eq_zero.mp hlen⟩
  | fuel + 1, st, hlen, hP => by
    unfold dijkstraLoop
    have hne : st.queue ≠ [] := by
      intro hc
      rw [hc] at hlen
      simp at hlen
    rw [if_neg (by simpa [List.isEmpty_iff] using hne)]
    have hlen2 : (dijkstraStep g st).queue.length = fuel := by
      have := dijkstraStep_queue_length g st hne
      omega
    exact dijkstraLoop_master g P hstep fuel (dijkstraStep g st) hlen2 (hstep st hne hP)

/-! ## The relaxation loop of Dijkstra -/

theorem relaxAll_cons (c nb : Node K) (w : ℚ) (rest : AdjMap K)
    (dist : Distances K) (prev : Paths K) :
    relaxAll c ((nb, w) :: rest) (dist, prev) =
      if dval dist c + ((w : ℚ) : WithTop ℚ) < dval dist nb then
        relaxAll c rest
          (ainsert dist nb (dval dist c + ((w : ℚ) : WithTop ℚ)), ainsert prev nb c)
      else relaxAll c rest (dist, prev) := rfl

theorem relaxAll_dist_mono (c : Node K) :
    ∀ (entries : AdjMap K) (dist : Distances K) (prev : Paths K) (v : Node K),
      dval (relaxAll c entries (dist, prev)).1 v ≤ dval dist v
  | [], _, _, _ => le_refl _
  | (nb, w) :: rest, dist, prev, v => by
    rw [relaxAll_cons]
    split_ifs with hup
    · have ih := relaxAll_dist_mono c rest
        (ainsert dist nb (dval dist c + ((w : ℚ) : WithTop ℚ))) (ainsert prev nb c) v
      refine le_trans ih ?_
      by_cases hv : v = nb
      · subst hv
        rw [dval_ainsert_self]
        exact le_of_lt hup
      · rw [dval_ainsert_ne _ _ hv]
    · exact relaxAll_dist_mono c rest dist prev v

theorem relaxAll_finD_mono (c : Node K) :
    ∀ (entries : AdjMap K) (dist : Distances K) (prev : Paths K) (v : Node K),
      finD dist v → finD (relaxAll c entries (dist, prev)).1 v
  | [], _, _, _, hv => hv
  | (nb, w) :: rest, dist, prev, v, hv => by
    rw [relaxAll_cons]
    split_ifs with hup
    · refine relaxAll_finD_mono c rest _ _ v ?_
      by_cases hveq : v = nb
      · subst hveq
        obtain ⟨q, hq⟩ := WithTop.ne_top_iff_exists.mp (ne_top_of_lt hup)
        exact ⟨q, by rw [alookup_ainsert_self, ← hq]⟩
      · obtain ⟨q, hq⟩ := hv
        exact ⟨q, by rw [alookup_ainsert_ne _ hveq, hq]⟩
    · exact relaxAll_finD_mono c rest dist prev v hv

theorem relaxAll_untouched (c : Node K) :
    ∀ (entries : AdjMap K) (dist : Distances K) (prev : Paths K) (v : Node K),
      v ∉ akeys entries →
      alookup (relaxAll c entries (dist, prev)).1 v = alookup dist v ∧
        alookup (relaxAll c entries (dist, prev)).2 v = alookup prev v
  | [], _, _, _, _ => ⟨rfl, rfl⟩
  | (nb, w) :: rest, dist, prev, v, hv => by
    have hvnb : v ≠ nb := by
      intro hc
      exact hv (by simp [akeys, hc])
    have hvr : v ∉ akeys rest := by
      intro hc
      exact hv (by simp [akeys] at hc ⊢; exact Or.inr hc)
    rw [relaxAll_cons]
    split_ifs with hup
    · have ih := relaxAll_untouched c rest
        (ainsert dist nb (dval dist c + ((w : ℚ) : WithTop ℚ))) (ainsert prev nb c) v hvr
      rw [ih.1, ih.2, alookup_ainsert_ne _ hvnb, alookup_ainsert_ne _ hvnb]
      exact ⟨rfl, rfl⟩
    · exact relaxAll_untouched c rest dist prev v hvr

theorem relaxAll_keys (c : Node K) :
    ∀ (entries : AdjMap K) (dist : Distances K) (prev : Paths K),
      (∀ q ∈ entries, (alookup dist q.1).isSome) →
      ∀ v, (alookup (relaxAll c entries (dist, prev)).1 v).isSome ↔
        (alookup dist v).isSome
  | [], _, _, _, _ => Iff.rfl
  | (nb, w) :: rest, dist, prev, hkeys, v => by
    rw [relaxAll_cons]
    split_ifs with hup
    · have hk2 : ∀ q ∈ rest, (alookup (ainsert dist nb
          (dval dist c + ((w : ℚ) : WithTop ℚ))) q.1).isSome := by
        intro q hq
        by_cases hqe : q.1 = nb
        · rw [hqe, alookup_ainsert_self]; rfl
        · rw [alookup_ainsert_ne _ hqe]
          exact hkeys q (List.mem_cons_of_mem _ hq)
      rw [relaxAll_keys c rest _ _ hk2 v]
      by_cases hv : v = nb
      · rw [hv, alookup_ainsert_self]
        simp only [Option.isSome_some, true_iff]
        exact hkeys (nb, w) (List.mem_cons_self _ _)
      · rw [alookup_ainsert_ne _ hv]
    · exact relaxAll_keys c rest dist prev
        (fun q hq => hkeys q (List.mem_cons_of_mem _ hq)) v

theorem relaxAll_top (c : Node K) :
    ∀ (entries : AdjMap K) (dist : Distances K) (prev : Paths K),
      alookup dist c = some ⊤ → relaxAll c entries (dist, prev) = (dist, prev)
  | [], _, _, _ => rfl
  | (nb, w) :: rest, dist, prev, hc => by
    rw [relaxAll_cons]
    rw [if_neg ?hne]
    · exact relaxAll_top c rest dist prev hc
    case hne =>
      rw [dval_eq_of_alookup hc, top_add]
      exact not_top_lt

theorem finD_dist_c_of_fired {dist : Distances K} {c nb : Node K} {w : ℚ}
    (hc : (alookup dist c).isSome)
    (hup : dval dist c + ((w : ℚ) : WithTop ℚ) < dval dist nb) : finD dist c := by
  have halt := ne_top_of_lt hup
  have hcne : dval dist c ≠ ⊤ := fun hcc => halt (by rw [hcc, top_add])
  exact finD_of_dval_ne_top hc hcne

theorem relaxAll_finD_rev (c : Node K) :
    ∀ (entries : AdjMap K) (dist : Distances K) (prev : Paths K),
      (alookup dist c).isSome →
      ∀ v, finD (relaxAll c entries (dist, prev)).1 v →
        finD dist v ∨ ((∃ w, (v, w) ∈ entries) ∧ finD dist c)
  | [], _, _, _, _, hv => Or.inl hv
  | (nb, w) :: rest, dist, prev, hc, v, hv => by
    rw [relaxAll_cons] at hv
    split_ifs at hv with hup
    · have hfc : finD dist c := finD_dist_c_of_fired hc hup
      have hc2 : (alookup (ainsert dist nb
          (dval dist c + ((w : ℚ) : WithTop ℚ))) c).isSome := by
        by_cases hcnb : c = nb
        · rw [hcnb, alookup_ainsert_self]; rfl
        · rw [alookup_ainsert_ne _ hcnb]; exact hc
      rcases relaxAll_finD_rev c rest _ _ hc2 v hv with hfin | ⟨⟨w2, hw2⟩, _⟩
      · by_cases hveq : v = nb
        · exact Or.inr ⟨⟨w, by rw [hveq]; exact List.mem_cons_self _ _⟩, hfc⟩
        · obtain ⟨q, hq⟩ := hfin
          rw [alookup_ainsert_ne _ hveq] at hq
          exact Or.inl ⟨q, hq⟩
      · exact Or.inr ⟨⟨w2, List.mem_cons_of_mem _ hw2⟩, hfc⟩
    · rcases relaxAll_finD_rev c rest dist prev hc v hv with hfin | ⟨⟨w2, hw2⟩, hfc⟩
      · exact Or.inl hfin
      · exact Or.inr ⟨⟨w2, List.mem_cons_of_mem _ hw2⟩, hfc⟩

theorem relaxAll_prev_rev (c : Node K) :
    ∀ (entries : AdjMap K) (dist : Distances K) (prev : Paths K),
      (alookup dist c).isSome →
      ∀ v, alookup (relaxAll c entries (dist, prev)).2 v = alookup prev v ∨
        (alookup (relaxAll c entries (dist, prev)).2 v = some c ∧
          (∃ w, (v, w) ∈ entries) ∧ finD dist c ∧
          finD (relaxAll c entries (dist, prev)).1 v)
  | [], _, _, _, _ => Or.inl rfl
  | (nb, w) :: rest, dist, prev, hc, v => by
    rw [relaxAll_cons]
    split_ifs with hup
    · have hfc : finD dist c := finD_dist_c_of_fired hc hup
      have hc2 : (alookup (ainsert dist nb
          (dval dist c + ((w : ℚ) : WithTop ℚ))) c).isSome := by
        by_cases hcnb : c = nb
        · rw [hcnb, alookup_ainsert_self]; rfl
        · rw [alookup_ainsert_ne _ hcnb]; exact hc
      rcases relaxAll_prev_rev c rest _ _ hc2 v with hsame | ⟨hsome, ⟨w2, hw2⟩, _, hfin⟩
      · by_cases hveq : v = nb
        · have halook : alookup (ainsert prev nb c) v = some c := by
            rw [hveq]
            exact alookup_ainsert_self _ _ _
          refine Or.inr ⟨hsame.trans halook,
            ⟨w, by rw [hveq]; exact List.mem_cons_self _ _⟩, hfc, ?_⟩
          refine relaxAll_finD_mono c rest _ _ v ?_
          obtain ⟨q, hq⟩ := WithTop.ne_top_iff_exists.mp (ne_top_of_lt hup)
          exact ⟨q, by rw [hveq, alookup_ainsert_self, ← hq]⟩
        · rw [hsame, alookup_ainsert_ne _ hveq]
          exact Or.inl rfl
      · exact Or.inr ⟨hsome, ⟨w2, List.mem_cons_of_mem _ hw2⟩, hfc, hfin⟩
    · rcases relaxAll_prev_rev c rest dist prev hc v with hsame | ⟨hsome, ⟨w2, hw2⟩, hfc, hfin⟩
      · exact Or.inl hsame
      · exact Or.inr ⟨hsome, ⟨w2, List.mem_cons_of_mem _ hw2⟩, hfc, hfin⟩

theorem relaxAll_prev_iff (c : Node K) :
    ∀ (entries : AdjMap K) (dist : Distances K) (prev : Paths K),
      (alookup dist c).isSome →
      (∀ v, (alookup prev v).isSome ↔ finD dist v) →
      ∀ v, (alookup (relaxAll c entries (dist, prev)).2 v).isSome ↔
        finD (relaxAll c entries (dist, prev)).1 v
  | [], _, _, _, hiff, v => hiff v
  | (nb, w) :: rest, dist, prev, hc, hiff, v => by
    rw [relaxAll_cons]
    split_ifs with hup
    · have hc2 : (alookup (ainsert dist nb
          (dval dist c + ((w : ℚ) : WithTop ℚ))) c).isSome := by
        by_cases hcnb : c = nb
        · rw [hcnb, alookup_ainsert_self]; rfl
        · rw [alookup_ainsert_ne _ hcnb]; exact hc
      refine relaxAll_prev_iff c rest _ _ hc2 ?_ v
      intro x
      by_cases hx : x = nb
      · subst hx
        rw [alookup_ainsert_self]
        simp only [Option.isSome_some, true_iff]
        obtain ⟨q, hq⟩ := WithTop.ne_top_iff_exists.mp (ne_top_of_lt hup)
        exact ⟨q, by rw [alookup_ainsert_self, ← hq]⟩
      · rw [alookup_ainsert_ne _ hx]
        rw [hiff x]
        constructor
        · intro ⟨q, hq⟩
          exact ⟨q, by rw [alookup_ainsert_ne _ hx, hq]⟩
        · intro ⟨q, hq⟩
          rw [alookup_ainsert_ne _ hx] at hq
          exact ⟨q, hq⟩
    · exact relaxAll_prev_iff c rest dist prev hc hiff v

theorem relaxAll_finprop (c : Node K) :
    ∀ (entries : AdjMap K) (dist : Distances K) (prev : Paths K),
      finD dist c → (∀ q ∈ entries, (alookup dist q.1).isSome) →
      ∀ q ∈ entries, finD (relaxAll c entries (dist, prev)).1 q.1
  | [], _, _, _, _, q, hq => by simp at hq
  | (nb, w) :: rest, dist, prev, hfc, hkeys, q, hq => by
    rw [relaxAll_cons]
    split_ifs with hup
    · have hfin2 : finD (ainsert dist nb
          (dval dist c + ((w : ℚ) : WithTop ℚ))) nb := by
        obtain ⟨qq, hqq⟩ := WithTop.ne_top_iff_exists.mp (ne_top_of_lt hup)
        exact ⟨qq, by rw [alookup_ainsert_self, ← hqq]⟩
      have hfc2 : finD (ainsert dist nb
          (dval dist c + ((w : ℚ) : WithTop ℚ))) c := by
        by_cases hcnb : c = nb
        · subst hcnb
          exact hfin2
        · obtain ⟨qc, hqc⟩ := hfc
          exact ⟨qc, by rw [alookup_ainsert_ne _ hcnb, hqc]⟩
      have hkeys2 : ∀ q ∈ rest, (alookup (ainsert dist nb
          (dval dist c + ((w : ℚ) : WithTop ℚ))) q.1).isSome := by
        intro q2 hq2
        by_cases hqe : q2.1 = nb
        · rw [hqe, alookup_ainsert_self]; rfl
        · rw [alookup_ainsert_ne _ hqe]
          exact hkeys q2 (List.mem_cons_of_mem _ hq2)
      rcases List.mem_cons.mp hq with heq | hmem
      · have hq1 : q.1 = nb := by rw [heq]
        rw [hq1]
        exact relaxAll_finD_mono c rest
          (ainsert dist nb (dval dist c + ((w : ℚ) : WithTop ℚ))) (ainsert prev nb c) nb hfin2
      · exact relaxAll_finprop c rest _ _ hfc2 hkeys2 q hmem
    · rcases List.mem_cons.mp hq with heq | hmem
      · have hq1 : q.1 = nb := by rw [heq]
        have hkey := hkeys q hq
        have hle : dval dist q.1 ≤ dval dist c + ((w : ℚ) : WithTop ℚ) := by
          rw [hq1]
          exact not_lt.mp hup
        have hne : dval dist q.1 ≠ ⊤ := by
          intro hcc
          rw [hcc, top_le_iff] at hle
          obtain ⟨qc, hqc⟩ := hfc
          rw [dval_eq_of_alookup hqc] at hle
          exact (WithTop.add_ne_top.mpr ⟨WithTop.coe_ne_top, WithTop.coe_ne_top⟩) hle
        exact relaxAll_finD_mono c rest _ _ _ (finD_of_dval_ne_top hkey hne)
      · exact relaxAll_finprop c rest dist prev hfc
          (fun q2 hq2 => hkeys q2 (List.mem_cons_of_mem _ hq2)) q hmem

theorem fired_ne_c {dist : Distances K} {c nb : Node K} {w : ℚ} (hw0 : (0 : ℚ) ≤ w)
    (hup : dval dist c + ((w : ℚ) : WithTop ℚ) < dval dist nb) : nb ≠ c := by
  intro h
  subst h
  have hle : dval dist nb ≤ dval dist nb + ((w : ℚ) : WithTop ℚ) :=
    le_add_of_nonneg_right (by exact_mod_cast hw0)
  exact lt_irrefl _ (lt_of_le_of_lt hle hup)

theorem relaxAll_c_stable (c : Node K) :
    ∀ (entries : AdjMap K) (dist : Distances K) (prev : Paths K),
      (∀ q ∈ entries, (0 : ℚ) ≤ q.2) →
      alookup (relaxAll c entries (dist, prev)).1 c = alookup dist c
  | [], _, _, _ => rfl
  | (nb, w) :: rest, dist, prev, hw => by
    rw [relaxAll_cons]
    split_ifs with hup
    · have hnbc : nb ≠ c := fired_ne_c (hw (nb, w) (List.mem_cons_self _ _)) hup
      rw [relaxAll_c_stable c rest _ _ (fun q hq => hw q (List.mem_cons_of_mem _ hq))]
      rw [alookup_ainsert_ne _ (Ne.symm hnbc)]
    · exact relaxAll_c_stable c rest dist prev
        (fun q hq => hw q (List.mem_cons_of_mem _ hq))

theorem relaxAll_frontier (c : Node K) :
    ∀ (entries : AdjMap K) (dist : Distances K) (prev : Paths K),
      (∀ q ∈ entries, (0 : ℚ) ≤ q.2) →
      ∀ q ∈ entries, dval (relaxAll c entries (dist, prev)).1 q.1 ≤
        dval (relaxAll c entries (dist, prev)).1 c + ((q.2 : ℚ) : WithTop ℚ)
  | [], _, _, _, q, hq => by simp at hq
  | (nb, w) :: rest, dist, prev, hw, q, hq => by
    have hwrest : ∀ q ∈ rest, (0 : ℚ) ≤ q.2 :=
      fun q2 hq2 => hw q2 (List.mem_cons_of_mem _ hq2)
    rw [relaxAll_cons]
    split_ifs with hup
    · have hnbc : nb ≠ c := fired_ne_c (hw (nb, w) (List.mem_cons_self _ _)) hup
      have hcstable : alookup (relaxAll c rest (ainsert dist nb
          (dval dist c + ((w : ℚ) : WithTop ℚ)), ainsert prev nb c)).1 c =
          alookup dist c := by
        rw [relaxAll_c_stable c rest _ _ hwrest]
        rw [alookup_ainsert_ne _ (Ne.symm hnbc)]
      rcases List.mem_cons.mp hq with heq | hmem
      · have hq1 : q.1 = nb := by rw [heq]
        have hq2 : q.2 = w := by rw [heq]
        rw [hq1, hq2]
        have hmono := relaxAll_dist_mono c rest
          (ainsert dist nb (dval dist c + ((w : ℚ) : WithTop ℚ))) (ainsert prev nb c) nb
        rw [dval_ainsert_self] at hmono
        refine le_trans hmono ?_
        have hdc : dval (relaxAll c rest (ainsert dist nb
            (dval dist c + ((w : ℚ) : WithTop ℚ)), ainsert prev nb c)).1 c =
            dval dist c := by
          show (alookup (relaxAll c rest (ainsert dist nb
            (dval dist c + ((w : ℚ) : WithTop ℚ)), ainsert prev nb c)).1 c).getD 0 =
            (alookup dist c).getD 0
          rw [hcstable]
        rw [hdc]
      · exact relaxAll_frontier c rest _ _ hwrest q hmem
    · have hcstable : alookup (relaxAll c rest (dist, prev)).1 c = alookup dist c :=
        relaxAll_c_stable c rest dist prev hwrest
      rcases List.mem_cons.mp hq with heq | hmem
      · have hq1 : q.1 = nb := by rw [heq]
        have hq2 : q.2 = w := by rw [heq]
        rw [hq1, hq2]
        have hmono := relaxAll_dist_mono c rest dist prev nb
        refine le_trans hmono (le_trans (not_lt.mp hup) ?_)
        have hdc : dval (relaxAll c rest (dist, prev)).1 c = dval dist c := by
          show (alookup (relaxAll c rest (dist, prev)).1 c).getD 0 =
            (alookup dist c).getD 0
          rw [hcstable]
        rw [hdc]
      · exact relaxAll_frontier c rest dist prev hwrest q hmem

theorem relaxAll_char (c : Node K) :
    ∀ (entries : AdjMap K) (dist : Distances K) (prev : Paths K),
      (∀ q ∈ entries, (0 : ℚ) ≤ q.2) → (akeys entries).Nodup →
      (alookup dist c).isSome →
      ∀ v, (alookup (relaxAll c entries (dist, prev)).1 v = alookup dist v ∧
          alookup (relaxAll c entries (dist, prev)).2 v = alookup prev v) ∨
        (∃ w : ℚ, (v, w) ∈ entries ∧ ∃ qc : ℚ,
          alookup dist c = some ((qc : ℚ) : WithTop ℚ) ∧
          alookup (relaxAll c entries (dist, prev)).1 v =
            some (((qc + w : ℚ)) : WithTop ℚ) ∧
          alookup (relaxAll c entries (dist, prev)).2 v = some c ∧
          (((qc + w : ℚ) : WithTop ℚ)) < dval dist v)
  | [], _, _, _, _, _, _ => Or.inl ⟨rfl, rfl⟩
  | (nb, w) :: rest, dist, prev, hw, hnodup, hc, v => by
    have hwrest : ∀ q ∈ rest, (0 : ℚ) ≤ q.2 :=
      fun q2 hq2 => hw q2 (List.mem_cons_of_mem _ hq2)
    have hnbrest : nb ∉ akeys rest := by
      simp only [akeys, List.map_cons, List.nodup_cons] at hnodup
      simpa [akeys] using hnodup.1
    have hnodrest : (akeys rest).Nodup := by
      simp only [akeys, List.map_cons, List.nodup_cons] at hnodup
      exact hnodup.2
    rw [relaxAll_cons]
    split_ifs with hup
    · have hnbc : nb ≠ c := fired_ne_c (hw (nb, w) (List.mem_cons_self _ _)) hup
      obtain ⟨qc, hqc⟩ := finD_dist_c_of_fired hc hup
      have halt : dval dist c + ((w : ℚ) : WithTop ℚ) = (((qc + w : ℚ)) : WithTop ℚ) := by
        rw [dval_eq_of_alookup hqc, ← WithTop.coe_add]
      have hc2 : (alookup (ainsert dist nb
          (dval dist c + ((w : ℚ) : WithTop ℚ))) c).isSome := by
        rw [alookup_ainsert_ne _ (Ne.symm hnbc)]
        exact hc
      by_cases hveq : v = nb
      · have hun := relaxAll_untouched c rest
          (ainsert dist nb (dval dist c + ((w : ℚ) : WithTop ℚ))) (ainsert prev nb c) nb hnbrest
        right
        refine ⟨w, by rw [hveq]; exact List.mem_cons_self _ _, qc, hqc, ?_, ?_, ?_⟩
        · rw [hveq, hun.1, alookup_ainsert_self, halt]
        · rw [hveq, hun.2, alookup_ainsert_self]
        · rw [hveq, ← halt]
          exact hup
      · rcases relaxAll_char c rest _ _ hwrest hnodrest hc2 v with
          ⟨h1, h2⟩ | ⟨w2, hw2, qc2, hqc2, hr1, hr2, hlt⟩
        · left
          rw [h1, h2, alookup_ainsert_ne _ hveq, alookup_ainsert_ne _ hveq]
          exact ⟨rfl, rfl⟩
        · right
          rw [alookup_ainsert_ne _ (Ne.symm hnbc)] at hqc2
          refine ⟨w2, List.mem_cons_of_mem _ hw2, qc2, hqc2, hr1, hr2, ?_⟩
          rwa [dval_ainsert_ne _ _ hveq] at hlt
    · by_cases hveq : v = nb
      · have hun := relaxAll_untouched c rest dist prev nb hnbrest
        rw [hveq]
        exact Or.inl ⟨hun.1, hun.2⟩
      · rcases relaxAll_char c rest dist prev hwrest hnodrest hc v with
          ⟨h1, h2⟩ | ⟨w2, hw2, qc2, hqc2, hr1, hr2, hlt⟩
        · exact Or.inl ⟨h1, h2⟩
        · exact Or.inr ⟨w2, List.mem_cons_of_mem _ hw2, qc2, hqc2, hr1, hr2, hlt⟩

/-! ## Dijkstra: initialization and the reachability invariant -/

theorem dijkstraStep_def [Inhabited K] (g : graphData K) (st : DijSt K) :
    dijkstraStep g st =
      ⟨st.queue.eraseIdx (minScan st.dist st.queue).1,
       (relaxAll (st.queue.getD (minScan st.dist st.queue).1 default)
         (adjOf g (st.queue.getD (minScan st.dist st.queue).1 default))
         (st.dist, st.prev)).1,
       (relaxAll (st.queue.getD (minScan st.dist st.queue).1 default)
         (adjOf g (st.queue.getD (minScan st.dist st.queue).1 default))
         (st.dist, st.prev)).2⟩ := rfl

theorem mem_iff_getElem_or_eraseIdx {α : Type} {Q : List α} {i : Nat}
    (hi : i < Q.length) (v : α) : v ∈ Q ↔ v = Q[i] ∨ v ∈ Q.eraseIdx i := by
  conv_lhs => rw [← List.take_append_drop i Q]
  rw [List.eraseIdx_eq_take_drop_succ]
  rw [← List.getElem_cons_drop Q i hi]
  simp only [List.mem_append, List.mem_cons]
  tauto

theorem getElem_not_mem_eraseIdx {α : Type} {Q : List α} {i : Nat}
    (hnodup : Q.Nodup) (hi : i < Q.length) : Q[i] ∉ Q.eraseIdx i := by
  intro hmem
  have hdecomp : Q = Q.take i ++ Q[i] :: Q.drop (i + 1) := by
    conv_lhs => rw [← List.take_append_drop i Q]
    rw [← List.getElem_cons_drop Q i hi]
  rw [List.eraseIdx_eq_take_drop_succ] at hmem
  rw [hdecomp] at hnodup
  rcases List.mem_append.mp hmem with h | h
  · have := (List.nodup_append.mp hnodup).2.2
    exact this h (List.mem_cons_self _ _)
  · have := (List.nodup_append.mp hnodup).2.1
    rw [List.nodup_cons] at this
    exact this.1 h

theorem dval_top_of_not_finD {dist : Distances K} {v : Node K}
    (hk : (alookup dist v).isSome) (h : ¬ finD dist v) : dval dist v = ⊤ := by
  by_contra hc
  exact h (finD_of_dval_ne_top hk hc)

theorem nonneg_adjOf {g : graphData K} (hnn : NonNeg g) (u : Node K) :
    ∀ q ∈ adjOf g u, (0 : ℚ) ≤ q.2 := by
  intro q hq
  unfold adjOf at hq
  cases hu : alookup g.Adjacencies u with
  | none => rw [hu] at hq; simp at hq
  | some m =>
    rw [hu] at hq
    simp only [Option.getD_some] at hq
    exact hnn (u, m) (mem_of_alookup_eq_some hu) q hq

theorem adjOf_nodup {g : graphData K} (hwf : wf g) (u : Node K) :
    (akeys (adjOf g u)).Nodup := by
  unfold adjOf
  cases hu : alookup g.Adjacencies u with
  | none => simp [akeys]
  | some m => exact hwf.2.1 (u, m) (mem_of_alookup_eq_some hu)

theorem foldl_ainsert_top :
    ∀ (keys : List (Node K)) (m0 : Distances K) (v : Node K),
      alookup (keys.foldl (fun m n => ainsert m n (⊤ : WithTop ℚ)) m0) v =
        if v ∈ keys then some ⊤ else alookup m0 v
  | [], m0, v => by simp
  | k :: rest, m0, v => by
    show alookup (rest.foldl (fun m n => ainsert m n (⊤ : WithTop ℚ)) (ainsert m0 k ⊤)) v = _
    rw [foldl_ainsert_top rest (ainsert m0 k ⊤) v]
    by_cases hv : v ∈ rest
    · rw [if_pos hv, if_pos (List.mem_cons_of_mem _ hv)]
    · rw [if_neg hv]
      by_cases hk : v = k
      · subst hk
        rw [alookup_ainsert_self, if_pos (List.mem_cons_self _ _)]
      · rw [alookup_ainsert_ne _ hk, if_neg (by simp [hk, hv])]

theorem dij_init_dist (g : graphData K) (start : Node K) (v : Node K) :
    alookup (ainsert (g.Nodes.foldl (fun m n => ainsert m n (⊤ : WithTop ℚ)) []) start 0) v =
      if v = start then some ((0 : ℚ) : WithTop ℚ)
      else if v ∈ g.Nodes then some ⊤ else none := by
  by_cases hv : v = start
  · subst hv
    rw [alookup_ainsert_self, if_pos rfl]
    rfl
  · rw [alookup_ainsert_ne _ hv, if_neg hv, foldl_ainsert_top]
    split
    · rfl
    · rfl

theorem reach_init (g : graphData K) (hwf : wf g) (start : Node K) :
    ReachInv g start []
      ⟨g.Nodes, ainsert (g.Nodes.foldl (fun m n => ainsert m n (⊤ : WithTop ℚ)) []) start 0,
        [(start, start)]⟩ := by
  have hdist := dij_init_dist g start
  have hfin : ∀ v, finD (ainsert (g.Nodes.foldl
      (fun m n => ainsert m n (⊤ : WithTop ℚ)) []) start 0) v ↔ v = start := by
    intro v
    constructor
    · rintro ⟨q, hq⟩
      rw [hdist v] at hq
      by_cases hv : v = start
      · exact hv
      · rw [if_neg hv] at hq
        split at hq
        · cases hq
        · cases hq
    · rintro rfl
      exact ⟨0, by rw [hdist v, if_pos rfl]⟩
  refine ⟨?_, hwf.1, List.nodup_nil, ?_, ?_, ?_, ?_, ?_, ?_, ?_, ?_⟩
  · intro v; simp
  · intro v hv; simp at hv
  · intro v
    show (alookup (ainsert (g.Nodes.foldl
        (fun m n => ainsert m n (⊤ : WithTop ℚ)) []) start 0) v).isSome ↔ _
    rw [hdist v]
    by_cases hv : v = start
    · simp [hv]
    · rw [if_neg hv]
      by_cases hn : v ∈ g.Nodes
      · rw [if_pos hn]; simp [hn]
      · rw [if_neg hn]; simp [hn, hv]
  · intro v
    rw [hfin v]
    show (alookup [(start, start)] v).isSome ↔ v = start
    unfold alookup
    by_cases hv : start = v
    · rw [if_pos hv]
      simpa using hv.symm
    · rw [if_neg hv]
      simp only [alookup, Option.isSome_none, Bool.false_eq_true, false_iff]
      exact fun hc => hv hc.symm
  · intro v hv
    rw [(hfin v).mp hv]
    exact Reachable_refl g start
  · exact (hfin start).mpr rfl
  · intro u hu; simp at hu
  · intro u hu; simp at hu
  · intro v hv
    exact Or.inl ((hfin v).mp hv)

theorem reach_step [Inhabited K] {g : graphData K} (hwf : wf g) {start : Node K}
    {done : List (Node K)} {Q : List (Node K)} {D : Distances K} {P : Paths K}
    (hne : Q ≠ []) (hinv : ReachInv g start done ⟨Q, D, P⟩) :
    ReachInv g start (done ++ [Q.getD (minScan D Q).1 default])
      (dijkstraStep g ⟨Q, D, P⟩) := by
  obtain ⟨hmi, hdc, hmin⟩ := minScan_spec D Q hne
  set mi := (minScan D Q).1 with hmidef
  set c := Q.getD mi default with hcdef
  have hceq : c = Q[mi] := List.getD_eq_getElem Q default hmi
  have hcQ : c ∈ Q := by
    rw [hceq]
    exact List.getElem_mem hmi
  have hsplitQ : ∀ v, v ∈ Q ↔ v = c ∨ v ∈ Q.eraseIdx mi := by
    intro v
    rw [hceq]
    exact mem_iff_getElem_or_eraseIdx hmi v
  have hcnotin : c ∉ Q.eraseIdx mi := by
    rw [hceq]
    exact getElem_not_mem_eraseIdx hinv.qnodup hmi
  have hcdone : c ∉ done := fun h => hinv.disj c h hcQ
  have hcN : c ∈ g.Nodes := (hinv.nodesplit c).mpr (Or.inl hcQ)
  have hcKey : (alookup D c).isSome := (hinv.distkeys c).mpr (Or.inl hcN)
  have hkeysE : ∀ q ∈ adjOf g c, (alookup D q.1).isSome :=
    fun q hq => (hinv.distkeys q.1).mpr (Or.inl (mem_nodes_of_mem_adjOf hwf hq))
  have hfinrev := relaxAll_finD_rev c (adjOf g c) D P hcKey
  have hmono := relaxAll_finD_mono c (adjOf g c) D P
  have hstepeq : dijkstraStep g ⟨Q, D, P⟩ =
      (⟨Q.eraseIdx mi, (relaxAll c (adjOf g c) (D, P)).1,
        (relaxAll c (adjOf g c) (D, P)).2⟩ : DijSt K) := rfl
  rw [hstepeq]
  refine ⟨?_, ?_, ?_, ?_, ?_, ?_, ?_, ?_, ?_, ?_, ?_⟩
  · intro v
    show v ∈ g.Nodes ↔ v ∈ Q.eraseIdx mi ∨ v ∈ done ++ [c]
    rw [hinv.nodesplit v, hsplitQ v]
    simp only [List.mem_append, List.mem_singleton]
    tauto
  · show (Q.eraseIdx mi).Nodup
    exact hinv.qnodup.eraseIdx mi
  · show (done ++ [c]).Nodup
    rw [List.nodup_append]
    refine ⟨hinv.dnodup, List.nodup_singleton c, ?_⟩
    intro a ha hac
    rw [List.mem_singleton] at hac
    subst hac
    exact hcdone ha
  · intro v hv
    show v ∉ Q.eraseIdx mi
    rcases List.mem_append.mp hv with hvd | hvc
    · intro hmem
      exact hinv.disj v hvd ((hsplitQ v).mpr (Or.inr hmem))
    · rw [List.mem_singleton] at hvc
      subst hvc
      exact hcnotin
  · intro v
    show (alookup (relaxAll c (adjOf g c) (D, P)).1 v).isSome ↔ _
    rw [relaxAll_keys c (adjOf g c) D P hkeysE v]
    exact hinv.distkeys v
  · intro v
    exact relaxAll_prev_iff c (adjOf g c) D P hcKey hinv.prevfin v
  · intro v hv
    rcases hfinrev v hv with hdv | ⟨⟨w, hw⟩, hfc⟩
    · exact hinv.finreach v hdv
    · exact Reachable_step (hinv.finreach c hfc) (edgeEx_of_mem_adjOf hwf hw)
  · exact hmono start hinv.finstart
  · intro u hu hufin q hq
    rcases List.mem_append.mp hu with hud | huc
    · by_cases hfDu : finD D u
      · exact hmono q.1 (hinv.finprop u hud hfDu q hq)
      · exfalso
        rcases hfinrev u hufin with hdv | ⟨_, hfc⟩
        · exact hfDu hdv
        · exact hinv.frozen u hud hfDu c hcQ hfc
    · rw [List.mem_singleton] at huc
      subst huc
      have hfc : finD D c := by
        rcases hfinrev c hufin with hdv | ⟨_, hfc⟩
        · exact hdv
        · exact hfc
      exact relaxAll_finprop c (adjOf g c) D P hfc hkeysE q hq
  · intro u hu hunf x hx hfx
    have hxQ : x ∈ Q := (hsplitQ x).mpr (Or.inr hx)
    have hDu : ¬ finD D u := fun h => hunf (hmono u h)
    rcases List.mem_append.mp hu with hud | huc
    · have hfr := hinv.frozen u hud hDu
      rcases hfinrev x hfx with hdv | ⟨_, hfc⟩
      · exact hfr x hxQ hdv
      · exact hfr c hcQ hfc
    · rw [List.mem_singleton] at huc
      subst huc
      have htop : dval D c = ⊤ := dval_top_of_not_finD hcKey hDu
      have htopall : ∀ y ∈ Q, ¬ finD D y := by
        intro y hy hfy
        have h1 := hmin y hy
        rw [← hdc, htop] at h1
        exact dval_ne_top_of_finD hfy (top_le_iff.mp h1)
      rcases hfinrev x hfx with hdv | ⟨_, hfc⟩
      · exact htopall x hxQ hdv
      · exact htopall c hcQ hfc
  · intro v hv
    rcases hfinrev v hv with hdv | ⟨⟨w, hw⟩, _⟩
    · exact hinv.finnode v hdv
    · exact Or.inr (mem_nodes_of_mem_adjOf hwf hw)

theorem dij_reach_final [Inhabited K] (g : graphData K) (hwf : wf g) (start : Node K) :
    (∃ done, ReachInv g start done (dijFinal g start)) ∧
      (dijFinal g start).queue = [] := by
  have hstep : ∀ st : DijSt K, st.queue ≠ [] → (∃ done, ReachInv g start done st) →
      (∃ done, ReachInv g start done (dijkstraStep g st)) := by
    intro st hne h
    obtain ⟨done, hinv⟩ := h
    obtain ⟨Q, D, P⟩ := st
    exact ⟨done ++ [Q.getD (minScan D Q).1 default], reach_step hwf hne hinv⟩
  exact dijkstraLoop_master g (fun st => ∃ done, ReachInv g start done st) hstep
    g.Nodes.length
    ⟨g.Nodes, ainsert (g.Nodes.foldl (fun m n => ainsert m n (⊤ : WithTop ℚ)) []) start 0,
      [(start, start)]⟩ rfl ⟨[], reach_init g hwf start⟩

theorem chain_fin {g : graphData K} {dist : Distances K}
    (hprop : ∀ u ∈ g.Nodes, finD dist u → ∀ q ∈ adjOf g u, finD dist q.1) :
    ∀ (p : List (Node K)) (a t : Node K), IsChain g p → p.head? = some a →
      p.getLast? = some t → finD dist a → finD dist t
  | [], a, t, _, hh, _, _ => by simp at hh
  | [x], a, t, _, hh, hl, hfa => by
    simp only [List.head?_cons, Option.some.injEq] at hh
    simp only [List.getLast?_singleton, Option.some.injEq] at hl
    rw [← hl, hh]
    exact hfa
  | x :: y :: rest, a, t, hc, hh, hl, hfa => by
    obtain ⟨hxy, hrest⟩ := hc
    simp only [List.head?_cons, Option.some.injEq] at hh
    rw [List.getLast?_cons_cons] at hl
    have hxN : x ∈ g.Nodes := edgeEx_mem_nodes hxy
    obtain ⟨w, hw⟩ := Option.isSome_iff_exists.mp hxy
    have hmem : (y, w) ∈ adjOf g x := lookW_mem_adjOf hw
    have hfx : finD dist x := by rw [hh]; exact hfa
    have hfy : finD dist y := hprop x hxN hfx (y, w) hmem
    exact chain_fin hprop (y :: rest) y t hrest rfl hl hfy

theorem dij_fin_iff_reach [Inhabited K] (g : graphData K) (hwf : wf g)
    (start v : Node K) :
    finD (dijFinal g start).dist v ↔ Reachable g start v := by
  obtain ⟨⟨done, hinv⟩, hq⟩ := dij_reach_final g hwf start
  constructor
  · exact hinv.finreach v
  · rintro ⟨p, hp⟩
    have hprop : ∀ u ∈ g.Nodes, finD (dijFinal g start).dist u →
        ∀ q ∈ adjOf g u, finD (dijFinal g start).dist q.1 := by
      intro u hu
      have hud : u ∈ done := by
        rcases (hinv.nodesplit u).mp hu with hq2 | hd
        · rw [hq] at hq2; simp at hq2
        · exact hd
      exact hinv.finprop u hud
    obtain ⟨hne, hh, hl, hc⟩ := hp
    exact chain_fin hprop p start v hc hh hl hinv.finstart

theorem dij_sentinel_iff [Inhabited K] (g : graphData K) (hwf : wf g)
    (start target : Node K) :
    g.DijkstraTo start target = ([], 0, (⊤ : WithTop ℚ)) ↔
      ¬ Reachable g start target := by
  obtain ⟨⟨done, hinv⟩, hq⟩ := dij_reach_final g hwf start
  have hfiff := dij_fin_iff_reach g hwf start target
  have hdto : g.DijkstraTo start target =
      (match alookup (dijFinal g start).prev target with
      | none => ([], 0, (⊤ : WithTop ℚ))
      | some _ =>
        ((walkBack (dijFinal g start).prev start
            (1 + (dijFinal g start).prev.length) target [target]).reverse,
          (walkBack (dijFinal g start).prev start
            (1 + (dijFinal g start).prev.length) target [target]).reverse.length,
          dval (dijFinal g start).dist target)) := rfl
  rw [hdto]
  cases hpt : alookup (dijFinal g start).prev target with
  | none =>
    refine iff_of_true rfl ?_
    intro hr
    have hsome := (hinv.prevfin target).mpr (hfiff.mpr hr)
    rw [hpt] at hsome
    cases hsome
  | some u =>
    refine iff_of_false ?_ ?_
    · intro heq
      have h3 : dval (dijFinal g start).dist target = ⊤ :=
        congrArg (fun t : List (Node K) × Nat × WithTop ℚ => t.2.2) heq
      have hfin : finD (dijFinal g start).dist target :=
        (hinv.prevfin target).mp (by rw [hpt]; rfl)
      exact dval_ne_top_of_finD hfin h3
    · intro hnr
      exact hnr (hfiff.mp ((hinv.prevfin target).mp (by rw [hpt]; rfl)))

/-! ## Dijkstra: the optimality invariant -/

theorem indexOf_append_of_mem {a : Node K} :
    ∀ {l1 : List (Node K)} (l2 : List (Node K)), a ∈ l1 →
      (l1 ++ l2).indexOf a = l1.indexOf a
  | [], _, h => by simp at h
  | b :: t, l2, h => by
    by_cases hb : b = a
    · subst hb
      simp [List.indexOf_cons_self]
    · have hat : a ∈ t := (List.mem_cons.mp h).resolve_left (fun h1 => hb h1.symm)
      rw [List.cons_append, List.indexOf_cons_ne _ hb, List.indexOf_cons_ne _ hb,
        indexOf_append_of_mem l2 hat]

theorem indexOf_append_of_not_mem {a : Node K} :
    ∀ {l1 : List (Node K)} (l2 : List (Node K)), a ∉ l1 →
      (l1 ++ l2).indexOf a = l1.length + l2.indexOf a
  | [], _, _ => by simp
  | b :: t, l2, h => by
    have hb : b ≠ a := fun hc => h (by rw [hc]; exact List.mem_cons_self _ _)
    rw [List.cons_append, List.indexOf_cons_ne _ hb,
      indexOf_append_of_not_mem l2 (fun hc => h (List.mem_cons_of_mem _ hc))]
    simp only [List.length_cons]
    omega

theorem opt_init (g : graphData K) (hwf : wf g) (start : Node K) :
    OptInv g start []
      ⟨g.Nodes, ainsert (g.Nodes.foldl (fun m n => ainsert m n (⊤ : WithTop ℚ)) []) start 0,
        [(start, start)]⟩ := by
  have hdist := dij_init_dist g start
  refine ⟨reach_init g hwf start, ?_, ?_, ?_, ?_, ?_, ?_⟩
  · show alookup (ainsert (g.Nodes.foldl
        (fun m n => ainsert m n (⊤ : WithTop ℚ)) []) start 0) start = _
    rw [hdist start, if_pos rfl]
  · show alookup [(start, start)] start = some start
    simp [alookup]
  · intro u hu; simp at hu
  · intro v qv hq
    have hq2 : alookup (ainsert (g.Nodes.foldl
        (fun m n => ainsert m n (⊤ : WithTop ℚ)) []) start 0) v =
        some ((qv : ℚ) : WithTop ℚ) := hq
    rw [hdist v] at hq2
    by_cases hv : v = start
    · rw [if_pos hv] at hq2
      have h0 : (0 : ℚ) = qv := by exact_mod_cast Option.some.inj hq2
      refine ⟨[v], ?_, ?_⟩
      · rw [hv]; exact IsPath_single g start
      · show (0 : ℚ) = qv
        exact h0
    · rw [if_neg hv] at hq2
      split at hq2
      · cases hq2
      · cases hq2
  · intro u hu; simp at hu
  · intro v u hpv hvs
    exfalso
    have hpv2 : alookup [(start, start)] v = some u := hpv
    unfold alookup at hpv2
    rw [if_neg (fun h => hvs h.symm)] at hpv2
    cases hpv2

theorem cover_aux {g : graphData K} (hwf : wf g) (hnn : NonNeg g) {start : Node K}
    {done : List (Node K)} {st : DijSt K} (hinv : OptInv g start done st) :
    ∀ (p : List (Node K)) (a t : Node K), IsChain g p → p.head? = some a →
      p.getLast? = some t → a ∈ done → finD st.dist a →
      ¬ (t ∈ done ∧ finD st.dist t) →
      ∃ u ∈ st.queue, dval st.dist u ≤ dval st.dist a + ((costOf g p : ℚ) : WithTop ℚ)
  | [], a, t, _, hh, _, _, _, _ => by simp at hh
  | [x], a, t, _, hh, hl, had, hfa, hnt => by
    simp only [List.head?_cons, Option.some.injEq] at hh
    simp only [List.getLast?_singleton, Option.some.injEq] at hl
    exact absurd ⟨by rw [← hl, hh]; exact had, by rw [← hl, hh]; exact hfa⟩ hnt
  | x :: y :: rest, a, t, hc, hh, hl, had, hfa, hnt => by
    obtain ⟨hxy, hrest⟩ := hc
    simp only [List.head?_cons, Option.some.injEq] at hh
    rw [List.getLast?_cons_cons] at hl
    have hadx : x ∈ done := by rw [hh]; exact had
    have hfax : finD st.dist x := by rw [hh]; exact hfa
    rw [← hh]
    obtain ⟨w, hw⟩ := Option.isSome_iff_exists.mp hxy
    have hmem : (y, w) ∈ adjOf g x := lookW_mem_adjOf hw
    have hw0 : (0 : ℚ) ≤ w := nonneg_adjOf hnn x (y, w) hmem
    have hfront : dval st.dist y ≤ dval st.dist x + ((w : ℚ) : WithTop ℚ) :=
      hinv.frontier x hadx (y, w) hmem
    have hcost : costOf g (x :: y :: rest) = w + costOf g (y :: rest) := by
      show wgt g x y + _ = _
      rw [wgt_eq hw]
    have hcrest0 : (0 : ℚ) ≤ costOf g (y :: rest) := costOf_nonneg_chain hnn _ hrest
    by_cases hyd : y ∈ done ∧ finD st.dist y
    · obtain ⟨u, hu, hle⟩ :=
        cover_aux hwf hnn hinv (y :: rest) y t hrest rfl hl hyd.1 hyd.2 hnt
      refine ⟨u, hu, ?_⟩
      calc dval st.dist u
          ≤ dval st.dist y + ((costOf g (y :: rest) : ℚ) : WithTop ℚ) := hle
        _ ≤ (dval st.dist x + ((w : ℚ) : WithTop ℚ)) +
              ((costOf g (y :: rest) : ℚ) : WithTop ℚ) := add_le_add_right hfront _
        _ = dval st.dist x + ((costOf g (x :: y :: rest) : ℚ) : WithTop ℚ) := by
            rw [hcost, add_assoc]
            norm_cast
    · by_cases hyq : y ∈ st.queue
      · refine ⟨y, hyq, ?_⟩
        calc dval st.dist y
            ≤ dval st.dist x + ((w : ℚ) : WithTop ℚ) := hfront
          _ ≤ dval st.dist x + ((costOf g (x :: y :: rest) : ℚ) : WithTop ℚ) := by
              apply add_le_add_left
              rw [hcost]
              exact_mod_cast le_add_of_nonneg_right hcrest0
      · exfalso
        have hyN : y ∈ g.Nodes := mem_nodes_of_mem_adjOf hwf hmem
        have hyd2 : y ∈ done := by
          rcases (hinv.nodesplit y).mp hyN with h | h
          · exact absurd h hyq
          · exact h
        have hynf : ¬ finD st.dist y := fun h => hyd ⟨hyd2, h⟩
        obtain ⟨qa, hqa⟩ := hfax
        have hxv : dval st.dist x = ((qa : ℚ) : WithTop ℚ) := dval_eq_of_alookup hqa
        have hlt : dval st.dist y ≠ ⊤ := by
          intro htop
          rw [htop, hxv] at hfront
          have hco : ((qa : ℚ) : WithTop ℚ) + ((w : ℚ) : WithTop ℚ) =
              ((qa + w : ℚ) : WithTop ℚ) := by norm_cast
          rw [hco] at hfront
          exact WithTop.coe_ne_top (top_le_iff.mp hfront)
        have hkey : (alookup st.dist y).isSome := (hinv.distkeys y).mpr (Or.inl hyN)
        exact hynf (finD_of_dval_ne_top hkey hlt)

theorem cover {g : graphData K} (hwf : wf g) (hnn : NonNeg g) {start : Node K}
    {done : List (Node K)} {st : DijSt K} (hinv : OptInv g start done st)
    {t : Node K} (htq : t ∈ st.queue) (p : List (Node K)) (hp : IsPath g start t p) :
    ∃ u ∈ st.queue, dval st.dist u ≤ ((costOf g p : ℚ) : WithTop ℚ) := by
  have hnt : ¬ (t ∈ done ∧ finD st.dist t) := by
    rintro ⟨htd, _⟩
    exact hinv.disj t htd htq
  obtain ⟨hne, hh, hl, hc⟩ := hp
  by_cases hsd : start ∈ done
  · obtain ⟨u, hu, hle⟩ :=
      cover_aux hwf hnn hinv p start t hc hh hl hsd hinv.finstart hnt
    refine ⟨u, hu, ?_⟩
    rw [dval_eq_of_alookup hinv.dstart] at hle
    calc dval st.dist u
        ≤ ((0 : ℚ) : WithTop ℚ) + ((costOf g p : ℚ) : WithTop ℚ) := hle
      _ = ((costOf g p : ℚ) : WithTop ℚ) := by
          rw [← WithTop.coe_add, zero_add]
  · by_cases hsq : start ∈ st.queue
    · refine ⟨start, hsq, ?_⟩
      rw [dval_eq_of_alookup hinv.dstart]
      exact_mod_cast costOf_nonneg_chain hnn p hc
    · exfalso
      cases p with
      | nil => exact hne rfl
      | cons x ps =>
        cases ps with
        | nil =>
          simp only [List.head?_cons, Option.some.injEq] at hh
          simp only [List.getLast?_singleton, Option.some.injEq] at hl
          apply hsq
          rw [← hh, hl]
          exact htq
        | cons y rest =>
          obtain ⟨hxy, _⟩ := hc
          simp only [List.head?_cons, Option.some.injEq] at hh
          have hxN : x ∈ g.Nodes := edgeEx_mem_nodes hxy
          rw [hh] at hxN
          rcases (hinv.nodesplit start).mp hxN with h | h
          · exact hsq h
          · exact hsd h

theorem opt_step [Inhabited K] {g : graphData K} (hwf : wf g) (hnn : NonNeg g)
    {start : Node K} {done : List (Node K)} {Q : List (Node K)} {D : Distances K}
    {P : Paths K} (hne : Q ≠ []) (hinv : OptInv g start done ⟨Q, D, P⟩) :
    OptInv g start (done ++ [Q.getD (minScan D Q).1 default])
      (dijkstraStep g ⟨Q, D, P⟩) := by
  obtain ⟨hmi, hdc, hmin⟩ := minScan_spec D Q hne
  set mi := (minScan D Q).1 with hmidef
  set c := Q.getD mi default with hcdef
  have hceq : c = Q[mi] := List.getD_eq_getElem Q default hmi
  have hcQ : c ∈ Q := by rw [hceq]; exact List.getElem_mem hmi
  have hcdone : c ∉ done := fun h => hinv.disj c h hcQ
  have hcN : c ∈ g.Nodes := (hinv.nodesplit c).mpr (Or.inl hcQ)
  have hcKey : (alookup D c).isSome := (hinv.distkeys c).mpr (Or.inl hcN)
  have hw0 : ∀ q ∈ adjOf g c, (0 : ℚ) ≤ q.2 := nonneg_adjOf hnn c
  have hnodupE : (akeys (adjOf g c)).Nodup := adjOf_nodup hwf c
  have hchar := relaxAll_char c (adjOf g c) D P hw0 hnodupE hcKey
  have hcstable : alookup (relaxAll c (adjOf g c) (D, P)).1 c = alookup D c :=
    relaxAll_c_stable c (adjOf g c) D P hw0
  have hmono := relaxAll_finD_mono c (adjOf g c) D P
  have hdmono := relaxAll_dist_mono c (adjOf g c) D P
  have hattq : ∀ (v : Node K) (qv : ℚ), alookup D v = some ((qv : ℚ) : WithTop ℚ) →
      (0 : ℚ) ≤ qv := by
    intro v qv h
    obtain ⟨p, hp, hcost⟩ := hinv.attained v qv h
    rw [← hcost]
    exact costOf_nonneg_chain hnn p hp.2.2.2
  have hdstab : ∀ u ∈ done,
      alookup (relaxAll c (adjOf g c) (D, P)).1 u = alookup D u ∧
        alookup (relaxAll c (adjOf g c) (D, P)).2 u = alookup P u := by
    intro u hu
    rcases hchar u with ⟨h1, h2⟩ | ⟨w, hwm, qc, hqc, hr1, hr2, hlt⟩
    · exact ⟨h1, h2⟩
    · exfalso
      by_cases hfu : finD D u
      · obtain ⟨qu, hqu⟩ := hfu
        have hleast := hinv.settled u hu qu hqu
        obtain ⟨pc, hpc, hcostc⟩ := hinv.attained c qc hqc
        have hedge : edgeEx g c u := edgeEx_of_mem_adjOf hwf hwm
        have hlb := hleast.2 (pc ++ [u]) (IsPath_append_edge hpc hedge)
        have hcc : costOf g (pc ++ [u]) = qc + w := by
          rw [costOf_append_edge hpc.2.2.1, hcostc, wgt_eq (mem_adjOf_lookW hwf hwm)]
        rw [hcc] at hlb
        rw [dval_eq_of_alookup hqu] at hlt
        have := WithTop.coe_lt_coe.mp hlt
        linarith
      · exact hinv.frozen u hu hfu c hcQ ⟨qc, hqc⟩
  have hsstab : alookup (relaxAll c (adjOf g c) (D, P)).1 start = alookup D start ∧
      alookup (relaxAll c (adjOf g c) (D, P)).2 start = alookup P start := by
    rcases hchar start with ⟨h1, h2⟩ | ⟨w, hwm, qc, hqc, _, _, hlt⟩
    · exact ⟨h1, h2⟩
    · exfalso
      rw [dval_eq_of_alookup hinv.dstart] at hlt
      have h1 := WithTop.coe_lt_coe.mp hlt
      have h2 := hattq c qc hqc
      have h3 : (0 : ℚ) ≤ w := hw0 (start, w) hwm
      linarith
  have hstepeq : dijkstraStep g ⟨Q, D, P⟩ =
      (⟨Q.eraseIdx mi, (relaxAll c (adjOf g c) (D, P)).1,
        (relaxAll c (adjOf g c) (D, P)).2⟩ : DijSt K) := rfl
  have hreach := reach_step hwf hne hinv.toReachInv
  rw [hstepeq] at hreach ⊢
  refine ⟨hreach, ?_, ?_, ?_, ?_, ?_, ?_⟩
  · show alookup (relaxAll c (adjOf g c) (D, P)).1 start = _
    rw [hsstab.1]
    exact hinv.dstart
  · show alookup (relaxAll c (adjOf g c) (D, P)).2 start = some start
    rw [hsstab.2]
    exact hinv.pstart
  · intro u hu qu hqu
    rcases List.mem_append.mp hu with hud | huc
    · rw [(hdstab u hud).1] at hqu
      exact hinv.settled u hud qu hqu
    · rw [List.mem_singleton] at huc
      subst huc
      rw [hcstable] at hqu
      constructor
      · exact hinv.attained c qu hqu
      · intro p hp
        obtain ⟨u', hu', hle⟩ := cover hwf hnn hinv hcQ p hp
        have h1 := hmin u' hu'
        rw [← hdc] at h1
        rw [dval_eq_of_alookup hqu] at h1
        exact_mod_cast le_trans h1 hle
  · intro v qv hqv
    rcases hchar v with ⟨h1, _⟩ | ⟨w, hwm, qc, hqc, hr1, _, _⟩
    · rw [h1] at hqv
      exact hinv.attained v qv hqv
    · rw [hr1] at hqv
      have hq : qc + w = qv := by exact_mod_cast Option.some.inj hqv
      obtain ⟨pc, hpc, hcostc⟩ := hinv.attained c qc hqc
      have hedge : edgeEx g c v := edgeEx_of_mem_adjOf hwf hwm
      refine ⟨pc ++ [v], IsPath_append_edge hpc hedge, ?_⟩
      rw [costOf_append_edge hpc.2.2.1, hcostc, wgt_eq (mem_adjOf_lookW hwf hwm), hq]
  · intro u hu q hq
    rcases List.mem_append.mp hu with hud | huc
    · have h1 : dval (relaxAll c (adjOf g c) (D, P)).1 u = dval D u := by
        unfold dval
        rw [(hdstab u hud).1]
      rw [h1]
      exact le_trans (hdmono q.1) (hinv.frontier u hud q hq)
    · rw [List.mem_singleton] at huc
      subst huc
      exact relaxAll_frontier c (adjOf g c) D P hw0 q hq
  · intro v u hpv hvs
    rcases hchar v with ⟨h1, h2⟩ | ⟨w, hwm, qc, hqc, hr1, hr2, hlt⟩
    · rw [h2] at hpv
      obtain ⟨hedge, hud, hfu, hrank⟩ := hinv.prevrank v u hpv hvs
      refine ⟨hedge, List.mem_append.mpr (Or.inl hud), hmono u hfu, ?_⟩
      intro hv'
      rcases List.mem_append.mp hv' with hvd | hvc
      · rw [indexOf_append_of_mem [c] hud, indexOf_append_of_mem [c] hvd]
        exact hrank hvd
      · rw [List.mem_singleton] at hvc
        subst hvc
        rw [indexOf_append_of_mem [c] hud, indexOf_append_of_not_mem [c] hcdone]
        have h2l := List.indexOf_lt_length.mpr hud
        have h3 : ([c] : List (Node K)).indexOf c = 0 := List.indexOf_cons_self c []
        rw [h3]
        omega
    · rw [hr2] at hpv
      have huc : u = c := (Option.some.inj hpv).symm
      subst huc
      refine ⟨edgeEx_of_mem_adjOf hwf hwm,
        List.mem_append.mpr (Or.inr (List.mem_singleton.mpr rfl)), ⟨qc, ?_⟩, ?_⟩
      · rw [hcstable]
        exact hqc
      · intro hv'
        exfalso
        rcases List.mem_append.mp hv' with hvd | hvc
        · by_cases hfv : finD D v
          · obtain ⟨qv, hqv⟩ := hfv
            have hleast := hinv.settled v hvd qv hqv
            obtain ⟨pc, hpc, hcostc⟩ := hinv.attained c qc hqc
            have hlb := hleast.2 (pc ++ [v])
              (IsPath_append_edge hpc (edgeEx_of_mem_adjOf hwf hwm))
            have hcc : costOf g (pc ++ [v]) = qc + w := by
              rw [costOf_append_edge hpc.2.2.1, hcostc,
                wgt_eq (mem_adjOf_lookW hwf hwm)]
            rw [hcc] at hlb
            rw [dval_eq_of_alookup hqv] at hlt
            have := WithTop.coe_lt_coe.mp hlt
            linarith
          · exact hinv.frozen v hvd hfv c hcQ ⟨qc, hqc⟩
        · rw [List.mem_singleton] at hvc
          subst hvc
          rw [dval_eq_of_alookup hqc] at hlt
          have h1 := WithTop.coe_lt_coe.mp hlt
          have h3 : (0 : ℚ) ≤ w := hw0 (c, w) hwm
          linarith

theorem dij_opt_final [Inhabited K] (g : graphData K) (hwf : wf g) (hnn : NonNeg g)
    (start : Node K) :
    (∃ done, OptInv g start done (dijFinal g start)) ∧
      (dijFinal g start).queue = [] := by
  have hstep : ∀ st : DijSt K, st.queue ≠ [] → (∃ done, OptInv g start done st) →
      (∃ done, OptInv g start done (dijkstraStep g st)) := by
    intro st hne h
    obtain ⟨done, hinv⟩ := h
    obtain ⟨Q, D, P⟩ := st
    exact ⟨done ++ [Q.getD (minScan D Q).1 default], opt_step hwf hnn hne hinv⟩
  exact dijkstraLoop_master g (fun st => ∃ done, OptInv g start done st) hstep
    g.Nodes.length
    ⟨g.Nodes, ainsert (g.Nodes.foldl (fun m n => ainsert m n (⊤ : WithTop ℚ)) []) start 0,
      [(start, start)]⟩ rfl ⟨[], opt_init g hwf start⟩

/-! ## Path reconstruction by `walkBack` -/

theorem walkBack_from_start [Inhabited K] (P : Paths K) (start : Node K) :
    ∀ (fuel : Nat) (acc : List (Node K)), walkBack P start fuel start acc = acc
  | 0, _ => rfl
  | fuel + 1, acc => by
    show (if start = start then acc
      else walkBack P start fuel ((alookup P start).getD default)
        (acc ++ [(alookup P start).getD default])) = acc
    rw [if_pos rfl]

theorem walkBack_cons [Inhabited K] (P : Paths K) (start : Node K) (fuel : Nat)
    (v : Node K) (acc : List (Node K)) (hv : v ≠ start) :
    walkBack P start (fuel + 1) v acc =
      walkBack P start fuel ((alookup P v).getD default)
        (acc ++ [(alookup P v).getD default]) := by
  show (if v = start then acc
    else walkBack P start fuel ((alookup P v).getD default)
      (acc ++ [(alookup P v).getD default])) = _
  rw [if_neg hv]

theorem getLast_cons_ne_nil {α : Type} (a : α) :
    ∀ (l : List α), l ≠ [] → (a :: l).getLast? = l.getLast?
  | [], h => absurd rfl h
  | _ :: _, _ => List.getLast?_cons_cons

/-- Walking the predecessor links from `v` builds the reversed tail of a path
from `start` to `v`, provided each link is an adjacency edge and some rank
strictly decreases along the links. -/
theorem walkBack_build {g : graphData K} [Inhabited K] {P : Paths K} {start : Node K}
    (rk : Node K → Nat)
    (hstep : ∀ v, v ≠ start → ∀ u, alookup P v = some u →
      edgeEx g u v ∧ (alookup P u).isSome ∧ (u ≠ start → rk u < rk v)) :
    ∀ (n : Nat) (v : Node K), rk v < n → v ≠ start → (alookup P v).isSome →
      ∃ tail : List (Node K), tail ≠ [] ∧ tail.getLast? = some start ∧
        tail.Nodup ∧ tail ⊆ akeys P ∧ (∀ x ∈ tail, x = start ∨ rk x < rk v) ∧
        IsChain g (tail.reverse ++ [v]) ∧
        ∀ (fuel : Nat) (acc : List (Node K)), tail.length ≤ fuel →
          walkBack P start fuel v acc = acc ++ tail
  | 0, v, hn, _, _ => absurd hn (Nat.not_lt_zero _)
  | n + 1, v, hn, hv, hsome => by
    obtain ⟨u, hu⟩ := Option.isSome_iff_exists.mp hsome
    obtain ⟨hedge, husome, hurk⟩ := hstep v hv u hu
    by_cases hus : u = start
    · refine ⟨[start], by simp, rfl, List.nodup_singleton _, ?_, ?_, ?_, ?_⟩
      · intro x hx
        rw [List.mem_singleton] at hx
        subst hx
        rw [← hus]
        exact alookup_isSome_iff.mp husome
      · intro x hx
        exact Or.inl (List.mem_singleton.mp hx)
      · exact ⟨hus ▸ hedge, trivial⟩
      · intro fuel acc hlen
        cases fuel with
        | zero => simp at hlen
        | succ f =>
          rw [walkBack_cons P start f v acc hv]
          simp only [hu, Option.getD_some]
          rw [hus]
          exact walkBack_from_start P start f (acc ++ [start])
    · have hrku : rk u < n := lt_of_lt_of_le (hurk hus) (Nat.lt_succ_iff.mp hn)
      obtain ⟨tail', hne', hlast', hnd', hsub', hrk', hchain', heval'⟩ :=
        walkBack_build rk hstep n u hrku hus husome
      refine ⟨u :: tail', by simp, ?_, ?_, ?_, ?_, ?_, ?_⟩
      · rw [getLast_cons_ne_nil u tail' hne']
        exact hlast'
      · rw [List.nodup_cons]
        refine ⟨?_, hnd'⟩
        intro hmem
        rcases hrk' u hmem with h | h
        · exact hus h
        · exact lt_irrefl _ h
      · intro x hx
        rcases List.mem_cons.mp hx with rfl | hx'
        · exact alookup_isSome_iff.mp husome
        · exact hsub' hx'
      · intro x hx
        rcases List.mem_cons.mp hx with rfl | hx'
        · exact Or.inr (hurk hus)
        · rcases hrk' x hx' with h | h
          · exact Or.inl h
          · exact Or.inr (lt_trans h (hurk hus))
      · show IsChain g ((u :: tail').reverse ++ [v])
        rw [List.reverse_cons]
        exact IsChain_append_edge hchain' (List.getLast?_concat _) hedge
      · intro fuel acc hlen
        cases fuel with
        | zero => simp at hlen
        | succ f =>
          rw [walkBack_cons P start f v acc hv]
          simp only [hu, Option.getD_some]
          rw [heval' f (acc ++ [u])
            (by simp only [List.length_cons] at hlen; omega)]
          rw [List.append_assoc]
          rfl

/-! ## BFS: the visit step, the loop invariant and the master run -/

theorem length_filter_update :
    ∀ {l : List (Node K)}, l.Nodup →
      ∀ (p p' : Node K → Bool) (nb : Node K), nb ∈ l → p nb = true → p' nb = false →
      (∀ v, v ≠ nb → p' v = p v) →
      (l.filter p').length + 1 = (l.filter p).length
  | [], _, p, p', nb, hmem, _, _, _ => by simp at hmem
  | a :: t, hnodup, p, p', nb, hmem, hp, hp', hsame => by
    rw [List.nodup_cons] at hnodup
    by_cases hanb : a = nb
    · subst hanb
      have hfeq : t.filter p' = t.filter p :=
        List.filter_congr (fun x hx => hsame x (fun hc => hnodup.1 (hc ▸ hx)))
      rw [List.filter_cons, List.filter_cons, hp, hp', hfeq]
      simp
    · have hnbt : nb ∈ t := (List.mem_cons.mp hmem).resolve_left (fun h => hanb h.symm)
      have hihe := length_filter_update hnodup.2 p p' nb hnbt hp hp' hsame
      rw [List.filter_cons, List.filter_cons, hsame a hanb]
      cases hpa : p a
      · simp only [Bool.false_eq_true, if_false]
        exact hihe
      · simp only [if_true]
        simp only [List.length_cons]
        omega

theorem unvisitedCount_insert {g : graphData K} (hnodup : g.Nodes.Nodup)
    {visited : List (Node K × Bool)} {nb : Node K} (hnb : nb ∈ g.Nodes)
    (hunv : (alookup visited nb).isSome = false) (b : Bool) :
    unvisitedCount g (ainsert visited nb b) + 1 = unvisitedCount g visited := by
  unfold unvisitedCount
  apply length_filter_update hnodup _ _ nb hnb
  · show (!(alookup visited nb).isSome) = true
    rw [hunv]
    rfl
  · show (!(alookup (ainsert visited nb b) nb).isSome) = false
    rw [alookup_ainsert_self]
    rfl
  · intro v hv
    show (!(alookup (ainsert visited nb b) v).isSome) = !(alookup visited v).isSome
    rw [alookup_ainsert_ne _ hv]

/-- Any property of nodes that propagates along adjacency entries holds at
the end of every chain whose head satisfies it. -/
theorem chain_closed {g : graphData K} {Pr : Node K → Prop}
    (hprop : ∀ u ∈ g.Nodes, Pr u → ∀ q ∈ adjOf g u, Pr q.1) :
    ∀ (p : List (Node K)) (a t : Node K), IsChain g p → p.head? = some a →
      p.getLast? = some t → Pr a → Pr t
  | [], a, t, _, hh, _, _ => by simp at hh
  | [x], a, t, _, hh, hl, hfa => by
    simp only [List.head?_cons, Option.some.injEq] at hh
    simp only [List.getLast?_singleton, Option.some.injEq] at hl
    rw [← hl, hh]
    exact hfa
  | x :: y :: rest, a, t, hc, hh, hl, hfa => by
    obtain ⟨hxy, hrest⟩ := hc
    simp only [List.head?_cons, Option.some.injEq] at hh
    rw [List.getLast?_cons_cons] at hl
    have hxN : x ∈ g.Nodes := edgeEx_mem_nodes hxy
    obtain ⟨w, hw⟩ := Option.isSome_iff_exists.mp hxy
    have hmem : (y, w) ∈ adjOf g x := lookW_mem_adjOf hw
    have hfx : Pr x := by rw [hh]; exact hfa
    exact chain_closed hprop (y :: rest) y t hrest rfl hl (hprop x hxN hfx (y, w) hmem)

/-- Along any chain the BFS distance grows by at most one per hop, once
every visited node's neighbors are settled. -/
theorem chain_bound {g : graphData K} {st : BfsSt K}
    (hprop : ∀ u ∈ g.Nodes, (alookup st.visited u).isSome →
      ∀ q ∈ adjOf g u, (alookup st.visited q.1).isSome ∧
        dval st.dist q.1 ≤ dval st.dist u + 1) :
    ∀ (p : List (Node K)) (a t : Node K), IsChain g p → p.head? = some a →
      p.getLast? = some t → (alookup st.visited a).isSome →
      (alookup st.visited t).isSome ∧
        dval st.dist t ≤ dval st.dist a + (((p.length - 1 : ℕ) : ℚ) : WithTop ℚ)
  | [], a, t, _, hh, _, _ => by simp at hh
  | [x], a, t, _, hh, hl, hfa => by
    simp only [List.head?_cons, Option.some.injEq] at hh
    simp only [List.getLast?_singleton, Option.some.injEq] at hl
    rw [← hl, hh]
    refine ⟨hfa, ?_⟩
    simp
  | x :: y :: rest, a, t, hc, hh, hl, hfa => by
    obtain ⟨hxy, hrest⟩ := hc
    simp only [List.head?_cons, Option.some.injEq] at hh
    rw [List.getLast?_cons_cons] at hl
    have hxN : x ∈ g.Nodes := edgeEx_mem_nodes hxy
    obtain ⟨w, hw⟩ := Option.isSome_iff_exists.mp hxy
    have hmem : (y, w) ∈ adjOf g x := lookW_mem_adjOf hw
    have hfx : (alookup st.visited x).isSome = true := by rw [hh]; exact hfa
    obtain ⟨hvy, hby⟩ := hprop x hxN hfx (y, w) hmem
    obtain ⟨hvt, hbt⟩ := chain_bound hprop (y :: rest) y t hrest rfl hl hvy
    refine ⟨hvt, ?_⟩
    rw [← hh]
    have hlen1 : ((y :: rest).length - 1 : ℕ) = rest.length := by simp
    have hlen2 : ((x :: y :: rest).length - 1 : ℕ) = rest.length + 1 := by simp
    rw [hlen1] at hbt
    rw [hlen2]
    calc dval st.dist t
        ≤ dval st.dist y + (((rest.length : ℕ) : ℚ) : WithTop ℚ) := hbt
      _ ≤ (dval st.dist x + 1) + (((rest.length : ℕ) : ℚ) : WithTop ℚ) :=
          add_le_add_right hby _
      _ = dval st.dist x + (((rest.length + 1 : ℕ) : ℚ) : WithTop ℚ) := by
          rw [add_assoc]
          congr 1
          push_cast
          rw [add_comm]

theorem bfsVisit_nil (current : Node K) (st : BfsSt K) :
    bfsVisit current [] st = st := rfl

theorem bfsVisit_cons (current nb : Node K) (w : ℚ) (rest : AdjMap K) (st : BfsSt K) :
    bfsVisit current ((nb, w) :: rest) st =
      if (alookup st.visited nb).isSome then bfsVisit current rest st
      else bfsVisit current rest
        ⟨st.queue ++ [nb], ainsert st.visited nb true,
          ainsert st.dist nb (dval st.dist current + 1),
          ainsert st.prev nb current⟩ := rfl

/-- Full characterization of the inner neighbor loop of `BFS`: it appends
the freshly discovered neighbors `delta` to the queue, marks exactly them
visited with distance `distance(current)+1` and predecessor `current`,
leaves every other entry of the three maps unchanged, ends with every
neighbor visited, and consumes `delta.length` from the unvisited count. -/
theorem bfsVisit_spec {g : graphData K} (hnodup : g.Nodes.Nodup) (current : Node K) :
    ∀ (entries : AdjMap K) (st : BfsSt K),
      (alookup st.visited current).isSome →
      (∀ q ∈ entries, q.1 ∈ g.Nodes) →
      ∃ delta : List (Node K),
        (bfsVisit current entries st).queue = st.queue ++ delta ∧
        delta.Nodup ∧
        (∀ w ∈ delta, (alookup st.visited w).isSome = false ∧
          ∃ ww : ℚ, (w, ww) ∈ entries) ∧
        (∀ v, v ∉ delta →
          alookup (bfsVisit current entries st).visited v = alookup st.visited v ∧
          alookup (bfsVisit current entries st).dist v = alookup st.dist v ∧
          alookup (bfsVisit current entries st).prev v = alookup st.prev v) ∧
        (∀ w ∈ delta,
          alookup (bfsVisit current entries st).visited w = some true ∧
          alookup (bfsVisit current entries st).dist w =
            some (dval st.dist current + 1) ∧
          alookup (bfsVisit current entries st).prev w = some current) ∧
        (∀ q ∈ entries, (alookup (bfsVisit current entries st).visited q.1).isSome) ∧
        unvisitedCount g (bfsVisit current entries st).visited + delta.length =
          unvisitedCount g st.visited
  | [], st, _, _ => by
    refine ⟨[], by simp [bfsVisit_nil], List.nodup_nil, by simp, ?_, by simp, by simp,
      by simp [bfsVisit_nil]⟩
    intro v _
    rw [bfsVisit_nil]
    exact ⟨rfl, rfl, rfl⟩
  | (nb, w) :: rest, st, hcur, hents => by
    rw [bfsVisit_cons]
    by_cases hvis : (alookup st.visited nb).isSome
    · rw [if_pos hvis]
      obtain ⟨delta, h1, h2, h3, h4, h5, h6, h7⟩ :=
        bfsVisit_spec hnodup current rest st hcur
          (fun q hq => hents q (List.mem_cons_of_mem _ hq))
      have hnbd : nb ∉ delta := by
        intro hmem
        rw [(h3 nb hmem).1] at hvis
        cases hvis
      refine ⟨delta, h1, h2, ?_, h4, h5, ?_, h7⟩
      · intro v hv
        obtain ⟨hu, ww, hww⟩ := h3 v hv
        exact ⟨hu, ww, List.mem_cons_of_mem _ hww⟩
      · intro q hq
        rcases List.mem_cons.mp hq with heq | hq'
        · have : q.1 = nb := by rw [heq]
          rw [this, (h4 nb hnbd).1]
          exact hvis
        · exact h6 q hq'
    · rw [if_neg hvis]
      have hvisf : (alookup st.visited nb).isSome = false :=
        Bool.not_eq_true _ ▸ Bool.of_not_eq_true hvis
      have hcnb : current ≠ nb := by
        intro hc
        rw [← hc] at hvis
        exact hvis hcur
      have hcur2 : (alookup (ainsert st.visited nb true) current).isSome := by
        rw [alookup_ainsert_ne _ hcnb]
        exact hcur
      obtain ⟨delta, h1, h2, h3, h4, h5, h6, h7⟩ :=
        bfsVisit_spec hnodup current rest
          ⟨st.queue ++ [nb], ainsert st.visited nb true,
            ainsert st.dist nb (dval st.dist current + 1),
            ainsert st.prev nb current⟩ hcur2
          (fun q hq => hents q (List.mem_cons_of_mem _ hq))
      have hnbd : nb ∉ delta := by
        intro hmem
        have := (h3 nb hmem).1
        rw [show alookup (⟨st.queue ++ [nb], ainsert st.visited nb true,
          ainsert st.dist nb (dval st.dist current + 1),
          ainsert st.prev nb current⟩ : BfsSt K).visited nb = some true from
          alookup_ainsert_self _ _ _] at this
        cases this
      refine ⟨nb :: delta, ?_, ?_, ?_, ?_, ?_, ?_, ?_⟩
      · rw [h1]
        show (st.queue ++ [nb]) ++ delta = st.queue ++ nb :: delta
        rw [List.append_assoc]
        rfl
      · rw [List.nodup_cons]
        exact ⟨hnbd, h2⟩
      · intro v hv
        rcases List.mem_cons.mp hv with rfl | hv'
        · exact ⟨hvisf, w, List.mem_cons_self _ _⟩
        · obtain ⟨hu, ww, hww⟩ := h3 v hv'
          have hvnb : v ≠ nb := by
            intro hc
            rw [hc] at hu
            rw [show alookup (⟨st.queue ++ [nb], ainsert st.visited nb true,
              ainsert st.dist nb (dval st.dist current + 1),
              ainsert st.prev nb current⟩ : BfsSt K).visited nb = some true from
              alookup_ainsert_self _ _ _] at hu
            cases hu
          refine ⟨?_, ww, List.mem_cons_of_mem _ hww⟩
          rw [show alookup (⟨st.queue ++ [nb], ainsert st.visited nb true,
            ainsert st.dist nb (dval st.dist current + 1),
            ainsert st.prev nb current⟩ : BfsSt K).visited v =
            alookup (ainsert st.visited nb true) v from rfl,
            alookup_ainsert_ne _ hvnb] at hu
          exact hu
      · intro v hv
        have hvnb : v ≠ nb := fun hc => hv (hc ▸ List.mem_cons_self _ _)
        have hvd : v ∉ delta := fun hc => hv (List.mem_cons_of_mem _ hc)
        obtain ⟨hh1, hh2, hh3⟩ := h4 v hvd
        refine ⟨?_, ?_, ?_⟩
        · rw [hh1]
          exact alookup_ainsert_ne _ hvnb
        · rw [hh2]
          exact alookup_ainsert_ne _ hvnb
        · rw [hh3]
          exact alookup_ainsert_ne _ hvnb
      · intro v hv
        rcases List.mem_cons.mp hv with rfl | hv'
        · obtain ⟨hh1, hh2, hh3⟩ := h4 v hnbd
          refine ⟨?_, ?_, ?_⟩
          · rw [hh1]
            exact alookup_ainsert_self _ _ _
          · rw [hh2]
            exact alookup_ainsert_self _ _ _
          · rw [hh3]
            exact alookup_ainsert_self _ _ _
        · obtain ⟨hh1, hh2, hh3⟩ := h5 v hv'
          refine ⟨hh1, ?_, hh3⟩
          rw [hh2]
          show some (dval (ainsert st.dist nb (dval st.dist current + 1)) current + 1) = _
          rw [dval_ainsert_ne _ _ hcnb]
      · intro q hq
        rcases List.mem_cons.mp hq with heq | hq'
        · have hqnb : q.1 = nb := by rw [heq]
          rw [hqnb, (h4 nb hnbd).1]
          rw [show alookup (⟨st.queue ++ [nb], ainsert st.visited nb true,
            ainsert st.dist nb (dval st.dist current + 1),
            ainsert st.prev nb current⟩ : BfsSt K).visited nb = some true from
            alookup_ainsert_self _ _ _]
          rfl
        · exact h6 q hq'
      · have hnbN : nb ∈ g.Nodes := hents (nb, w) (List.mem_cons_self _ _)
        have hcnt := unvisitedCount_insert hnodup hnbN hvisf true
        show unvisitedCount g (bfsVisit current rest _).visited + (delta.length + 1) =
          unvisitedCount g st.visited
        have h7' : unvisitedCount g (bfsVisit current rest
            ⟨st.queue ++ [nb], ainsert st.visited nb true,
              ainsert st.dist nb (dval st.dist current + 1),
              ainsert st.prev nb current⟩).visited + delta.length =
            unvisitedCount g (ainsert st.visited nb true) := h7
        omega

theorem alookup_single_isSome {α : Type} (n : Node K) (a : α) (v : Node K) :
    (alookup [(n, a)] v).isSome ↔ v = n := by
  unfold alookup
  by_cases hv : n = v
  · rw [if_pos hv]
    simpa using hv.symm
  · rw [if_neg hv]
    simp only [alookup, Option.isSome_none, Bool.false_eq_true, false_iff]
    exact fun hc => hv hc.symm

theorem bfs_init (g : graphData K) (start : Node K) :
    BfsInv g start ⟨[start], [(start, true)], [(start, (0 : WithTop ℚ))],
      [(start, start)]⟩ := by
  have h01 : (0 : WithTop ℚ) ≤ 1 := by exact_mod_cast (zero_le_one : (0 : ℚ) ≤ 1)
  refine ⟨?_, ?_, ?_, ?_, ?_, ?_, ?_, ?_, ?_, ?_, ?_, ?_, ?_, ?_⟩
  · intro v
    rw [alookup_single_isSome, alookup_single_isSome]
  · intro v
    rw [alookup_single_isSome, alookup_single_isSome]
  · exact (alookup_single_isSome start true start).mpr rfl
  · show alookup [(start, (0 : WithTop ℚ))] start = _
    unfold alookup
    rw [if_pos rfl]
    rfl
  · show alookup [(start, start)] start = _
    unfold alookup
    rw [if_pos rfl]
  · intro x hx
    rw [List.mem_singleton] at hx
    rw [hx]
    exact (alookup_single_isSome start true start).mpr rfl
  · exact List.nodup_singleton start
  · simp
  · intro v hv x hx
    have hvs : v = start := (alookup_single_isSome start true v).mp hv
    rw [List.mem_singleton] at hx
    subst hx
    subst hvs
    exact le_add_of_nonneg_right h01
  · intro u hu hq
    have hus : u = start := (alookup_single_isSome start true u).mp hu
    exact absurd (hus ▸ List.mem_singleton.mpr rfl) hq
  · intro v hv
    have hvs : v = start := (alookup_single_isSome start true v).mp hv
    subst hvs
    refine ⟨0, ?_⟩
    show alookup [(v, (0 : WithTop ℚ))] v = _
    unfold alookup
    rw [if_pos rfl]
    norm_num
  · intro v hv
    have hvs : v = start := (alookup_single_isSome start true v).mp hv
    subst hvs
    exact Reachable_refl g v
  · intro v u hpv hvs
    exfalso
    have : (alookup [(start, start)] v).isSome := by rw [hpv]; rfl
    exact hvs ((alookup_single_isSome start start v).mp this)
  · intro v hv
    exact Or.inl ((alookup_single_isSome start true v).mp hv)

theorem bfs_step {g : graphData K} (hwf : wf g) {start current : Node K}
    {rest : List (Node K)} {V : List (Node K × Bool)} {Dm : Distances K} {Pm : Paths K}
    (hinv : BfsInv g start ⟨current :: rest, V, Dm, Pm⟩) :
    BfsInv g start (bfsVisit current (adjOf g current) ⟨rest, V, Dm, Pm⟩) ∧
      bfsMeasure g (bfsVisit current (adjOf g current) ⟨rest, V, Dm, Pm⟩) + 1 =
        bfsMeasure g ⟨current :: rest, V, Dm, Pm⟩ := by
  have h01 : (0 : WithTop ℚ) ≤ 1 := by exact_mod_cast (zero_le_one : (0 : ℚ) ≤ 1)
  have hcq : current ∈ (⟨current :: rest, V, Dm, Pm⟩ : BfsSt K).queue :=
    List.mem_cons_self _ _
  have hcur : (alookup V current).isSome := hinv.qsub current (List.mem_cons_self _ _)
  have hents : ∀ q ∈ adjOf g current, q.1 ∈ g.Nodes :=
    fun q hq => mem_nodes_of_mem_adjOf hwf hq
  obtain ⟨delta, h1, h2, h3, h4, h5, h6, h7⟩ :=
    bfsVisit_spec hwf.1 current (adjOf g current) ⟨rest, V, Dm, Pm⟩ hcur hents
  set F := bfsVisit current (adjOf g current) (⟨rest, V, Dm, Pm⟩ : BfsSt K) with hFdef
  have hkeepV : ∀ v, (alookup V v).isSome →
      alookup F.visited v = alookup V v ∧ alookup F.dist v = alookup Dm v ∧
        alookup F.prev v = alookup Pm v := by
    intro v hv
    refine h4 v ?_
    intro hmem
    rw [(h3 v hmem).1] at hv
    cases hv
  have hvisF : ∀ v, (alookup F.visited v).isSome ↔
      ((alookup V v).isSome ∨ v ∈ delta) := by
    intro v
    constructor
    · intro hv
      by_cases hmem : v ∈ delta
      · exact Or.inr hmem
      · rw [(h4 v hmem).1] at hv
        exact Or.inl hv
    · intro hv
      rcases hv with hv | hv
      · rw [(hkeepV v hv).1]
        exact hv
      · rw [(h5 v hv).1]
        rfl
  have hdelta_dist : ∀ w ∈ delta, dval F.dist w = dval Dm current + 1 :=
    fun w hw => dval_eq_of_alookup (h5 w hw).2.1
  have hold_dval : ∀ v, (alookup V v).isSome → dval F.dist v = dval Dm v := by
    intro v hv
    unfold dval
    rw [(hkeepV v hv).2.1]
  have hdelta_unv : ∀ w ∈ delta, (alookup V w).isSome = false := fun w hw => (h3 w hw).1
  have hdelta_edge : ∀ w ∈ delta, ∃ ww : ℚ, (w, ww) ∈ adjOf g current :=
    fun w hw => (h3 w hw).2
  have hrest_vis : ∀ x ∈ rest, (alookup V x).isSome :=
    fun x hx => hinv.qsub x (List.mem_cons_of_mem _ hx)
  have hrest_not_delta : ∀ x ∈ rest, x ∉ delta := by
    intro x hx hmem
    have hxv := hrest_vis x hx
    rw [hdelta_unv x hmem] at hxv
    cases hxv
  refine ⟨⟨?_, ?_, ?_, ?_, ?_, ?_, ?_, ?_, ?_, ?_, ?_, ?_, ?_, ?_⟩, ?_⟩
  · intro v
    by_cases hm : v ∈ delta
    · rw [(h5 v hm).1, (h5 v hm).2.2]
      simp
    · rw [(h4 v hm).1, (h4 v hm).2.2]
      exact hinv.vprev v
  · intro v
    by_cases hm : v ∈ delta
    · rw [(h5 v hm).1, (h5 v hm).2.1]
      simp
    · rw [(h4 v hm).1, (h4 v hm).2.1]
      exact hinv.vdist v
  · rw [(hkeepV start hinv.vstart).1]
    exact hinv.vstart
  · show alookup F.dist start = _
    rw [(hkeepV start hinv.vstart).2.1]
    exact hinv.dstart
  · show alookup F.prev start = _
    rw [(hkeepV start hinv.vstart).2.2]
    exact hinv.pstart
  · intro x hx
    rw [h1] at hx
    rcases List.mem_append.mp hx with hxr | hxd
    · rw [(hkeepV x (hrest_vis x hxr)).1]
      exact hrest_vis x hxr
    · rw [(h5 x hxd).1]
      rfl
  · show F.queue.Nodup
    rw [h1]
    rw [List.nodup_append]
    exact ⟨(List.nodup_cons.mp hinv.qnodup).2, h2,
      fun a ha hb => hrest_not_delta a ha hb⟩
  · show List.Pairwise (fun a b => dval F.dist a ≤ dval F.dist b) F.queue
    rw [h1, List.pairwise_append]
    refine ⟨?_, ?_, ?_⟩
    · refine List.Pairwise.imp_of_mem ?_ (List.pairwise_cons.mp hinv.qsorted).2
      intro a b ha hb hab
      rw [hold_dval a (hrest_vis a ha), hold_dval b (hrest_vis b hb)]
      exact hab
    · refine List.pairwise_of_forall_mem_list ?_
      intro a ha b hb
      rw [hdelta_dist a ha, hdelta_dist b hb]
    · intro a ha b hb
      rw [hold_dval a (hrest_vis a ha), hdelta_dist b hb]
      have hbound := hinv.vbound a (hrest_vis a ha) current hcq
      exact hbound
  · intro v hv x hx
    rw [h1] at hx
    rcases (hvisF v).mp hv with hov | hmv
    · rw [hold_dval v hov]
      rcases List.mem_append.mp hx with hxr | hxd
      · rw [hold_dval x (hrest_vis x hxr)]
        exact hinv.vbound v hov x (List.mem_cons_of_mem _ hxr)
      · rw [hdelta_dist x hxd]
        exact le_trans (hinv.vbound v hov current hcq)
          (add_le_add_right (le_add_of_nonneg_right h01) 1)
    · rw [hdelta_dist v hmv]
      rcases List.mem_append.mp hx with hxr | hxd
      · rw [hold_dval x (hrest_vis x hxr)]
        exact add_le_add_right ((List.pairwise_cons.mp hinv.qsorted).1 x hxr) 1
      · rw [hdelta_dist x hxd]
        exact le_add_of_nonneg_right h01
  · intro u hu hnotq q hq
    rw [h1] at hnotq
    have hunr : u ∉ rest := fun hc => hnotq (List.mem_append.mpr (Or.inl hc))
    have hund : u ∉ delta := fun hc => hnotq (List.mem_append.mpr (Or.inr hc))
    have hou : (alookup V u).isSome := by
      rcases (hvisF u).mp hu with h | h
      · exact h
      · exact absurd h hund
    by_cases huc : u = current
    · rw [huc] at hq
      refine ⟨h6 q hq, ?_⟩
      by_cases hqd : q.1 ∈ delta
      · rw [hdelta_dist q.1 hqd, huc, hold_dval current hcur]
      · have hqv : (alookup V q.1).isSome := by
          have := h6 q hq
          rw [(h4 q.1 hqd).1] at this
          exact this
        rw [hold_dval q.1 hqv, huc, hold_dval current hcur]
        exact hinv.vbound q.1 hqv current hcq
    · have hunold : u ∉ (⟨current :: rest, V, Dm, Pm⟩ : BfsSt K).queue := by
        intro hc
        rcases List.mem_cons.mp hc with h | h
        · exact huc h
        · exact hunr h
      obtain ⟨hq1, hq2⟩ := hinv.processed u hou hunold q hq
      refine ⟨?_, ?_⟩
      · rw [(hkeepV q.1 hq1).1]
        exact hq1
      · rw [hold_dval q.1 hq1, hold_dval u hou]
        exact hq2
  · intro v hv
    rcases (hvisF v).mp hv with hov | hmv
    · obtain ⟨n, hn⟩ := hinv.vnat v hov
      exact ⟨n, by rw [(hkeepV v hov).2.1]; exact hn⟩
    · obtain ⟨n, hn⟩ := hinv.vnat current hcur
      refine ⟨n + 1, ?_⟩
      rw [(h5 v hmv).2.1]
      congr 1
      rw [show dval (⟨rest, V, Dm, Pm⟩ : BfsSt K).dist current = dval Dm current from rfl,
        dval_eq_of_alookup hn]
      norm_cast
  · intro v hv
    rcases (hvisF v).mp hv with hov | hmv
    · exact hinv.vreach v hov
    · obtain ⟨ww, hww⟩ := hdelta_edge v hmv
      exact Reachable_step (hinv.vreach current hcur) (edgeEx_of_mem_adjOf hwf hww)
  · intro v u hpv hvs
    by_cases hmv : v ∈ delta
    · rw [(h5 v hmv).2.2] at hpv
      have huc : u = current := (Option.some.inj hpv).symm
      obtain ⟨ww, hww⟩ := hdelta_edge v hmv
      refine ⟨?_, ?_, ?_⟩
      · rw [huc, (hkeepV current hcur).1]
        exact hcur
      · rw [huc]
        exact edgeEx_of_mem_adjOf hwf hww
      · rw [huc, hdelta_dist v hmv, hold_dval current hcur]
    · rw [(h4 v hmv).2.2] at hpv
      obtain ⟨hvu, hedge, hdeq⟩ := hinv.prevstep v u hpv hvs
      have hov : (alookup V v).isSome := by
        have hps : (alookup Pm v).isSome := by rw [hpv]; rfl
        exact (hinv.vprev v).mpr hps
      refine ⟨?_, hedge, ?_⟩
      · rw [(hkeepV u hvu).1]
        exact hvu
      · rw [hold_dval v hov, hold_dval u hvu]
        exact hdeq
  · intro v hv
    rcases (hvisF v).mp hv with hov | hmv
    · exact hinv.vnodes v hov
    · obtain ⟨ww, hww⟩ := hdelta_edge v hmv
      exact Or.inr (mem_nodes_of_mem_adjOf hwf hww)
  · show F.queue.length + unvisitedCount g F.visited + 1 =
      (current :: rest).length + unvisitedCount g V
    rw [h1]
    rw [show (⟨rest, V, Dm, Pm⟩ : BfsSt K).queue = rest from rfl]
    rw [List.length_append, List.length_cons]
    have h7' : unvisitedCount g F.visited + delta.length = unvisitedCount g V := h7
    omega

theorem bfs_master {g : graphData K} (hwf : wf g) (start : Node K) :
    ∀ (fuel : Nat) (st : BfsSt K), BfsInv g start st → bfsMeasure g st ≤ fuel →
      BfsInv g start (bfsLoop g fuel st) ∧ (bfsLoop g fuel st).queue = []
  | 0, st, hinv, hm => by
    have hz : st.queue.length = 0 := by
      unfold bfsMeasure at hm
      omega
    exact ⟨hinv, List.length_eq_zero.mp hz⟩
  | fuel + 1, st, hinv, hm => by
    obtain ⟨q, V, Dm, Pm⟩ := st
    cases q with
    | nil => exact ⟨hinv, rfl⟩
    | cons current rest =>
      obtain ⟨hinv2, hmeq⟩ := bfs_step hwf hinv
      have hm2 : bfsMeasure g (bfsVisit current (adjOf g current)
          ⟨rest, V, Dm, Pm⟩) ≤ fuel := by
        have hm' : bfsMeasure g (⟨current :: rest, V, Dm, Pm⟩ : BfsSt K) ≤ fuel + 1 := hm
        omega
      exact bfs_master hwf start fuel
        (bfsVisit current (adjOf g current) ⟨rest, V, Dm, Pm⟩) hinv2 hm2

theorem bfs_final (g : graphData K) (hwf : wf g) (start : Node K) :
    BfsInv g start (bfsFinal g start) ∧ (bfsFinal g start).queue = [] := by
  have hinit := bfs_init g start
  have hm : bfsMeasure g ⟨[start], [(start, true)], [(start, (0 : WithTop ℚ))],
      [(start, start)]⟩ ≤ 1 + g.NumberOfNodes := by
    show 1 + unvisitedCount g [(start, true)] ≤ 1 + g.NumberOfNodes
    have hle : unvisitedCount g [(start, true)] ≤ g.Nodes.length :=
      List.length_filter_le _ _
    unfold graphData.NumberOfNodes
    omega
  exact bfs_master hwf start (1 + g.NumberOfNodes) _ hinit hm

theorem bfs_visited_iff_reach (g : graphData K) (hwf : wf g) (start v : Node K) :
    (alookup (bfsFinal g start).visited v).isSome ↔ Reachable g start v := by
  obtain ⟨hinv, hq⟩ := bfs_final g hwf start
  constructor
  · exact hinv.vreach v
  · rintro ⟨p, hne, hh, hl, hc⟩
    have hprop : ∀ u ∈ g.Nodes, (alookup (bfsFinal g start).visited u).isSome = true →
        ∀ q ∈ adjOf g u, (alookup (bfsFinal g start).visited q.1).isSome = true := by
      intro u _ hu q hq2
      have hnq : u ∉ (bfsFinal g start).queue := by rw [hq]; simp
      exact (hinv.processed u hu hnq q hq2).1
    exact chain_closed hprop p start v hc hh hl hinv.vstart

/-- The natural-number BFS level of a node (its stored hop distance). -/
theorem bfs_rk_eq {dist : Distances K} {v : Node K} {n : ℕ}
    (h : alookup dist v = some (((n : ℚ)) : WithTop ℚ)) :
    (((dval dist v).untop' 0).num).toNat = n := by
  rw [dval_eq_of_alookup h, WithTop.untop'_coe, Rat.num_natCast]
  exact Int.toNat_natCast n

/-- The exact-rank variant of `walkBack_build`: when the rank drops by
exactly one along every predecessor link and is zero at `start`, the
reconstructed tail has exactly the rank of the query node as its length. -/
theorem walkBack_exact {g : graphData K} [Inhabited K] {P : Paths K} {start : Node K}
    (rk : Node K → Nat) (hrk0 : rk start = 0)
    (hstep : ∀ v, v ≠ start → ∀ u, alookup P v = some u →
      edgeEx g u v ∧ (alookup P u).isSome ∧ rk v = rk u + 1) :
    ∀ (n : Nat) (v : Node K), rk v = n → v ≠ start → (alookup P v).isSome →
      ∃ tail : List (Node K), tail.length = n ∧ tail.getLast? = some start ∧
        tail.Nodup ∧ tail ⊆ akeys P ∧ (∀ x ∈ tail, x = start ∨ rk x < rk v) ∧
        IsChain g (tail.reverse ++ [v]) ∧
        ∀ (fuel : Nat) (acc : List (Node K)), tail.length ≤ fuel →
          walkBack P start fuel v acc = acc ++ tail
  | 0, v, hn, hv, hsome => by
    exfalso
    obtain ⟨u, hu⟩ := Option.isSome_iff_exists.mp hsome
    obtain ⟨_, _, hrkeq⟩ := hstep v hv u hu
    rw [hn] at hrkeq
    cases hrkeq
  | n + 1, v, hn, hv, hsome => by
    obtain ⟨u, hu⟩ := Option.isSome_iff_exists.mp hsome
    obtain ⟨hedge, husome, hrkeq⟩ := hstep v hv u hu
    have hrku : rk u = n := by omega
    by_cases hus : u = start
    · have hn0 : n = 0 := by
        rw [hus, hrk0] at hrku
        omega
      refine ⟨[start], by rw [hn0]; rfl, rfl, List.nodup_singleton _, ?_, ?_, ?_, ?_⟩
      · intro x hx
        rw [List.mem_singleton] at hx
        rw [hx, ← hus]
        exact alookup_isSome_iff.mp husome
      · intro x hx
        exact Or.inl (List.mem_singleton.mp hx)
      · exact ⟨hus ▸ hedge, trivial⟩
      · intro fuel acc hlen
        cases fuel with
        | zero => simp at hlen
        | succ f =>
          rw [walkBack_cons P start f v acc hv]
          simp only [hu, Option.getD_some]
          rw [hus]
          exact walkBack_from_start P start f (acc ++ [start])
    · obtain ⟨tail', hlen', hlast', hnd', hsub', hrk', hchain', heval'⟩ :=
        walkBack_exact rk hrk0 hstep n u hrku hus husome
      refine ⟨u :: tail', by rw [List.length_cons, hlen'], ?_, ?_, ?_, ?_, ?_, ?_⟩
      · rw [getLast_cons_ne_nil u tail' (by
          intro hc
          rw [hc] at hlast'
          cases hlast')]
        exact hlast'
      · rw [List.nodup_cons]
        refine ⟨?_, hnd'⟩
        intro hmem
        rcases hrk' u hmem with h | h
        · exact hus h
        · exact lt_irrefl _ h
      · intro x hx
        rcases List.mem_cons.mp hx with rfl | hx'
        · exact alookup_isSome_iff.mp husome
        · exact hsub' hx'
      · intro x hx
        rcases List.mem_cons.mp hx with rfl | hx'
        · exact Or.inr (by omega)
        · rcases hrk' x hx' with h | h
          · exact Or.inl h
          · exact Or.inr (by omega)
      · show IsChain g ((u :: tail').reverse ++ [v])
        rw [List.reverse_cons]
        exact IsChain_append_edge hchain' (List.getLast?_concat _) hedge
      · intro fuel acc hlen
        cases fuel with
        | zero => simp at hlen
        | succ f =>
          rw [walkBack_cons P start f v acc hv]
          simp only [hu, Option.getD_some]
          rw [heval' f (acc ++ [u])
            (by simp only [List.length_cons] at hlen; omega)]
          rw [List.append_assoc]
          rfl

/-- C5: for `start ≠ target`, both path finders report unreachability as
the returned sentinel value `([], 0, ∞)` — never an error — and they do so
exactly when no path from `start` to `target` exists. -/
theorem C5_unreachable_sentinel [Inhabited K] (g : graphData K) (hwf : wf g)
    (start target : Node K) (hne : start ≠ target) :
    (g.BFSTo start target = ([], 0, (⊤ : WithTop ℚ)) ↔ ¬ Reachable g start target) ∧
    (g.DijkstraTo start target = ([], 0, (⊤ : WithTop ℚ)) ↔
      ¬ Reachable g start target) := by
  refine ⟨?_, dij_sentinel_iff g hwf start target⟩
  obtain ⟨hinv, hq⟩ := bfs_final g hwf start
  have hbto : g.BFSTo start target =
      (match alookup (bfsFinal g start).prev target with
      | none => ([], 0, (⊤ : WithTop ℚ))
      | some _ =>
        ((walkBack (bfsFinal g start).prev start (1 + (bfsFinal g start).prev.length)
            target [target]).reverse,
          (walkBack (bfsFinal g start).prev start (1 + (bfsFinal g start).prev.length)
            target [target]).reverse.length,
          dval (bfsFinal g start).dist target)) := by
    show (if start = target then ([start], 1, (0 : WithTop ℚ))
      else
        match alookup (bfsFinal g start).prev target with
        | none => ([], 0, (⊤ : WithTop ℚ))
        | some _ =>
          ((walkBack (bfsFinal g start).prev start (1 + (bfsFinal g start).prev.length)
              target [target]).reverse,
            (walkBack (bfsFinal g start).prev start (1 + (bfsFinal g start).prev.length)
              target [target]).reverse.length,
            dval (bfsFinal g start).dist target)) = _
    rw [if_neg hne]
  rw [hbto]
  cases hpt : alookup (bfsFinal g start).prev target with
  | none =>
    refine iff_of_true rfl ?_
    intro hr
    have hsome := (hinv.vprev target).mp
      ((bfs_visited_iff_reach g hwf start target).mpr hr)
    rw [hpt] at hsome
    cases hsome
  | some u =>
    refine iff_of_false ?_ ?_
    · intro heq
      have h3 : dval (bfsFinal g start).dist target = ⊤ :=
        congrArg (fun t : List (Node K) × Nat × WithTop ℚ => t.2.2) heq
      have hvt : (alookup (bfsFinal g start).visited target).isSome :=
        (hinv.vprev target).mpr (by rw [hpt]; rfl)
      obtain ⟨n, hn⟩ := hinv.vnat target hvt
      rw [dval_eq_of_alookup hn] at h3
      exact WithTop.coe_ne_top h3
    · intro hnr
      exact hnr ((bfs_visited_iff_reach g hwf start target).mp
        ((hinv.vprev target).mpr (by rw [hpt]; rfl)))

/-- C5 witness: the line graph with an extra isolated node. -/
theorem C5_witness :
    wf exLineZ.gd ∧ exNode 1 ≠ exNode 6 ∧
      ((exLineZ.gd.BFSTo (exNode 1) (exNode 6) = ([], 0, (⊤ : WithTop ℚ)) ↔
          ¬ Reachable exLineZ.gd (exNode 1) (exNode 6)) ∧
        (exLineZ.gd.DijkstraTo (exNode 1) (exNode 6) = ([], 0, (⊤ : WithTop ℚ)) ↔
          ¬ Reachable exLineZ.gd (exNode 1) (exNode 6))) :=
  ⟨by decide, by decide,
    C5_unreachable_sentinel exLineZ.gd (by decide) (exNode 1) (exNode 6) (by decide)⟩

/-- C2: for a reachable `target ≠ start`, `BFSTo` returns a path from
`start` to `target` along stored adjacency entries whose node count is
minimal over all such paths, reports that node count as the length, and
reports the hop distance equal to the node count minus one. -/
theorem C2_bfs_shortest [Inhabited K] (g : graphData K) (hwf : wf g)
    (start target : Node K) (hne : target ≠ start) (hr : Reachable g start target) :
    IsPath g start target (g.BFSTo start target).1 ∧
    (∀ p, IsPath g start target p → (g.BFSTo start target).1.length ≤ p.length) ∧
    (g.BFSTo start target).2.1 = (g.BFSTo start target).1.length ∧
    (g.BFSTo start target).2.2 =
      ((((g.BFSTo start target).1.length - 1 : ℕ) : ℚ) : WithTop ℚ) := by
  obtain ⟨hinv, hq⟩ := bfs_final g hwf start
  have hvt : (alookup (bfsFinal g start).visited target).isSome :=
    (bfs_visited_iff_reach g hwf start target).mpr hr
  have hpt : (alookup (bfsFinal g start).prev target).isSome := (hinv.vprev target).mp hvt
  obtain ⟨nt, hnt⟩ := hinv.vnat target hvt
  have hd0 : alookup (bfsFinal g start).dist start =
      some ((((0 : ℕ) : ℚ)) : WithTop ℚ) := by
    rw [hinv.dstart]
    norm_num
  have hrk0 : (fun v => (((dval (bfsFinal g start).dist v).untop' 0).num).toNat) start
      = 0 := bfs_rk_eq hd0
  have hstep : ∀ v, v ≠ start → ∀ u, alookup (bfsFinal g start).prev v = some u →
      edgeEx g u v ∧ (alookup (bfsFinal g start).prev u).isSome ∧
        (fun v => (((dval (bfsFinal g start).dist v).untop' 0).num).toNat) v =
          (fun v => (((dval (bfsFinal g start).dist v).untop' 0).num).toNat) u + 1 := by
    intro v hvs u hu
    obtain ⟨hvu, hedge, hdeq⟩ := hinv.prevstep v u hu hvs
    have hvv : (alookup (bfsFinal g start).visited v).isSome :=
      (hinv.vprev v).mpr (by rw [hu]; rfl)
    obtain ⟨nv, hnv⟩ := hinv.vnat v hvv
    obtain ⟨nu, hnu⟩ := hinv.vnat u hvu
    refine ⟨hedge, (hinv.vprev u).mp hvu, ?_⟩
    show (((dval (bfsFinal g start).dist v).untop' 0).num).toNat =
      (((dval (bfsFinal g start).dist u).untop' 0).num).toNat + 1
    rw [bfs_rk_eq hnv, bfs_rk_eq hnu]
    rw [dval_eq_of_alookup hnv, dval_eq_of_alookup hnu] at hdeq
    have hq2 : (nv : ℚ) = (nu : ℚ) + 1 := by exact_mod_cast hdeq
    exact_mod_cast hq2
  obtain ⟨tail, htlen, htlast, htnd, htsub, _, htchain, hteval⟩ :=
    walkBack_exact (fun v => (((dval (bfsFinal g start).dist v).untop' 0).num).toNat)
      hrk0 hstep
      ((fun v => (((dval (bfsFinal g start).dist v).untop' 0).num).toNat) target)
      target rfl hne hpt
  have hrkt : (fun v => (((dval (bfsFinal g start).dist v).untop' 0).num).toNat) target
      = nt := bfs_rk_eq hnt
  have hlen : tail.length ≤ 1 + (bfsFinal g start).prev.length := by
    have h1 : tail.length ≤ (akeys (bfsFinal g start).prev).length :=
      (List.subperm_of_subset htnd htsub).length_le
    have h2 : (akeys (bfsFinal g start).prev).length = (bfsFinal g start).prev.length := by
      unfold akeys
      rw [List.length_map]
    omega
  have hwalk := hteval (1 + (bfsFinal g start).prev.length) [target] hlen
  obtain ⟨u0, hu0⟩ := Option.isSome_iff_exists.mp hpt
  have hbto : g.BFSTo start target =
      (([target] ++ tail).reverse, ([target] ++ tail).reverse.length,
        dval (bfsFinal g start).dist target) := by
    show (if start = target then ([start], 1, (0 : WithTop ℚ))
      else
        match alookup (bfsFinal g start).prev target with
        | none => ([], 0, (⊤ : WithTop ℚ))
        | some _ =>
          ((walkBack (bfsFinal g start).prev start (1 + (bfsFinal g start).prev.length)
              target [target]).reverse,
            (walkBack (bfsFinal g start).prev start (1 + (bfsFinal g start).prev.length)
              target [target]).reverse.length,
            dval (bfsFinal g start).dist target)) = _
    rw [if_neg (fun h => hne h.symm), hu0]
    show ((walkBack (bfsFinal g start).prev start (1 + (bfsFinal g start).prev.length)
        target [target]).reverse,
      (walkBack (bfsFinal g start).prev start (1 + (bfsFinal g start).prev.length)
        target [target]).reverse.length,
      dval (bfsFinal g start).dist target) = _
    rw [hwalk]
  rw [hbto]
  have hrev : ([target] ++ tail).reverse = tail.reverse ++ [target] := by
    rw [List.reverse_append, List.reverse_singleton]
  have hpath : IsPath g start target ([target] ++ tail).reverse := by
    rw [hrev]
    refine ⟨by simp, ?_, List.getLast?_concat _, htchain⟩
    rw [List.head?_append, List.head?_reverse, htlast]
    rfl
  have hlen_path : ([target] ++ tail).reverse.length = nt + 1 := by
    rw [List.length_reverse, List.length_append, htlen, hrkt]
    simp [Nat.add_comm]
  refine ⟨hpath, ?_, rfl, ?_⟩
  · intro p hp
    obtain ⟨hpne, hph, hpl, hpc⟩ := hp
    have hprop : ∀ u ∈ g.Nodes, (alookup (bfsFinal g start).visited u).isSome = true →
        ∀ q ∈ adjOf g u, (alookup (bfsFinal g start).visited q.1).isSome = true ∧
          dval (bfsFinal g start).dist q.1 ≤ dval (bfsFinal g start).dist u + 1 := by
      intro u _ hu q hq2
      exact hinv.processed u hu (by rw [hq]; simp) q hq2
    obtain ⟨_, hbound⟩ := chain_bound hprop p start target hpc hph hpl hinv.vstart
    rw [dval_eq_of_alookup hnt, dval_eq_of_alookup hinv.dstart] at hbound
    have hb2 : (((nt : ℕ) : ℚ) : WithTop ℚ) ≤ (((p.length - 1 : ℕ) : ℚ) : WithTop ℚ) := by
      calc (((nt : ℕ) : ℚ) : WithTop ℚ)
          ≤ ((0 : ℚ) : WithTop ℚ) + (((p.length - 1 : ℕ) : ℚ) : WithTop ℚ) := hbound
        _ = (((p.length - 1 : ℕ) : ℚ) : WithTop ℚ) := by
            rw [← WithTop.coe_add, zero_add]
    have hb3 : nt ≤ p.length - 1 := by exact_mod_cast hb2
    have hplen : 1 ≤ p.length := List.length_pos.mpr hpne
    rw [hlen_path]
    omega
  · show dval (bfsFinal g start).dist target = _
    rw [dval_eq_of_alookup hnt, hlen_path]
    norm_num

/-- C2 witness: the five-node unit-weight line graph, end to end. -/
theorem C2_witness :
    wf exLine.gd ∧ exNode 5 ≠ exNode 1 ∧
      Reachable exLine.gd (exNode 1) (exNode 5) ∧
      (IsPath exLine.gd (exNode 1) (exNode 5)
          (exLine.gd.BFSTo (exNode 1) (exNode 5)).1 ∧
        (∀ p, IsPath exLine.gd (exNode 1) (exNode 5) p →
          (exLine.gd.BFSTo (exNode 1) (exNode 5)).1.length ≤ p.length) ∧
        (exLine.gd.BFSTo (exNode 1) (exNode 5)).2.1 =
          (exLine.gd.BFSTo (exNode 1) (exNode 5)).1.length ∧
        (exLine.gd.BFSTo (exNode 1) (exNode 5)).2.2 =
          ((((exLine.gd.BFSTo (exNode 1) (exNode 5)).1.length - 1 : ℕ) : ℚ) :
            WithTop ℚ)) :=
  ⟨by decide, by decide,
    ⟨[exNode 1, exNode 2, exNode 3, exNode 4, exNode 5], by decide⟩,
    C2_bfs_shortest exLine.gd (by decide) (exNode 1) (exNode 5) (by decide)
      ⟨[exNode 1, exNode 2, exNode 3, exNode 4, exNode 5], by decide⟩⟩

/-- C7: `DijkstraTo(start, start)` returns the degenerate result — path
`[start]`, length 1, cost 0 — realized through the stored self-sentinel
`predecessor(start) = start` and not through a special-cased branch.  As
stated for every graph the claim is false: a negative self-loop drives the
reported cost below zero (see the refutation on `exNegLoop`), so the claim
is proved under the library's documented non-negative-weight Dijkstra
precondition. -/
theorem C7_self_target [Inhabited K] (g : graphData K) (hwf : wf g) (hnn : NonNeg g)
    (s : Node K) :
    g.DijkstraTo s s = ([s], 1, ((0 : ℚ) : WithTop ℚ)) ∧
      alookup (g.Dijkstra s).2 s = some s := by
  obtain ⟨⟨done, hinv⟩, hq⟩ := dij_opt_final g hwf hnn s
  have hps : alookup (dijFinal g s).prev s = some s := hinv.pstart
  have hds : alookup (dijFinal g s).dist s = some ((0 : ℚ) : WithTop ℚ) := hinv.dstart
  refine ⟨?_, hps⟩
  have hdto : g.DijkstraTo s s =
      (match alookup (dijFinal g s).prev s with
      | none => ([], 0, (⊤ : WithTop ℚ))
      | some _ =>
        ((walkBack (dijFinal g s).prev s (1 + (dijFinal g s).prev.length) s [s]).reverse,
          (walkBack (dijFinal g s).prev s
            (1 + (dijFinal g s).prev.length) s [s]).reverse.length,
          dval (dijFinal g s).dist s)) := rfl
  rw [hdto, hps]
  show ((walkBack (dijFinal g s).prev s (1 + (dijFinal g s).prev.length) s [s]).reverse,
      (walkBack (dijFinal g s).prev s
        (1 + (dijFinal g s).prev.length) s [s]).reverse.length,
      dval (dijFinal g s).dist s) = ([s], 1, ((0 : ℚ) : WithTop ℚ))
  rw [walkBack_from_start (dijFinal g s).prev s (1 + (dijFinal g s).prev.length) [s],
    dval_eq_of_alookup hds]
  rfl

/-- C7, universal form refuted: on the one-node graph with a self-loop of
weight `-1`, the degenerate query reports cost `-1`, not the claimed `0`. -/
theorem C7_counterexample :
    exNegLoop.gd.DijkstraTo (exNode 0) (exNode 0) ≠
        ([exNode 0], 1, ((0 : ℚ) : WithTop ℚ)) ∧
      exNegLoop.gd.DijkstraTo (exNode 0) (exNode 0) =
        ([exNode 0], 1, ((-1 : ℚ) : WithTop ℚ)) := by
  with_unfolding_all decide

/-- C7 witness: the degenerate query on the concrete line graph. -/
theorem C7_witness :
    wf exLine.gd ∧ NonNeg exLine.gd ∧
      (exLine.gd.DijkstraTo (exNode 1) (exNode 1) =
          ([exNode 1], 1, ((0 : ℚ) : WithTop ℚ)) ∧
        alookup (exLine.gd.Dijkstra (exNode 1)).2 (exNode 1) = some (exNode 1)) :=
  ⟨by decide, by decide, C7_self_target exLine.gd (by decide) (by decide) (exNode 1)⟩

/-- C1: with non-negative edge weights, for every target reachable from
`start` the `DijkstraTo` result is a path from `start` to `target` along
stored adjacency entries, the reported length is its node count, and the
reported cost is finite and equal to the minimum total edge weight over all
paths from `start` to `target`. -/
theorem C1_dijkstra_least_cost [Inhabited K] (g : graphData K) (hwf : wf g)
    (hnn : NonNeg g) (start target : Node K) (hr : Reachable g start target) :
    IsPath g start target (g.DijkstraTo start target).1 ∧
    (g.DijkstraTo start target).2.1 = (g.DijkstraTo start target).1.length ∧
    ∃ q : ℚ, (g.DijkstraTo start target).2.2 = ((q : ℚ) : WithTop ℚ) ∧
      IsLeastCost g start target q := by
  obtain ⟨⟨done, hinv⟩, hq⟩ := dij_opt_final g hwf hnn start
  have hdto : g.DijkstraTo start target =
      (match alookup (dijFinal g start).prev target with
      | none => ([], 0, (⊤ : WithTop ℚ))
      | some _ =>
        ((walkBack (dijFinal g start).prev start (1 + (dijFinal g start).prev.length)
            target [target]).reverse,
          (walkBack (dijFinal g start).prev start (1 + (dijFinal g start).prev.length)
            target [target]).reverse.length,
          dval (dijFinal g start).dist target)) := rfl
  by_cases hts : target = start
  · subst hts
    have hres : g.DijkstraTo target target =
        ([target], 1, ((0 : ℚ) : WithTop ℚ)) := by
      rw [hdto, hinv.pstart]
      show ((walkBack (dijFinal g target).prev target
          (1 + (dijFinal g target).prev.length) target [target]).reverse,
        (walkBack (dijFinal g target).prev target
          (1 + (dijFinal g target).prev.length) target [target]).reverse.length,
        dval (dijFinal g target).dist target) = _
      rw [walkBack_from_start (dijFinal g target).prev target
        (1 + (dijFinal g target).prev.length) [target],
        dval_eq_of_alookup hinv.dstart]
      rfl
    rw [hres]
    refine ⟨IsPath_single g target, rfl, 0, rfl, ?_⟩
    exact ⟨⟨[target], IsPath_single g target, rfl⟩,
      fun p hp => costOf_nonneg_chain hnn p hp.2.2.2⟩
  · have hfin_t : finD (dijFinal g start).dist target :=
      (dij_fin_iff_reach g hwf start target).mpr hr
    have hsome_t : (alookup (dijFinal g start).prev target).isSome :=
      (hinv.prevfin target).mpr hfin_t
    have hdone_of_nodes : ∀ v ∈ g.Nodes, v ∈ done := by
      intro v hv
      rcases (hinv.nodesplit v).mp hv with h | h
      · rw [hq] at h; simp at h
      · exact h
    have hindone : ∀ v, v ≠ start → (alookup (dijFinal g start).prev v).isSome →
        v ∈ done := by
      intro v hvs hvsome
      rcases hinv.finnode v ((hinv.prevfin v).mp hvsome) with h | h
      · exact absurd h hvs
      · exact hdone_of_nodes v h
    have hstep : ∀ v, v ≠ start → ∀ u, alookup (dijFinal g start).prev v = some u →
        edgeEx g u v ∧ (alookup (dijFinal g start).prev u).isSome ∧
          (u ≠ start → done.indexOf u < done.indexOf v) := by
      intro v hvs u hu
      obtain ⟨hedge, _, hfu, hrank⟩ := hinv.prevrank v u hu hvs
      exact ⟨hedge, (hinv.prevfin u).mpr hfu,
        fun _ => hrank (hindone v hvs (by rw [hu]; rfl))⟩
    obtain ⟨tail, hne', hlast', hnd', hsub', _, hchain', heval'⟩ :=
      walkBack_build (fun v => done.indexOf v) hstep (done.indexOf target + 1) target
        (Nat.lt_succ_self _) hts hsome_t
    have hlen : tail.length ≤ 1 + (dijFinal g start).prev.length := by
      have h1 : tail.length ≤ (akeys (dijFinal g start).prev).length :=
        (List.subperm_of_subset hnd' hsub').length_le
      have h2 : (akeys (dijFinal g start).prev).length =
          (dijFinal g start).prev.length := by
        unfold akeys
        rw [List.length_map]
      omega
    have hwalk := heval' (1 + (dijFinal g start).prev.length) [target] hlen
    obtain ⟨u0, hu0⟩ := Option.isSome_iff_exists.mp hsome_t
    have hres : g.DijkstraTo start target =
        (([target] ++ tail).reverse, ([target] ++ tail).reverse.length,
          dval (dijFinal g start).dist target) := by
      rw [hdto, hu0]
      show ((walkBack (dijFinal g start).prev start
          (1 + (dijFinal g start).prev.length) target [target]).reverse,
        (walkBack (dijFinal g start).prev start
          (1 + (dijFinal g start).prev.length) target [target]).reverse.length,
        dval (dijFinal g start).dist target) = _
      rw [hwalk]
    rw [hres]
    have hpath : IsPath g start target ([target] ++ tail).reverse := by
      rw [List.reverse_append, List.reverse_singleton]
      refine ⟨by simp, ?_, List.getLast?_concat _, hchain'⟩
      rw [List.head?_append, List.head?_reverse, hlast']
      rfl
    obtain ⟨qt, hqt⟩ := hfin_t
    have htd : target ∈ done := hindone target hts hsome_t
    refine ⟨hpath, rfl, qt, ?_, hinv.settled target htd qt hqt⟩
    show dval (dijFinal g start).dist target = _
    exact dval_eq_of_alookup hqt

/-- C1 witness: the five-node unit-weight line graph, end to end. -/
theorem C1_witness :
    wf exLine.gd ∧ NonNeg exLine.gd ∧
      Reachable exLine.gd (exNode 1) (exNode 5) ∧
      (IsPath exLine.gd (exNode 1) (exNode 5)
          (exLine.gd.DijkstraTo (exNode 1) (exNode 5)).1 ∧
        (exLine.gd.DijkstraTo (exNode 1) (exNode 5)).2.1 =
          (exLine.gd.DijkstraTo (exNode 1) (exNode 5)).1.length ∧
        ∃ q : ℚ, (exLine.gd.DijkstraTo (exNode 1) (exNode 5)).2.2 =
            ((q : ℚ) : WithTop ℚ) ∧
          IsLeastCost exLine.gd (exNode 1) (exNode 5) q) :=
  ⟨by decide, by decide,
    ⟨[exNode 1, exNode 2, exNode 3, exNode 4, exNode 5], by decide⟩,
    C1_dijkstra_least_cost exLine.gd (by decide) (by decide) (exNode 1) (exNode 5)
      ⟨[exNode 1, exNode 2, exNode 3, exNode 4, exNode 5], by decide⟩⟩

end GoGraph
